import Mathlib

/-!
# kawaii: a minimal Lisp interpreter (shallow embedding of `kawaii.c`)

Conventions of the embedding.

* A C character is a `Nat` (its value as an `unsigned char`); a `string_t`
  (pointer + length) is the list of the `len` characters it designates.
* The source text is the list of characters from the cursor `p` to the
  terminating NUL; the NUL itself is the end of the list (a `0` inside the
  list is read as a NUL as well).
* `uint32_t` / `uint64_t` arithmetic is `Nat` arithmetic reduced `% 2^32` /
  `% 2^64`; `int64_t` arithmetic is `Int` arithmetic wrapped by `wrap64`.
* `exit`, `assert` failures and undefined behaviour are errors of type `Err`.
* Frames live in a heap indexed by addresses; `cur_env` is an address.
-/

namespace Kawaii

/-! ## Strings -/

/-- A `string_t`: the characters `begin[0 .. len)`. -/
abbrev string_t := List Nat

/-- The characters of a Lean string literal, as C characters. -/
def STRING (s : String) : string_t := s.toList.map Char.toNat

/-- Source: `tolower` of the C locale. -/
def tolower (c : Nat) : Nat := if 65 ≤ c ∧ c ≤ 90 then c + 32 else c

/-- Source: `strncasecmp(a, b, n) == 0` for two buffers of `n` characters each: the
characters are compared after `tolower`, and the comparison stops after a NUL. -/
def strncasecmp_eq : List Nat → List Nat → Bool
  | a :: as, b :: bs =>
    if tolower a ≠ tolower b then false
    else if tolower a = 0 then true
    else strncasecmp_eq as bs
  | _, _ => true

/-- Source: `string_eq`: same length and `strncasecmp` over that length gives 0. -/
def string_eq (lhs rhs : string_t) : Bool :=
  lhs.length == rhs.length && strncasecmp_eq lhs rhs

/-- The value of a `char` (signed on the target) after integer promotion. -/
def char_to_int (c : Nat) : Int := if c < 128 then (c : Int) else (c : Int) - 256

/-- One round of the loop in `hash`: `ret = (ret << 1) + key.begin[i] * 131`
in `uint64_t`. -/
def hash_step (ret : Nat) (c : Nat) : Nat :=
  (((ret : Int) * 2 + char_to_int c * 131) % (2 ^ 64 : Int)).toNat

/-- Source: `hash`. -/
def hash (key : string_t) : Nat := key.foldl hash_step 0

/-! ## Values -/

/-- The primitive tags of `type_t` (`PRIM_ADD` .. `PRIM_LAMBDA`). -/
inductive Prim
  | ADD | SUB | MUL | DIV | EQ | GT | LT | LE | GE | NE | NOT | IF | DEF | LAMBDA
  deriving DecidableEq

/-- A `value_t`. A `LIST` holds its cell chain, a `FUNC` its two cell chains. -/
inductive Value
  | EMPTY
  | INT (as_int : Int)
  | BOOL (as_bool : Bool)
  | LIST (as_list : List Value)
  | SYMB (as_symb : string_t)
  | FUNC (params : List Value) (body : List Value)
  | PRIM (p : Prim)

mutual
/-- Decidable equality of values (the derive handler does not cover the
nesting through `List`). -/
def Value.decEq : (a b : Value) → Decidable (a = b)
  | .EMPTY, .EMPTY => isTrue rfl
  | .INT a, .INT b =>
    if h : a = b then isTrue (h ▸ rfl) else isFalse (fun e => h (Value.INT.inj e))
  | .BOOL a, .BOOL b =>
    if h : a = b then isTrue (h ▸ rfl) else isFalse (fun e => h (Value.BOOL.inj e))
  | .SYMB a, .SYMB b =>
    if h : a = b then isTrue (h ▸ rfl) else isFalse (fun e => h (Value.SYMB.inj e))
  | .PRIM a, .PRIM b =>
    if h : a = b then isTrue (h ▸ rfl) else isFalse (fun e => h (Value.PRIM.inj e))
  | .LIST a, .LIST b =>
    match Value.decEqList a b with
    | isTrue h => isTrue (h ▸ rfl)
    | isFalse h => isFalse (fun e => h (Value.LIST.inj e))
  | .FUNC p b, .FUNC q c =>
    match Value.decEqList p q, Value.decEqList b c with
    | isTrue h, isTrue k => isTrue (h ▸ k ▸ rfl)
    | isFalse h, _ => isFalse (fun e => h (Value.FUNC.inj e).1)
    | _, isFalse k => isFalse (fun e => k (Value.FUNC.inj e).2)
  | .EMPTY, .INT _ => isFalse nofun
  | .EMPTY, .BOOL _ => isFalse nofun
  | .EMPTY, .LIST _ => isFalse nofun
  | .EMPTY, .SYMB _ => isFalse nofun
  | .EMPTY, .FUNC _ _ => isFalse nofun
  | .EMPTY, .PRIM _ => isFalse nofun
  | .INT _, .EMPTY => isFalse nofun
  | .INT _, .BOOL _ => isFalse nofun
  | .INT _, .LIST _ => isFalse nofun
  | .INT _, .SYMB _ => isFalse nofun
  | .INT _, .FUNC _ _ => isFalse nofun
  | .INT _, .PRIM _ => isFalse nofun
  | .BOOL _, .EMPTY => isFalse nofun
  | .BOOL _, .INT _ => isFalse nofun
  | .BOOL _, .LIST _ => isFalse nofun
  | .BOOL _, .SYMB _ => isFalse nofun
  | .BOOL _, .FUNC _ _ => isFalse nofun
  | .BOOL _, .PRIM _ => isFalse nofun
  | .LIST _, .EMPTY => isFalse nofun
  | .LIST _, .INT _ => isFalse nofun
  | .LIST _, .BOOL _ => isFalse nofun
  | .LIST _, .SYMB _ => isFalse nofun
  | .LIST _, .FUNC _ _ => isFalse nofun
  | .LIST _, .PRIM _ => isFalse nofun
  | .SYMB _, .EMPTY => isFalse nofun
  | .SYMB _, .INT _ => isFalse nofun
  | .SYMB _, .BOOL _ => isFalse nofun
  | .SYMB _, .LIST _ => isFalse nofun
  | .SYMB _, .FUNC _ _ => isFalse nofun
  | .SYMB _, .PRIM _ => isFalse nofun
  | .FUNC _ _, .EMPTY => isFalse nofun
  | .FUNC _ _, .INT _ => isFalse nofun
  | .FUNC _ _, .BOOL _ => isFalse nofun
  | .FUNC _ _, .LIST _ => isFalse nofun
  | .FUNC _ _, .SYMB _ => isFalse nofun
  | .FUNC _ _, .PRIM _ => isFalse nofun
  | .PRIM _, .EMPTY => isFalse nofun
  | .PRIM _, .INT _ => isFalse nofun
  | .PRIM _, .BOOL _ => isFalse nofun
  | .PRIM _, .LIST _ => isFalse nofun
  | .PRIM _, .SYMB _ => isFalse nofun
  | .PRIM _, .FUNC _ _ => isFalse nofun
/-- Decidable equality of cell chains. -/
def Value.decEqList : (a b : List Value) → Decidable (a = b)
  | [], [] => isTrue rfl
  | [], _ :: _ => isFalse nofun
  | _ :: _, [] => isFalse nofun
  | a :: as, b :: bs =>
    match Value.decEq a b, Value.decEqList as bs with
    | isTrue h, isTrue k => isTrue (h ▸ k ▸ rfl)
    | isFalse h, _ => isFalse (fun e => h (List.cons.inj e).1)
    | _, isFalse k => isFalse (fun e => k (List.cons.inj e).2)
end

instance : DecidableEq Value := Value.decEq

/-! ## Environment frames -/

/-- An `env_entry_t`; the `next` pointer is the tail of the chain it sits in. -/
structure env_entry_t where
  key_hash : Nat
  key : string_t
  val : Value
  deriving DecidableEq

/-- An `env_t`. The field `size` is the length of `slots`; `parent` is the
address of the parent frame (`none` for `NULL`). -/
structure env_t where
  slots : List (List env_entry_t)
  num_entries : Nat
  parent : Option Nat
  deriving DecidableEq

/-- The field `size`: the number of buckets. -/
def env_t.size (env : env_t) : Nat := env.slots.length

/-- Source: `alloc_env`. -/
def alloc_env (papa : Option Nat) (size : Nat) : env_t :=
  { slots := List.replicate size [], num_entries := 0, parent := papa }

/-- The test of the loop in `__env_lookup`. -/
def entry_matches (h : Nat) (key : string_t) (entry : env_entry_t) : Bool :=
  h == entry.key_hash && string_eq key entry.key

/-- The bucket `env->slots[h % env->size]`. -/
def env_t.bucket (env : env_t) (h : Nat) : List env_entry_t :=
  env.slots.getD (h % env.size) []

/-- Source: `__env_lookup`: the first entry of the bucket that matches. -/
def __env_lookup (env : env_t) (key : string_t) : Option env_entry_t :=
  (env.bucket (hash key)).find? (entry_matches (hash key) key)

/-- Source: `env_lookup`. -/
def env_lookup (env : env_t) (key : string_t) : Option Value :=
  (__env_lookup env key).map (fun entry => entry.val)

/-- Source: `entry->val = val` on the first matching entry of a chain. -/
def chain_set_val (h : Nat) (key : string_t) (val : Value) :
    List env_entry_t → List env_entry_t
  | [] => []
  | e :: es =>
    if entry_matches h key e then { e with val := val } :: es
    else e :: chain_set_val h key val es

/-- The second half of `env_add` (after the rehash): overwrite the matching
entry or push a new entry in front of the bucket. -/
def env_put (env : env_t) (key : string_t) (val : Value) : env_t :=
  let h := hash key
  match __env_lookup env key with
  | some _ =>
    { env with slots := env.slots.set (h % env.size) (chain_set_val h key val (env.bucket h)) }
  | none =>
    { env with
      slots := env.slots.set (h % env.size)
        ({ key_hash := h, key := key, val := val } :: env.bucket h)
      num_entries := (env.num_entries + 1) % 2 ^ 32 }

/-- All entries in the order in which the rehash loop visits them. -/
def env_t.entries (env : env_t) : List env_entry_t := env.slots.flatten

/-- Source: `env_add`, with the recursion of the rehash bounded by `fuel`; the call
on the fresh table holds fewer entries than `env`, so `entries.length + 1`
is always enough (see `env_add`). -/
def env_add_aux : Nat → env_t → string_t → Value → env_t
  | 0, env, _, _ => env
  | fuel + 1, env, key, val =>
    let env1 :=
      if (env.num_entries * 2) % 2 ^ 32 ≥ env.size then
        env.entries.foldl (fun new_env entry => env_add_aux fuel new_env entry.key entry.val)
          (alloc_env env.parent ((env.size * 2 + 1) % 2 ^ 32))
      else env
    env_put env1 key val

/-- Source: `env_add`. -/
def env_add (env : env_t) (key : string_t) (val : Value) : env_t :=
  env_add_aux (env.entries.length + 1) env key val

/-- Source: `ENV_INIT_SIZE`. -/
def ENV_INIT_SIZE : Nat := 16

/-! ## Failure -/

/-- The ways in which a call does not return. -/
inductive Err
  /-- The call `exit_on(true, msg)`: the message goes to stderr, then `exit(-1)`. -/
  | exit_on (msg : String)
  /-- The call `exit(0)` of `read` at the end of the input. -/
  | program_done
  /-- A failing `assert`. -/
  | assert_fail
  /-- An integer division the hardware traps on (zero divisor, or
  `INT64_MIN / -1`). -/
  | division_trap
  /-- Behaviour the source does not determine: a dereference of `NULL` or of a
  freed frame, or a union member read as an integer while it holds a pointer. -/
  | undefined_behaviour
  /-- The recursion bound of the embedding is used up. -/
  | out_of_fuel
  deriving DecidableEq

deriving instance DecidableEq for Except

/-! ## Reader -/

/-- Source: `isspace` of the C locale. -/
def isspace (c : Nat) : Bool := c == 32 || (9 ≤ c && c ≤ 13)

/-- Source: `isdigit`. -/
def isdigit (c : Nat) : Bool := 48 ≤ c && c ≤ 57

/-- Source: `peekc`: the character under the cursor, NUL at the end of the text. -/
def peekc (p : List Nat) : Nat := p.headD 0

/-- Source: `read_spaces`: the cursor moves over the white space. -/
def read_spaces : List Nat → List Nat
  | [] => []
  | c :: p => if isspace c then read_spaces p else c :: p

/-- Source: `read_comment`: the cursor moves behind the next newline, or stops at
the NUL. -/
def read_comment : List Nat → List Nat
  | [] => []
  | c :: p => if c = 0 then c :: p else if c = 10 then p else read_comment p

/-- Source: `read_symb`: the token under the cursor and the cursor behind it. -/
def read_symb : List Nat → string_t × List Nat
  | [] => ([], [])
  | c :: p =>
    if c ≠ 0 ∧ ¬ isspace c ∧ c ≠ 40 ∧ c ≠ 41 then
      ((c :: (read_symb p).1), (read_symb p).2)
    else ([], c :: p)

/-- The loop of `is_number` from index `i` on, for a token of length `len`. -/
def is_number_loop (len : Nat) : Nat → List Nat → Bool
  | _, [] => true
  | i, c :: cs =>
    if i = 0 ∧ len > 1 ∧ (c = 43 ∨ c = 45) then is_number_loop len (i + 1) cs
    else if ¬ isdigit c then false
    else is_number_loop len (i + 1) cs

/-- Source: `is_number`. -/
def is_number (symb : string_t) : Bool := is_number_loop symb.length 0 symb

/-- The digits loop of `strtoll`: the value of the leading run of digits. -/
def atoll_digits (acc : Nat) : List Nat → Nat
  | [] => acc
  | c :: cs => if isdigit c then atoll_digits (acc * 10 + (c - 48)) cs else acc

/-- Source: `atoll` on the text at `symb.begin` (glibc: `strtoll(s, NULL, 10)`, which
skips white space, takes a sign and the leading digits, and saturates). -/
def atoll (s : List Nat) : Int :=
  match read_spaces s with
  | [] => 0
  | c :: cs =>
    if c = 45 then max (-(2 ^ 63)) (-(atoll_digits 0 cs : Int))
    else if c = 43 then min (2 ^ 63 - 1) (atoll_digits 0 cs : Int)
    else min (2 ^ 63 - 1) (atoll_digits 0 (c :: cs) : Int)

/-- Source: `make_list`. -/
def make_list (list : List Value) : Value :=
  match list with
  | [] => .EMPTY
  | _ :: _ => .LIST list

mutual
/-- Source: `read`: the value read (`none` for the `NULL` a `)` gives) and the cursor
behind it. Every call takes one unit of `fuel`. -/
def read : Nat → List Nat → Except Err (Option Value × List Nat)
  | 0, _ => .error .out_of_fuel
  | fuel + 1, p0 =>
    let p := read_spaces p0
    if peekc p = 0 then .error .program_done
    else if peekc p = 59 then read fuel (read_comment p)
    else if peekc p = 41 then .ok (none, p.tail)
    else if peekc p = 40 then
      let p1 := read_spaces p.tail
      if peekc p1 = 41 then .ok (some .EMPTY, p1.tail)
      else
        match read_list fuel p1 with
        | .error e => .error e
        | .ok (list, p2) => .ok (some (make_list list), p2)
    else
      let symb := read_symb p
      .ok (some (if is_number symb.1 then .INT (atoll p) else .SYMB symb.1), symb.2)
/-- Source: `read_list`. -/
def read_list : Nat → List Nat → Except Err (List Value × List Nat)
  | 0, _ => .error .out_of_fuel
  | fuel + 1, p =>
    match read fuel p with
    | .error e => .error e
    | .ok (none, p1) => .ok ([], p1)
    | .ok (some val, p1) =>
      match read_list fuel p1 with
      | .error e => .error e
      | .ok (list, p2) => .ok (val :: list, p2)
end

/-! ## Printer -/

/-- The decimal digits of `n`, most significant first, in front of `acc`. -/
def print_nat_aux : Nat → Nat → List Nat → List Nat
  | 0, _, acc => acc
  | fuel + 1, n, acc =>
    if n < 10 then (48 + n) :: acc
    else print_nat_aux fuel (n / 10) ((48 + n % 10) :: acc)

/-- What `printf("%ld", n)` writes. -/
def print_int (n : Int) : List Nat :=
  if n < 0 then 45 :: print_nat_aux (n.natAbs + 1) n.natAbs []
  else print_nat_aux (n.natAbs + 1) n.natAbs []

mutual
/-- Source: `print`: the characters written to stdout. -/
def print : Value → Except Err (List Nat)
  | .EMPTY => .ok []
  | .INT n => .ok (print_int n)
  | .BOOL b => .ok [35, if b then 116 else 102]
  | .FUNC _ _ => .ok (STRING "#[function]")
  | .LIST list =>
    match print_cells list with
    | .error e => .error e
    | .ok out => .ok (40 :: (out ++ [41]))
  | .SYMB str => .ok str
  | .PRIM _ => .error .assert_fail
/-- The loop of `print_list`: every element followed by a blank. -/
def print_cells : List Value → Except Err (List Nat)
  | [] => .ok []
  | v :: rest =>
    match print v with
    | .error e => .error e
    | .ok out =>
      match print_cells rest with
      | .error e => .error e
      | .ok outs => .ok (out ++ 32 :: outs)
end

/-! ## Interpreter state -/

/-- The frames allocated so far, by address (`none`: freed), and `cur_env`. -/
structure State where
  heap : List (Option env_t)
  cur_env : Nat
  deriving DecidableEq

/-- The frame at an address, if it is allocated and not freed. -/
def State.deref (s : State) (a : Nat) : Option env_t := s.heap.getD a none

/-- Source: `bind`: `env_add(cur_env, symb, val)`. -/
def bind (symb : string_t) (val : Value) (s : State) : Except Err State :=
  match s.deref s.cur_env with
  | none => .error .undefined_behaviour
  | some env => .ok { s with heap := s.heap.set s.cur_env (some (env_add env symb val)) }

/-- The loop of `lookup` from the frame `env` on; every frame visited takes
one unit of `fuel`. -/
def lookup_from : Nat → State → Option Nat → string_t → Except Err (Option Value)
  | _, _, none, _ => .ok none
  | 0, _, some _, _ => .error .out_of_fuel
  | fuel + 1, s, some a, symb =>
    match s.deref a with
    | none => .error .undefined_behaviour
    | some env =>
      match env_lookup env symb with
      | some val => .ok (some val)
      | none => lookup_from fuel s env.parent symb

/-- Source: `lookup`. -/
def lookup (fuel : Nat) (s : State) (symb : string_t) : Except Err (Option Value) :=
  lookup_from fuel s (some s.cur_env) symb

/-! ## Primitives over evaluated arguments -/

/-- Wrap-around to `int64_t`. -/
def wrap64 (x : Int) : Int := (x + 2 ^ 63) % 2 ^ 64 - 2 ^ 63

/-- The loop of `prim_add`. -/
def prim_add_loop (res : Int) : List Value → Except Err Int
  | [] => .ok res
  | .INT n :: args => prim_add_loop (wrap64 (res + n)) args
  | _ :: _ => .error (.exit_on "argument type unmatched")

/-- Source: `prim_add`. -/
def prim_add (args : List Value) : Except Err Value :=
  (prim_add_loop 0 args).map Value.INT

/-- The member `as_int` of the union, whatever the tag: a `bool` overlays its
low byte on zeroed storage, a pointer member that is `NULL` reads as 0, any
other pointer has no value the source determines. -/
def union_as_int : Value → Option Int
  | .INT n => some n
  | .BOOL b => some (if b then 1 else 0)
  | .EMPTY => some 0
  | .PRIM _ => some 0
  | .FUNC [] _ => some 0
  | _ => none

/-- The loop of `prim_sub`. -/
def prim_sub_loop (res : Int) : List Value → Except Err Int
  | [] => .ok res
  | .INT n :: args => prim_sub_loop (wrap64 (res - n)) args
  | _ :: _ => .error (.exit_on "argument type unmatched")

/-- Source: `prim_sub`: with two or more arguments the first one is taken as the
start value without a check of its tag. -/
def prim_sub (args : List Value) : Except Err Value :=
  match args with
  | first :: second :: rest =>
    match union_as_int first with
    | none => .error .undefined_behaviour
    | some res => (prim_sub_loop res (second :: rest)).map Value.INT
  | _ => (prim_sub_loop 0 args).map Value.INT

/-- The loop of `prim_mul`. -/
def prim_mul_loop (res : Int) : List Value → Except Err Int
  | [] => .ok res
  | .INT n :: args => prim_mul_loop (wrap64 (res * n)) args
  | _ :: _ => .error (.exit_on "argument type unmatched")

/-- Source: `prim_mul`. -/
def prim_mul (args : List Value) : Except Err Value :=
  (prim_mul_loop 1 args).map Value.INT

/-- The loop of `prim_div`; `/` of C truncates toward zero. -/
def prim_div_loop (res : Int) : List Value → Except Err Int
  | [] => .ok res
  | .INT n :: args =>
    if n = 0 ∨ (res = -(2 ^ 63) ∧ n = -1) then .error .division_trap
    else prim_div_loop (Int.tdiv res n) args
  | _ :: _ => .error (.exit_on "argument type unmatched")

/-- Source: `prim_div`. -/
def prim_div (args : List Value) : Except Err Value :=
  match args with
  | [] => .error (.exit_on "div needs at least one arguments")
  | .INT res :: rest => (prim_div_loop res rest).map Value.INT
  | _ :: _ => .error (.exit_on "argument type unmatched")

/-- Source: `prim_rel`; `op` is one of the six relational tags. -/
def prim_rel (op : Prim) (list : List Value) : Except Err Value :=
  match list with
  | [] => .error (.exit_on "expect two operands")
  | [_] => .error (.exit_on "expect two operands")
  | .INT lhs :: .INT rhs :: _ =>
    match op with
    | .EQ => .ok (.BOOL (decide (lhs = rhs)))
    | .GT => .ok (.BOOL (decide (lhs > rhs)))
    | .LT => .ok (.BOOL (decide (lhs < rhs)))
    | .LE => .ok (.BOOL (decide (lhs ≤ rhs)))
    | .GE => .ok (.BOOL (decide (lhs ≥ rhs)))
    | .NE => .ok (.BOOL (decide (lhs ≠ rhs)))
    | _ => .error .assert_fail
  | _ :: _ :: _ => .error (.exit_on "expect number")

/-- Source: `prim_not`. -/
def prim_not (list : List Value) : Except Err Value :=
  match list with
  | .BOOL b :: _ => .ok (.BOOL (!b))
  | _ => .error (.exit_on "expect bool expression")

/-- Source: `is_lambda`. -/
def is_lambda (list : List Value) : Except Err Bool :=
  match list with
  | [] => .error .undefined_behaviour
  | .SYMB symb :: _ => .ok (string_eq symb (STRING "lambda"))
  | _ :: _ => .ok false

/-- Source: `prim_lambda`. -/
def prim_lambda (list : List Value) : Except Err Value :=
  match list with
  | [] => .error .undefined_behaviour
  | .LIST params :: rest =>
    if rest = [] then .error (.exit_on "expect expression") else .ok (.FUNC params rest)
  | .EMPTY :: rest =>
    if rest = [] then .error (.exit_on "expect expression") else .ok (.FUNC [] rest)
  | _ :: _ => .error (.exit_on "expect parameter list")

/-! ## Evaluator

`eval`, `eval_each`, `apply`, `prim_def` and `prim_if` call each other. Each
is written over the evaluator `ev` it calls back; `eval` ties the knot, one
unit of fuel per nesting of `eval`. -/

/-- The type of `eval` at a fixed fuel. -/
abbrev Evaluator := Value → State → Except Err (Value × State)

/-- Source: `eval_each`. -/
def eval_each (ev : Evaluator) : List Value → State → Except Err (List Value × State)
  | [], s => .ok ([], s)
  | v :: list, s =>
    match ev v s with
    | .error e => .error e
    | .ok (val, s1) =>
      match eval_each ev list s1 with
      | .error e => .error e
      | .ok (vals, s2) => .ok (val :: vals, s2)

/-- The loop of `apply` that binds the parameters, with the `exit_on` behind it. -/
def bind_params : List Value → List Value → State → Except Err State
  | p :: params, a :: args, s =>
    match p with
    | .SYMB symb =>
      match bind symb a s with
      | .error e => .error e
      | .ok s1 => bind_params params args s1
    | _ => .error (.exit_on "parameter is not symbol")
  | [], [], s => .ok s
  | _ :: _, [], _ => .error (.exit_on "too less args")
  | [], _ :: _, _ => .error (.exit_on "too many args")

/-- The first two statements of `apply`: the new frame gets the next address,
its parent is the frame that is current, and it becomes the current frame. -/
def enter_call (s : State) : State :=
  { heap := s.heap ++ [some (alloc_env (some s.cur_env) ENV_INIT_SIZE)],
    cur_env := s.heap.length }

/-- Source: `apply`. -/
def apply (ev : Evaluator) (func : Value) (args : List Value) (s : State) :
    Except Err (Value × State) :=
  match func with
  | .FUNC params body =>
    let backup_env := s.cur_env
    match bind_params params args (enter_call s) with
    | .error e => .error e
    | .ok s2 =>
      match eval_each ev body s2 with
      | .error e => .error e
      | .ok (exprs, s3) =>
        match s3.deref s3.cur_env with
        | none => .error .undefined_behaviour
        | some _ =>
          .ok (exprs.getLast?.getD .EMPTY,
               { heap := s3.heap.set s3.cur_env none, cur_env := backup_env })
  | _ => .error .assert_fail

/-- The test `expr->t == LIST && is_lambda(expr->as_list)` of `prim_def`. -/
def is_lambda_form (expr : Value) : Except Err Bool :=
  match expr with
  | .LIST l => is_lambda l
  | _ => .ok false

/-- Source: `prim_def`. -/
def prim_def (ev : Evaluator) (list : List Value) (s : State) : Except Err (Value × State) :=
  match list with
  | [] => .error .undefined_behaviour
  | [_] => .error (.exit_on "expect expression(s)")
  | .SYMB name :: expr :: _ =>
    let evaluated : Except Err (Value × State) :=
      match is_lambda_form expr with
      | .error e => .error e
      | .ok true => ev expr s
      | .ok false => .ok (expr, s)
    match evaluated with
    | .error e => .error e
    | .ok (expr1, s1) =>
      match bind name expr1 s1 with
      | .error e => .error e
      | .ok s2 => .ok (.SYMB name, s2)
  | .LIST name_and_params :: body1 :: body =>
    match name_and_params with
    | [] => .error .undefined_behaviour
    | .SYMB name :: params =>
      match bind name (.FUNC params (body1 :: body)) s with
      | .error e => .error e
      | .ok s1 => .ok (.SYMB name, s1)
    | _ :: _ => .error (.exit_on "expect symbol")
  | _ :: _ :: _ => .error (.exit_on "define: syntax error, expect symbol or list")

/-- Source: `prim_if`. -/
def prim_if (ev : Evaluator) (list : List Value) (s : State) : Except Err (Value × State) :=
  match list with
  | [] => .error (.exit_on "expect expression")
  | [_] => .error (.exit_on "expect expression")
  | cond :: consequent :: rest =>
    match ev cond s with
    | .error e => .error e
    | .ok (.BOOL b, s1) =>
      if b then ev consequent s1
      else
        match rest with
        | alternate :: _ => ev alternate s1
        | [] => .ok (.EMPTY, s1)
    | .ok (_, _) => .error (.exit_on "expect bool expression")

/-- A primitive on the evaluated arguments. -/
def eval_prim (ev : Evaluator) (prim : List Value → Except Err Value) (args : List Value)
    (s : State) : Except Err (Value × State) :=
  match eval_each ev args s with
  | .error e => .error e
  | .ok (vals, s1) =>
    match prim vals with
    | .error e => .error e
    | .ok v => .ok (v, s1)

/-- The `switch` of `eval` on the tag of the operator `val` of `list`. -/
def eval_dispatch (ev : Evaluator) (val : Value) (rest : List Value) (s : State) :
    Except Err (Value × State) :=
  match val with
  | .EMPTY => .ok (val, s)
  | .INT _ => .ok (val, s)
  | .LIST _ => .ok (val, s)
  | .SYMB _ => ev val s
  | .FUNC _ _ =>
    match eval_each ev rest s with
    | .error e => .error e
    | .ok (args, s1) => apply ev val args s1
  | .PRIM .ADD => eval_prim ev prim_add rest s
  | .PRIM .SUB => eval_prim ev prim_sub rest s
  | .PRIM .MUL => eval_prim ev prim_mul rest s
  | .PRIM .DIV => eval_prim ev prim_div rest s
  | .PRIM .EQ => eval_prim ev (prim_rel .EQ) rest s
  | .PRIM .GT => eval_prim ev (prim_rel .GT) rest s
  | .PRIM .LT => eval_prim ev (prim_rel .LT) rest s
  | .PRIM .LE => eval_prim ev (prim_rel .LE) rest s
  | .PRIM .GE => eval_prim ev (prim_rel .GE) rest s
  | .PRIM .NE => eval_prim ev (prim_rel .NE) rest s
  | .PRIM .DEF => prim_def ev rest s
  | .PRIM .LAMBDA =>
    match prim_lambda rest with
    | .error e => .error e
    | .ok v => .ok (v, s)
  | .PRIM .IF => prim_if ev rest s
  | .PRIM .NOT => eval_prim ev prim_not rest s
  | .BOOL _ => .error .assert_fail

/-- The body of `eval`, over the evaluator `ev` of its recursive calls; `fuel`
bounds the walk of `lookup`. -/
def eval_body (fuel : Nat) (ev : Evaluator) (val : Value) (s : State) :
    Except Err (Value × State) :=
  match val with
  | .LIST list =>
    match list with
    | [] => .error .undefined_behaviour
    | .SYMB symb :: rest =>
      match lookup fuel s symb with
      | .error e => .error e
      | .ok none => .error (.exit_on "unbound symbol")
      | .ok (some op) => eval_dispatch ev op rest s
    | head :: rest =>
      match ev head s with
      | .error e => .error e
      | .ok (op, s1) => eval_dispatch ev op rest s1
  | .SYMB symb =>
    match lookup fuel s symb with
    | .error e => .error e
    | .ok none => .error (.exit_on "unbound symbol")
    | .ok (some ret) => ev ret s
  | _ => .ok (val, s)

/-- Source: `eval`. -/
def eval : Nat → Evaluator
  | 0, _, _ => .error .out_of_fuel
  | fuel + 1, val, s => eval_body fuel (eval fuel) val s

/-! ## Start-up -/

/-- Source: `init_g_env`, on the frame `g_env`. -/
def init_g_env (g_env : env_t) : env_t :=
  let g := env_add g_env (STRING "+") (.PRIM .ADD)
  let g := env_add g (STRING "-") (.PRIM .SUB)
  let g := env_add g (STRING "*") (.PRIM .MUL)
  let g := env_add g (STRING "/") (.PRIM .DIV)
  let g := env_add g (STRING "=") (.PRIM .EQ)
  let g := env_add g (STRING ">") (.PRIM .GT)
  let g := env_add g (STRING "<") (.PRIM .LT)
  let g := env_add g (STRING ">=") (.PRIM .GE)
  let g := env_add g (STRING "<=") (.PRIM .LE)
  let g := env_add g (STRING "!=") (.PRIM .NE)
  let g := env_add g (STRING "define") (.PRIM .DEF)
  let g := env_add g (STRING "lambda") (.PRIM .LAMBDA)
  let g := env_add g (STRING "if") (.PRIM .IF)
  env_add g (STRING "not") (.PRIM .NOT)

/-- The state `repl` starts its loop in: `g_env` at address 0, initialised,
and `cur_env = g_env`. -/
def init_state : State :=
  { heap := [some (init_g_env (alloc_env none ENV_INIT_SIZE))], cur_env := 0 }

/-- One round of the loop of `repl` without the printing: `eval(read())` on
the text at the cursor. A `NULL` from `read` is dereferenced by `eval`. -/
def read_eval (fuel : Nat) (p : List Nat) (s : State) :
    Except Err (Value × List Nat × State) :=
  match read fuel p with
  | .error e => .error e
  | .ok (none, _) => .error .undefined_behaviour
  | .ok (some val, p1) =>
    match eval fuel val s with
    | .error e => .error e
    | .ok (v, s1) => .ok (v, p1, s1)

/-- The values of the first `n` rounds of `repl` on the text `p`. -/
def run (fuel : Nat) : Nat → List Nat → State → Except Err (List Value × State)
  | 0, _, s => .ok ([], s)
  | n + 1, p, s =>
    match read_eval fuel p s with
    | .error e => .error e
    | .ok (v, p1, s1) =>
      match run fuel n p1 s1 with
      | .error e => .error e
      | .ok (vs, s2) => .ok (v :: vs, s2)

/-! ## Invariants of a frame -/

/-- Two keys that `__env_lookup` does not tell apart: same hash, and equal
for `string_eq`. -/
def key_eqv (a b : string_t) : Bool := hash a == hash b && string_eq a b

/-- Every entry of the chain at index `o + j` of `cs` has a hash that selects
that index among `size` buckets. -/
def chains_pos (size : Nat) : Nat → List (List env_entry_t) → Prop
  | _, [] => True
  | o, c :: cs => (∀ e ∈ c, e.key_hash % size = o) ∧ chains_pos size (o + 1) cs

/-- The invariant of a frame: stored hashes are the hashes of the keys, every
entry sits in the bucket of its hash, and no two entries have keys the lookup
does not tell apart. -/
structure env_wf (env : env_t) : Prop where
  hashes : ∀ e ∈ env.entries, e.key_hash = hash e.key
  pos : chains_pos env.size 0 env.slots
  nodup : env.entries.Pairwise (fun a b => key_eqv a.key b.key = false)

/-- The frames `env_add` builds from a freshly allocated frame of `size`
buckets: the keys and values added, in order. -/
def env_build (papa : Option Nat) (size : Nat) (adds : List (string_t × Value)) : env_t :=
  adds.foldl (fun env kv => env_add env kv.1 kv.2) (alloc_env papa size)

/-- A sequence of bindings applied to what a key found before. -/
def apply_bindings (k1 : string_t) (es : List env_entry_t) (base : Option Value) :
    Option Value :=
  es.foldl (fun acc e => if key_eqv e.key k1 = true then some e.val else acc) base

/-- The statement proved of `env_add_aux` with enough fuel. -/
def env_add_ok (fuel : Nat) : Prop :=
  ∀ (env : env_t) (k : string_t) (v : Value), env_wf env → env.entries.length < fuel →
    env_wf (env_add_aux fuel env k v) ∧ 0 < (env_add_aux fuel env k v).size ∧
    (env_add_aux fuel env k v).parent = env.parent ∧
    (env_add_aux fuel env k v).entries.length ≤ env.entries.length + 1 ∧
    ∀ k1, env_lookup (env_add_aux fuel env k v) k1
      = if key_eqv k k1 = true then some v else env_lookup env k1

/-! ## Predicates on states and evaluators -/

/-- The frames met from the address `a` along the parent pointers, innermost
first, up to the frame without parent. -/
inductive frame_chain (s : State) : Option Nat → List env_t → Prop
  | nil : frame_chain s none []
  | cons (a : Nat) (env : env_t) (rest : List env_t) :
      s.deref a = some env → frame_chain s env.parent rest →
      frame_chain s (some a) (env :: rest)

/-- An evaluator that returns in the frame it was called in and leaves every
other frame as it was. -/
def frame_local (ev : Evaluator) : Prop :=
  ∀ v s r s', ev v s = .ok (r, s') →
    s'.cur_env = s.cur_env ∧ ∀ a, a ≠ s.cur_env → s'.deref a = s.deref a

/-- The evaluator `ev1` returns whatever `ev` returns. -/
def ev_le (ev ev1 : Evaluator) : Prop := ∀ v s r, ev v s = .ok r → ev1 v s = .ok r

/-! ## The token grammar of the specification -/

/-- A character that ends a token: the end of the input, white space, or a
parenthesis. -/
def is_delimiter (c : Nat) : Bool := c == 0 || isspace c || c == 40 || c == 41

/-- The integer grammar `(+|-)?[0-9]+` of the specification. -/
def matches_integer_grammar (tok : List Nat) : Bool :=
  match tok with
  | [] => false
  | c :: ds =>
    if c = 43 ∨ c = 45 then !ds.isEmpty && ds.all isdigit
    else (c :: ds).all isdigit

/-- The base-10 value of a string of digits. -/
def decimal_value (ds : List Nat) : Nat := ds.foldl (fun acc c => acc * 10 + (c - 48)) 0

/-- The base-10 value of a token of the integer grammar. -/
def token_value (tok : List Nat) : Int :=
  match tok with
  | [] => 0
  | c :: ds =>
    if c = 43 then (decimal_value ds : Int)
    else if c = 45 then -(decimal_value ds : Int)
    else (decimal_value (c :: ds) : Int)

/-! ## The values of the round trip -/

mutual
/-- The values without `Empty` that `read` returns: an `Int` of 64 bits, a
`Symbol` whose text is a token that `is_number` rejects, or a list, not empty,
of such values. -/
def readable : Value → Bool
  | .INT n => decide (-(2 ^ 63) ≤ n ∧ n ≤ 2 ^ 63 - 1)
  | .SYMB s =>
    !s.isEmpty && s.all (fun c => !is_delimiter c) && peekc s != 59 && !is_number s
  | .LIST l => !l.isEmpty && readable_cells l
  | _ => false
/-- Every value of a cell chain is `readable`. -/
def readable_cells : List Value → Bool
  | [] => true
  | v :: rest => readable v && readable_cells rest
end

/-! ## Scenarios -/

/-- The text of the factorial scenario. -/
def fact_text : List Nat :=
  STRING "(define (fact n) (if (<= n 1) 1 (* n (fact (- n 1)))))\n(fact 5)"

/-- The keys `k0`, `k1`, ..., `k39` bound to `Int 0` .. `Int 39`: enough
bindings to grow a frame of 16 buckets three times. -/
def forty_adds : List (string_t × Value) :=
  (List.range 40).map (fun i => (107 :: print_int i, Value.INT i))

/-- A state with two frames: the global frame binds `x` to `Int 10` and `y`
to `Int 20`, the current frame (its child) binds `x` to `Int 5`. -/
def two_frames : State :=
  { heap := [some (env_add (env_add (alloc_env none ENV_INIT_SIZE) (STRING "x") (.INT 10))
               (STRING "y") (.INT 20)),
             some (env_add (alloc_env (some 0) ENV_INIT_SIZE) (STRING "x") (.INT 5))],
    cur_env := 1 }

/-- The state after `(define a b)` in the initial state: `a` is bound to the
symbol `b`, and `b` is bound nowhere. -/
def alias_state : State :=
  match eval 10 (.LIST [.SYMB (STRING "define"), .SYMB (STRING "a"), .SYMB (STRING "b")])
      init_state with
  | .ok (_, s) => s
  | .error _ => init_state

/-- The text of the shadow-and-restore scenario. -/
def shadow_text : List Nat :=
  STRING "(define x 10)\n(define (f x) (+ x 1))\n(f 5)\nx"

/-- The state after the two definitions of the scenario. -/
def shadow_state : State :=
  match run 50 2 shadow_text init_state with
  | .ok (_, s) => s
  | .error _ => init_state

/-- The function the scenario binds to `f`. -/
def shadow_f : Value :=
  .FUNC [.SYMB (STRING "x")] [.LIST [.SYMB (STRING "+"), .SYMB (STRING "x"), .INT 1]]

/-- The state after the call `(f 5)` of the scenario. -/
def shadow_after : State :=
  match apply (eval 50) shadow_f [.INT 5] shadow_state with
  | .ok (_, s) => s
  | .error _ => init_state

/-- The text of the scenario that rebinds `x` after `y` was defined from it. -/
def lazy_text : List Nat :=
  STRING "(define x 1)\n(define y (+ x 1))\n(define x 5)\ny"

/-- The state after `(define y (+ 1 2))` in the initial state. -/
def define_y_state : State :=
  match run 50 1 (STRING "(define y (+ 1 2))") init_state with
  | .ok (_, s) => s
  | .error _ => init_state

/-- A function of two parameters, `(lambda (a b) (+ a b))`. -/
def two_param_f : Value :=
  .FUNC [.SYMB (STRING "a"), .SYMB (STRING "b")]
    [.LIST [.SYMB (STRING "+"), .SYMB (STRING "a"), .SYMB (STRING "b")]]

/-- The value `read` returns for `(+ 1 2)`. -/
def plus_one_two : Value := .LIST [.SYMB (STRING "+"), .INT 1, .INT 2]

/-! ## Arithmetic of the specification -/

/-- No step of the left fold of divisions from `res` over `divisors` has a
zero divisor or divides the minimum 64-bit integer by -1. -/
def div_safe : Int → List Int → Bool
  | _, [] => true
  | res, n :: ns =>
    decide (n ≠ 0) && !(decide (res = -(2 ^ 63)) && decide (n = -1)) &&
      div_safe (Int.tdiv res n) ns

/-- What the specification gives for `-` on a list of integers. -/
def sub_spec : List Int → Int
  | [] => 0
  | [a] => wrap64 (0 - a)
  | a0 :: rest => wrap64 (a0 - rest.sum)

/-- The value `run` gives for the first form of a text read in the initial
state, with the state dropped. -/
def eval_text (fuel : Nat) (text : String) : Except Err (List Value) :=
  (run fuel 1 (STRING text) init_state).map Prod.fst

/-- A value with the tag `INT`. -/
def is_int : Value → Bool
  | .INT _ => true
  | _ => false

/-- The form `(name a b)` on two integer literals. -/
def rel_form (name : String) (a b : Int) : Value :=
  .LIST [.SYMB (STRING name), .INT a, .INT b]

/-- The parameter `p` is a symbol that a lookup of `y` would find. -/
def binds_symbol (y : string_t) (p : Value) : Bool :=
  match p with
  | .SYMB q => key_eqv q y
  | _ => false

/-- The text of the scenario of the free symbol: `g` uses `y`, which only the
caller `f` binds. -/
def scope_text : List Nat :=
  STRING "(define (g) y)\n(define (f y) (g))\n(f 7)"

/-- The state after the two definitions of `scope_text`. -/
def scope_state : State :=
  match run 30 2 scope_text init_state with
  | .ok (_, s) => s
  | .error _ => init_state

/-- The state in the call `(f 7)`, after the parameter `y` is bound. -/
def scope_in_f : State :=
  match bind_params [.SYMB (STRING "y")] [.INT 7] (enter_call scope_state) with
  | .ok s => s
  | .error _ => init_state

/-- The state in the call `(g)` made from the body of `f`. -/
def scope_in_g : State :=
  match bind_params [] [] (enter_call scope_in_f) with
  | .ok s => s
  | .error _ => init_state

/-- A value with the tag `BOOL`. -/
def is_bool : Value → Bool
  | .BOOL _ => true
  | _ => false

/-- The frame of the call `(f 7)` in `scope_in_f`. -/
def scope_f_frame : env_t := (scope_in_f.deref 1).getD (alloc_env none 0)

/-- The global frame in `scope_in_f`. -/
def scope_global_frame : env_t := (scope_in_f.deref 0).getD (alloc_env none 0)

/-! ## Values without an empty cell chain -/

mutual
/-- No `LIST` in the value, at any depth (the parameters and the body of a
function included), has an empty cell chain. -/
def no_empty_list : Value → Bool
  | .LIST l => !l.isEmpty && no_empty_list_cells l
  | .FUNC params body => no_empty_list_cells params && no_empty_list_cells body
  | _ => true
/-- Every value of the cell chain satisfies `no_empty_list`. -/
def no_empty_list_cells : List Value → Bool
  | [] => true
  | v :: rest => no_empty_list v && no_empty_list_cells rest
end

/-- Every value bound in a frame of the state satisfies `no_empty_list`. -/
def state_no_empty_list (s : State) : Prop :=
  ∀ a env, s.deref a = some env → ∀ e ∈ env.entries, no_empty_list e.val = true

/-- The evaluator `ev` on the values without empty cell chain, and the
evaluator `other` on the values that have one. -/
def checked (other ev : Evaluator) : Evaluator :=
  fun v s => if no_empty_list v = true then ev v s else other v s

/-- The function `eval` in which every recursive call on a value with an
empty cell chain goes to `other` instead. -/
def eval_checked (other : Evaluator) : Nat → Evaluator
  | 0, _, _ => .error .out_of_fuel
  | fuel + 1, val, s => eval_body fuel (checked other (eval_checked other fuel)) val s

/-- On the values and states without empty cell chain, `ev1` is `ev`, and
`ev` returns such a value and such a state. -/
def agree_no_empty_list (ev ev1 : Evaluator) : Prop :=
  ∀ v s, no_empty_list v = true → state_no_empty_list s →
    ev1 v s = ev v s ∧
    ∀ r s1, ev v s = .ok (r, s1) → no_empty_list r = true ∧ state_no_empty_list s1

/-! # Properties -/

/-! ## Key comparison -/

theorem strncasecmp_eq_refl (a : List Nat) : strncasecmp_eq a a = true := by
  induction a with
  | nil => rfl
  | cons x xs ih => simp [strncasecmp_eq, ih]

theorem strncasecmp_eq_symm (a b : List Nat) :
    strncasecmp_eq a b = strncasecmp_eq b a := by
  induction a generalizing b with
  | nil => cases b <;> rfl
  | cons x xs ih =>
    cases b with
    | nil => rfl
    | cons y ys =>
      simp only [strncasecmp_eq]
      by_cases hxy : tolower x = tolower y
      · simp [hxy, ih ys]
      · have hyx : ¬ tolower y = tolower x := fun h => hxy h.symm
        simp [hxy, hyx]

theorem strncasecmp_eq_trans (a b c : List Nat) (hab : a.length = b.length)
    (h1 : strncasecmp_eq a b = true) (h2 : strncasecmp_eq b c = true) :
    strncasecmp_eq a c = true := by
  induction a generalizing b c with
  | nil => cases c <;> rfl
  | cons x xs ih =>
    cases b with
    | nil => simp at hab
    | cons y ys =>
      cases c with
      | nil => rfl
      | cons z zs =>
        simp only [strncasecmp_eq, ne_eq, ite_not] at h1 h2 ⊢
        by_cases hxy : tolower x = tolower y
        · by_cases hyz : tolower y = tolower z
          · rw [if_pos (hxy.trans hyz)]
            by_cases hx0 : tolower x = 0
            · rw [if_pos hx0]
            · rw [if_neg hx0]
              rw [if_pos hxy, if_neg hx0] at h1
              rw [if_pos hyz, if_neg (hxy ▸ hx0)] at h2
              exact ih ys zs (by simpa using hab) h1 h2
          · rw [if_neg hyz] at h2
            cases h2
        · rw [if_neg hxy] at h1
          cases h1

theorem string_eq_refl (a : string_t) : string_eq a a = true := by
  simp [string_eq, strncasecmp_eq_refl]

theorem string_eq_symm (a b : string_t) : string_eq a b = string_eq b a := by
  unfold string_eq
  rw [strncasecmp_eq_symm a b]
  by_cases h : a.length = b.length
  · simp [h]
  · have h2 : ¬ b.length = a.length := fun e => h e.symm
    rw [beq_eq_false_iff_ne.mpr h, beq_eq_false_iff_ne.mpr h2]

theorem string_eq_trans (a b c : string_t) (h1 : string_eq a b = true)
    (h2 : string_eq b c = true) : string_eq a c = true := by
  simp only [string_eq, Bool.and_eq_true, beq_iff_eq] at h1 h2 ⊢
  exact ⟨h1.1.trans h2.1, strncasecmp_eq_trans a b c h1.1 h1.2 h2.2⟩

theorem key_eqv_refl (a : string_t) : key_eqv a a = true := by
  simp [key_eqv, string_eq_refl]

theorem key_eqv_symm (a b : string_t) : key_eqv a b = key_eqv b a := by
  unfold key_eqv
  rw [string_eq_symm a b]
  by_cases h : hash a = hash b
  · simp [h]
  · have h2 : ¬ hash b = hash a := fun e => h e.symm
    rw [beq_eq_false_iff_ne.mpr h, beq_eq_false_iff_ne.mpr h2]

theorem key_eqv_trans (a b c : string_t) (h1 : key_eqv a b = true)
    (h2 : key_eqv b c = true) : key_eqv a c = true := by
  simp only [key_eqv, Bool.and_eq_true, beq_iff_eq] at h1 h2 ⊢
  exact ⟨h1.1.trans h2.1, string_eq_trans a b c h1.2 h2.2⟩

/-- On an entry whose stored hash is the hash of its key, the test of the
lookup loop is `key_eqv`. -/
theorem entry_matches_eq_key_eqv (k : string_t) (e : env_entry_t)
    (he : e.key_hash = hash e.key) :
    entry_matches (hash k) k e = key_eqv k e.key := by
  simp [entry_matches, key_eqv, he]

/-- Keys the lookup does not tell apart match the same entries. -/
theorem entry_matches_congr (k k1 : string_t) (e : env_entry_t)
    (h : key_eqv k k1 = true) :
    entry_matches (hash k) k e = entry_matches (hash k1) k1 e := by
  have h' := h
  simp only [key_eqv, Bool.and_eq_true, beq_iff_eq] at h'
  simp only [entry_matches, h'.1]
  by_cases hh : hash k1 = e.key_hash
  · simp only [hh, beq_self_eq_true, Bool.true_and]
    cases h1 : string_eq k e.key <;> cases h2 : string_eq k1 e.key <;> try rfl
    · have := string_eq_trans k k1 e.key h'.2 h2
      simp [h1] at this
    · have hk := string_eq_symm k k1
      rw [h'.2] at hk
      have := string_eq_trans k1 k e.key hk.symm h1
      simp [h2] at this
  · rw [beq_eq_false_iff_ne.mpr hh]
    rfl

/-- An entry matched by two keys: the lookup does not tell the keys apart. -/
theorem key_eqv_of_entry_matches (k k1 : string_t) (e : env_entry_t)
    (h1 : entry_matches (hash k) k e = true) (h2 : entry_matches (hash k1) k1 e = true) :
    key_eqv k k1 = true := by
  simp only [entry_matches, key_eqv, Bool.and_eq_true, beq_iff_eq] at h1 h2 ⊢
  refine ⟨h1.1.trans h2.1.symm, ?_⟩
  have := string_eq_symm k1 e.key
  rw [h2.2] at this
  exact string_eq_trans k e.key k1 h1.2 this.symm

/-! ## One chain -/

theorem entry_matches_with_val (h : Nat) (k : string_t) (e : env_entry_t) (v : Value) :
    entry_matches h k { e with val := v } = entry_matches h k e := rfl

/-- After the overwrite in a chain that holds a match for `k`, a key the
lookup does not tell apart from `k` finds the new value. -/
theorem find_chain_set_val_eqv (k k1 : string_t) (v : Value) (chain : List env_entry_t)
    (h : key_eqv k k1 = true)
    (hf : (chain.find? (entry_matches (hash k) k)).isSome = true) :
    ((chain_set_val (hash k) k v chain).find? (entry_matches (hash k1) k1)).map
      (fun entry => entry.val) = some v := by
  induction chain with
  | nil => simp at hf
  | cons e es ih =>
    simp only [chain_set_val]
    cases hm : entry_matches (hash k) k e
    · have hm1 : entry_matches (hash k1) k1 e = false := by
        rw [← entry_matches_congr k k1 e h]; exact hm
      simp only [Bool.false_eq_true, if_false, List.find?_cons, hm1]
      apply ih
      simpa [List.find?_cons, hm] using hf
    · have hm1 : entry_matches (hash k1) k1 e = true := by
        rw [← entry_matches_congr k k1 e h]; exact hm
      simp [List.find?_cons, entry_matches_with_val, hm1]

/-- The overwrite for `k` leaves what any other key finds in the chain. -/
theorem find_chain_set_val_other (k k1 : string_t) (v : Value) (chain : List env_entry_t)
    (h : key_eqv k k1 = false) :
    ((chain_set_val (hash k) k v chain).find? (entry_matches (hash k1) k1)).map
      (fun entry => entry.val)
      = (chain.find? (entry_matches (hash k1) k1)).map (fun entry => entry.val) := by
  induction chain with
  | nil => rfl
  | cons e es ih =>
    simp only [chain_set_val]
    cases hm : entry_matches (hash k) k e
    · simp only [Bool.false_eq_true, if_false, List.find?_cons]
      cases hm1 : entry_matches (hash k1) k1 e
      · exact ih
      · rfl
    · have hm1 : entry_matches (hash k1) k1 e = false := by
        cases hm1 : entry_matches (hash k1) k1 e
        · rfl
        · have := key_eqv_of_entry_matches k k1 e hm hm1
          rw [h] at this
          cases this
      simp [List.find?_cons, entry_matches_with_val, hm1]

theorem chain_set_val_keys (h : Nat) (k : string_t) (v : Value) (chain : List env_entry_t) :
    (chain_set_val h k v chain).map (fun e => (e.key_hash, e.key))
      = chain.map (fun e => (e.key_hash, e.key)) := by
  induction chain with
  | nil => rfl
  | cons e es ih =>
    simp only [chain_set_val]
    split
    · rfl
    · simp [ih]

/-! ## The bucket array -/

theorem getD_set_chain (slots : List (List env_entry_t)) (i j : Nat) (c : List env_entry_t) :
    (slots.set i c).getD j [] = if i = j ∧ i < slots.length then c else slots.getD j [] := by
  rw [List.getD_eq_getElem?_getD, List.getElem?_set, List.getD_eq_getElem?_getD]
  by_cases hij : i = j
  · subst hij
    by_cases hl : i < slots.length
    · simp [hl]
    · simp [hl, List.getElem?_eq_none (Nat.le_of_not_lt hl)]
  · simp [hij]

theorem mem_flatten_of_mem_getD (slots : List (List env_entry_t)) (i : Nat) (e : env_entry_t)
    (h : e ∈ slots.getD i []) : e ∈ slots.flatten := by
  rw [List.getD_eq_getElem?_getD] at h
  cases hc : slots[i]? with
  | none => simp [hc] at h
  | some c =>
    simp only [hc, Option.getD_some] at h
    exact List.mem_flatten.mpr ⟨c, List.getElem?_mem hc, h⟩

/-- Pushing an entry in front of a chain puts it somewhere into the sequence
of all entries. -/
theorem flatten_set_cons (slots : List (List env_entry_t)) (i : Nat) (x : env_entry_t)
    (hi : i < slots.length) :
    ∃ l1 l2, slots.flatten = l1 ++ l2 ∧
      (slots.set i (x :: slots.getD i [])).flatten = l1 ++ x :: l2 := by
  induction slots generalizing i with
  | nil => simp at hi
  | cons c cs ih =>
    cases i with
    | zero => exact ⟨[], c ++ cs.flatten, by simp, by simp⟩
    | succ n =>
      obtain ⟨l1, l2, h1, h2⟩ := ih n (by simpa using hi)
      refine ⟨c ++ l1, l2, by simp [h1], ?_⟩
      simp only [List.set_cons_succ, List.getD_cons_succ, List.flatten_cons, h2,
        List.append_assoc]

/-- The overwrite in one chain leaves the keys of the sequence of all entries. -/
theorem flatten_set_chain_set_val_keys (slots : List (List env_entry_t)) (i h : Nat)
    (k : string_t) (v : Value) :
    (slots.set i (chain_set_val h k v (slots.getD i []))).flatten.map
        (fun e => (e.key_hash, e.key))
      = slots.flatten.map (fun e => (e.key_hash, e.key)) := by
  induction slots generalizing i with
  | nil => rfl
  | cons c cs ih =>
    cases i with
    | zero => simp [chain_set_val_keys]
    | succ n =>
      simp only [List.set_cons_succ, List.getD_cons_succ, List.flatten_cons, List.map_append,
        ih n]

theorem chains_pos_set (size : Nat) (slots : List (List env_entry_t)) (o i : Nat)
    (c : List env_entry_t) (h : chains_pos size o slots)
    (hc : ∀ e ∈ c, e.key_hash % size = o + i) :
    chains_pos size o (slots.set i c) := by
  induction slots generalizing o i with
  | nil => exact h
  | cons d ds ih =>
    cases i with
    | zero => exact ⟨by simpa using hc, h.2⟩
    | succ n =>
      refine ⟨h.1, ih (o + 1) n h.2 ?_⟩
      intro e he
      rw [hc e he]
      omega

theorem chains_pos_getD (size : Nat) (slots : List (List env_entry_t)) (o i : Nat)
    (h : chains_pos size o slots) : ∀ e ∈ slots.getD i [], e.key_hash % size = o + i := by
  induction slots generalizing o i with
  | nil => intro e he; simp at he
  | cons d ds ih =>
    cases i with
    | zero => simpa using h.1
    | succ n =>
      intro e he
      rw [ih (o + 1) n h.2 e (by simpa using he)]
      omega

theorem chains_pos_replicate (size n o : Nat) :
    chains_pos size o (List.replicate n []) := by
  induction n generalizing o with
  | zero => trivial
  | succ m ih => exact ⟨by simp, ih (o + 1)⟩

/-- In a positioned bucket array, the first match in the sequence of all
entries is the first match in the bucket of the hash. -/
theorem find_flatten_eq_find_bucket (size : Nat) (slots : List (List env_entry_t)) (o : Nat)
    (h : Nat) (k : string_t) (hp : chains_pos size o slots) (ho : o ≤ h % size) :
    slots.flatten.find? (entry_matches h k)
      = (slots.getD (h % size - o) []).find? (entry_matches h k) := by
  induction slots generalizing o with
  | nil => rfl
  | cons c cs ih =>
    rw [List.flatten_cons, List.find?_append]
    by_cases heq : h % size = o
    · have hrest : cs.flatten.find? (entry_matches h k) = none := by
        rw [List.find?_eq_none]
        intro e he hm
        obtain ⟨d, hd, hed⟩ := List.mem_flatten.mp he
        obtain ⟨j, hj⟩ := List.getElem?_of_mem hd
        have hpos := chains_pos_getD size cs (o + 1) j hp.2 e
          (by rw [List.getD_eq_getElem?_getD, hj]; exact hed)
        simp only [entry_matches, Bool.and_eq_true, beq_iff_eq] at hm
        rw [← hm.1] at hpos
        omega
      simp [heq, hrest]
    · have hc : c.find? (entry_matches h k) = none := by
        rw [List.find?_eq_none]
        intro e he hm
        simp only [entry_matches, Bool.and_eq_true, beq_iff_eq] at hm
        have := hp.1 e he
        rw [← hm.1] at this
        exact heq this
      have hlt : o + 1 ≤ h % size := by omega
      rw [hc, Option.none_or, ih (o + 1) hp.2 hlt]
      have : h % size - o = (h % size - (o + 1)) + 1 := by omega
      rw [this, List.getD_cons_succ]

/-! ## `env_put`: the overwrite or insertion of `env_add` -/

theorem env_put_of_some (env : env_t) (k : string_t) (v : Value) (e : env_entry_t)
    (h : __env_lookup env k = some e) :
    env_put env k v = { env with
      slots := env.slots.set (hash k % env.size)
        (chain_set_val (hash k) k v (env.bucket (hash k))) } := by
  simp only [env_put, h]

theorem env_put_of_none (env : env_t) (k : string_t) (v : Value)
    (h : __env_lookup env k = none) :
    env_put env k v = { env with
      slots := env.slots.set (hash k % env.size)
        ({ key_hash := hash k, key := k, val := v } :: env.bucket (hash k))
      num_entries := (env.num_entries + 1) % 2 ^ 32 } := by
  simp only [env_put, h]

theorem env_put_size (env : env_t) (k : string_t) (v : Value) :
    (env_put env k v).size = env.size := by
  cases h : __env_lookup env k with
  | none => rw [env_put_of_none env k v h]; simp [env_t.size]
  | some e => rw [env_put_of_some env k v e h]; simp [env_t.size]

theorem env_put_parent (env : env_t) (k : string_t) (v : Value) :
    (env_put env k v).parent = env.parent := by
  cases h : __env_lookup env k with
  | none => rw [env_put_of_none env k v h]
  | some e => rw [env_put_of_some env k v e h]

/-- The bucket of `h1` after a chain `c` replaced the bucket of `h`. -/
theorem bucket_after_set (env : env_t) (n : Nat) (h h1 : Nat) (c : List env_entry_t)
    (hs : 0 < env.size) :
    env_t.bucket { env with slots := env.slots.set (h % env.size) c, num_entries := n } h1
      = if h % env.size = h1 % env.size then c else env.bucket h1 := by
  have hl : h % env.size < env.slots.length := Nat.mod_lt _ hs
  simp only [env_t.bucket, env_t.size, List.length_set, getD_set_chain]
  by_cases hij : h % env.slots.length = h1 % env.slots.length
  · rw [if_pos ⟨hij, hl⟩, if_pos hij]
  · rw [if_neg (fun hh => hij hh.1), if_neg hij]

/-- What a lookup finds after `env_put`: the new value under every key the
lookup does not tell apart from the key put, the old result under the others. -/
theorem env_lookup_env_put (env : env_t) (k k1 : string_t) (v : Value) (hs : 0 < env.size) :
    env_lookup (env_put env k v) k1
      = if key_eqv k k1 = true then some v else env_lookup env k1 := by
  have hidx : key_eqv k k1 = true → hash k = hash k1 := by
    intro h
    simp only [key_eqv, Bool.and_eq_true, beq_iff_eq] at h
    exact h.1
  cases hl : __env_lookup env k with
  | some e =>
    rw [env_put_of_some env k v e hl]
    have hb := bucket_after_set env env.num_entries (hash k) (hash k1)
      (chain_set_val (hash k) k v (env.bucket (hash k))) hs
    simp only [env_lookup, __env_lookup]
    rw [hb]
    cases hq : key_eqv k k1
    · simp only [Bool.false_eq_true, if_false]
      by_cases hij : hash k % env.size = hash k1 % env.size
      · rw [if_pos hij, find_chain_set_val_other k k1 v _ hq]
        simp only [env_t.bucket, hij]
      · rw [if_neg hij]
    · simp only [if_true]
      rw [if_pos (by rw [hidx hq])]
      apply find_chain_set_val_eqv k k1 v _ hq
      simp only [__env_lookup] at hl
      rw [hl]
      rfl
  | none =>
    rw [env_put_of_none env k v hl]
    have hb := bucket_after_set env ((env.num_entries + 1) % 2 ^ 32) (hash k) (hash k1)
      ({ key_hash := hash k, key := k, val := v } :: env.bucket (hash k)) hs
    simp only [env_lookup, __env_lookup]
    rw [hb]
    have hnew : entry_matches (hash k1) k1 { key_hash := hash k, key := k, val := v }
        = key_eqv k k1 := by
      rw [key_eqv_symm]
      rfl
    cases hq : key_eqv k k1
    · simp only [Bool.false_eq_true, if_false]
      by_cases hij : hash k % env.size = hash k1 % env.size
      · rw [if_pos hij, List.find?_cons, hnew, hq]
        simp only [env_t.bucket, hij]
      · rw [if_neg hij]
    · simp only [if_true]
      rw [if_pos (by rw [hidx hq]), List.find?_cons, hnew, hq]
      rfl

theorem env_put_entries_length (env : env_t) (k : string_t) (v : Value) :
    (env_put env k v).entries.length ≤ env.entries.length + 1 := by
  by_cases hs : 0 < env.size
  · have hlt : hash k % env.size < env.slots.length := Nat.mod_lt _ hs
    cases hl : __env_lookup env k with
    | some e =>
      rw [env_put_of_some env k v e hl]
      have := congrArg List.length
        (flatten_set_chain_set_val_keys env.slots (hash k % env.size) (hash k) k v)
      simp only [List.length_map] at this
      simp only [env_t.entries, env_t.bucket, this]
      omega
    | none =>
      rw [env_put_of_none env k v hl]
      obtain ⟨l1, l2, h1, h2⟩ := flatten_set_cons env.slots (hash k % env.size)
        { key_hash := hash k, key := k, val := v } hlt
      simp only [env_t.entries, env_t.bucket, h1, h2, List.length_append, List.length_cons]
      omega
  · have h0 : env.slots = [] := by
      cases hsl : env.slots with
      | nil => rfl
      | cons c cs => simp [env_t.size, hsl] at hs
    cases hl : __env_lookup env k with
    | some e => rw [env_put_of_some env k v e hl]; simp [env_t.entries, h0]
    | none => rw [env_put_of_none env k v hl]; simp [env_t.entries, h0]

/-- The function `env_put` keeps the invariant of the frame. -/
theorem env_wf_env_put (env : env_t) (k : string_t) (v : Value) (hs : 0 < env.size)
    (hw : env_wf env) : env_wf (env_put env k v) := by
  have hlt : hash k % env.size < env.slots.length := Nat.mod_lt _ hs
  have hpair : ∀ l : List env_entry_t,
      l.Pairwise (fun a b => key_eqv a.key b.key = false)
        ↔ (l.map (fun e => (e.key_hash, e.key))).Pairwise
            (fun a b => key_eqv a.2 b.2 = false) := by
    intro l
    rw [List.pairwise_map]
  have hhash : ∀ l : List env_entry_t,
      (∀ e ∈ l, e.key_hash = hash e.key)
        ↔ ∀ q ∈ l.map (fun e => (e.key_hash, e.key)), q.1 = hash q.2 := by
    intro l
    simp only [List.mem_map, forall_exists_index, and_imp]
    constructor
    · intro h q e he hq
      rw [← hq]
      exact h e he
    · intro h e he
      exact h _ e he rfl
  cases hl : __env_lookup env k with
  | some e =>
    rw [env_put_of_some env k v e hl]
    have hk := flatten_set_chain_set_val_keys env.slots (hash k % env.size) (hash k) k v
    refine ⟨?_, ?_, ?_⟩
    · simp only [env_t.entries, env_t.bucket]
      rw [hhash, hk, ← hhash]
      exact hw.hashes
    · simp only [env_t.size, List.length_set]
      apply chains_pos_set _ _ _ _ _ hw.pos
      intro x hx
      have hx' : (x.key_hash, x.key) ∈ (env.bucket (hash k)).map
          (fun e => (e.key_hash, e.key)) := by
        rw [← chain_set_val_keys (hash k) k v]
        exact List.mem_map.mpr ⟨x, hx, rfl⟩
      obtain ⟨y, hy, hxy⟩ := List.mem_map.mp hx'
      have := chains_pos_getD env.size env.slots 0 (hash k % env.size) hw.pos y hy
      simp only [Prod.mk.injEq] at hxy
      rw [← hxy.1, this]
      rfl
    · simp only [env_t.entries, env_t.bucket]
      rw [hpair, hk, ← hpair]
      exact hw.nodup
  | none =>
    rw [env_put_of_none env k v hl]
    obtain ⟨l1, l2, h1, h2⟩ := flatten_set_cons env.slots (hash k % env.size)
      { key_hash := hash k, key := k, val := v } hlt
    have hnone : ∀ x ∈ env.entries, key_eqv k x.key = false := by
      intro x hx
      have hfind : env.slots.flatten.find? (entry_matches (hash k) k) = none := by
        rw [find_flatten_eq_find_bucket env.size env.slots 0 (hash k) k hw.pos (Nat.zero_le _)]
        exact hl
      have := List.find?_eq_none.mp hfind x hx
      rw [entry_matches_eq_key_eqv k x (hw.hashes x hx)] at this
      simpa using this
    refine ⟨?_, ?_, ?_⟩
    · simp only [env_t.entries, env_t.bucket, h2]
      intro x hx
      rcases List.mem_append.mp hx with hx1 | hx2
      · exact hw.hashes x (by simp only [env_t.entries, h1]; exact List.mem_append_left _ hx1)
      · rcases List.mem_cons.mp hx2 with hx3 | hx4
        · rw [hx3]
        · exact hw.hashes x (by simp only [env_t.entries, h1]; exact List.mem_append_right _ hx4)
    · simp only [env_t.size, List.length_set]
      apply chains_pos_set _ _ _ _ _ hw.pos
      intro x hx
      rcases List.mem_cons.mp hx with hx3 | hx4
      · rw [hx3]
        simp [env_t.size]
      · have := chains_pos_getD env.size env.slots 0 (hash k % env.size) hw.pos x hx4
        simpa using this
    · simp only [env_t.entries, env_t.bucket, h2]
      have hsymm : ∀ {x y : env_entry_t}, key_eqv x.key y.key = false →
          key_eqv y.key x.key = false := by
        intro x y hxy
        rw [key_eqv_symm]
        exact hxy
      rw [List.pairwise_middle hsymm, List.pairwise_cons]
      refine ⟨?_, ?_⟩
      · intro x hx
        exact hnone x (by simp only [env_t.entries, h1]; exact hx)
      · have := hw.nodup
        simp only [env_t.entries, h1] at this
        exact this

/-! ## `alloc_env` -/

theorem flatten_replicate_nil (n : Nat) :
    (List.replicate n ([] : List env_entry_t)).flatten = [] := by
  induction n with
  | zero => rfl
  | succ m ih => simp [List.replicate_succ, ih]

theorem alloc_env_entries (papa : Option Nat) (size : Nat) :
    (alloc_env papa size).entries = [] := flatten_replicate_nil size

theorem alloc_env_size (papa : Option Nat) (size : Nat) :
    (alloc_env papa size).size = size := by
  simp [alloc_env, env_t.size]

theorem env_wf_alloc_env (papa : Option Nat) (size : Nat) : env_wf (alloc_env papa size) := by
  refine ⟨?_, ?_, ?_⟩
  · rw [alloc_env_entries]; intro e he; cases he
  · exact chains_pos_replicate _ _ _
  · rw [alloc_env_entries]; exact List.Pairwise.nil

theorem env_lookup_alloc_env (papa : Option Nat) (size : Nat) (k : string_t) :
    env_lookup (alloc_env papa size) k = none := by
  have : (alloc_env papa size).bucket (hash k) = [] := by
    simp only [env_t.bucket, alloc_env, List.getD_eq_getElem?_getD]
    cases h : (List.replicate size ([] : List env_entry_t))[hash k %
        env_t.size { slots := List.replicate size [], num_entries := 0, parent := papa }]? with
    | none => rfl
    | some c =>
      have := List.getElem?_mem h
      rw [List.mem_replicate] at this
      simp [this.2]
  simp [env_lookup, __env_lookup, this]

/-! ## The rehash -/

/-- With no two keys the lookup does not tell apart, the bindings applied in
order give the first one that matches. -/
theorem apply_bindings_eq_find (k1 : string_t) (es : List env_entry_t) (base : Option Value)
    (hp : es.Pairwise (fun a b => key_eqv a.key b.key = false)) :
    apply_bindings k1 es base
      = ((es.find? (fun e => key_eqv e.key k1)).map (fun e => e.val)).or base := by
  induction es generalizing base with
  | nil => cases base <;> rfl
  | cons e t ih =>
    rw [List.pairwise_cons] at hp
    simp only [apply_bindings, List.foldl_cons] at ih ⊢
    rw [ih _ hp.2, List.find?_cons]
    cases hq : key_eqv e.key k1
    · simp
    · have ht : t.find? (fun e => key_eqv e.key k1) = none := by
        rw [List.find?_eq_none]
        intro x hx hxq
        have h1 : key_eqv k1 x.key = true := by rw [key_eqv_symm]; exact hxq
        have := key_eqv_trans e.key k1 x.key hq h1
        rw [hp.1 x hx] at this
        cases this
      simp [ht]

theorem find_congr_on (p q : env_entry_t → Bool) (l : List env_entry_t)
    (h : ∀ x ∈ l, q x = p x) : l.find? p = l.find? q := by
  induction l with
  | nil => rfl
  | cons x xs ih =>
    rw [List.find?_cons, List.find?_cons, h x (List.mem_cons_self _ _),
      ih (fun y hy => h y (List.mem_cons_of_mem _ hy))]

/-- In a frame that satisfies the invariant, a lookup is the first match in
the sequence of all entries. -/
theorem env_lookup_eq_find_entries (env : env_t) (k1 : string_t) (hw : env_wf env) :
    env_lookup env k1
      = (env.entries.find? (fun e => key_eqv e.key k1)).map (fun e => e.val) := by
  have h1 := find_flatten_eq_find_bucket env.size env.slots 0 (hash k1) k1 hw.pos
    (Nat.zero_le _)
  simp only [env_lookup, __env_lookup, env_t.bucket]
  rw [Nat.sub_zero] at h1
  rw [← h1]
  congr 1
  apply find_congr_on
  intro e he
  rw [entry_matches_eq_key_eqv k1 e (hw.hashes e he), key_eqv_symm]

/-- The loop of the rehash, given `env_add_aux` at the fuel it runs with. -/
theorem rehash_fold (fuel : Nat) (ih : env_add_ok fuel) (es : List env_entry_t) (ne : env_t)
    (hw : env_wf ne) (hs : 0 < ne.size) (hlen : ne.entries.length + es.length ≤ fuel) :
    env_wf (es.foldl (fun new_env entry => env_add_aux fuel new_env entry.key entry.val) ne) ∧
    0 < (es.foldl (fun new_env entry => env_add_aux fuel new_env entry.key entry.val) ne).size ∧
    (es.foldl (fun new_env entry => env_add_aux fuel new_env entry.key entry.val) ne).parent
      = ne.parent ∧
    (es.foldl (fun new_env entry => env_add_aux fuel new_env entry.key entry.val)
      ne).entries.length ≤ ne.entries.length + es.length ∧
    ∀ k1, env_lookup
        (es.foldl (fun new_env entry => env_add_aux fuel new_env entry.key entry.val) ne) k1
      = apply_bindings k1 es (env_lookup ne k1) := by
  induction es generalizing ne with
  | nil => exact ⟨hw, hs, rfl, by simp, fun k1 => rfl⟩
  | cons e t iht =>
    simp only [List.length_cons] at hlen
    obtain ⟨w1, s1, p1, l1, q1⟩ := ih ne e.key e.val hw (by omega)
    obtain ⟨w2, s2, p2, l2, q2⟩ := iht (env_add_aux fuel ne e.key e.val) w1 s1 (by omega)
    simp only [List.foldl_cons]
    refine ⟨w2, s2, p2.trans p1, ?_, ?_⟩
    · simp only [List.length_cons]; omega
    · intro k1
      rw [q2 k1, q1 k1]
      rfl

theorem env_add_aux_ok (fuel : Nat) : env_add_ok fuel := by
  induction fuel with
  | zero => intro env k v _ hlen; omega
  | succ n ih =>
    intro env k v hw hlen
    simp only [env_add_aux]
    by_cases hc : (env.num_entries * 2) % 2 ^ 32 ≥ env.size
    · simp only [hc, if_true]
      have hodd : 0 < (alloc_env env.parent ((env.size * 2 + 1) % 2 ^ 32)).size := by
        rw [alloc_env_size]; omega
      obtain ⟨w1, s1, p1, l1, q1⟩ := rehash_fold n ih env.entries
        (alloc_env env.parent ((env.size * 2 + 1) % 2 ^ 32)) (env_wf_alloc_env _ _) hodd
        (by rw [alloc_env_entries]; simp only [List.length_nil]; omega)
      rw [alloc_env_entries] at l1
      refine ⟨env_wf_env_put _ k v s1 w1, by rw [env_put_size]; exact s1,
        by rw [env_put_parent, p1]; rfl, ?_, ?_⟩
      · have := env_put_entries_length
          (env.entries.foldl (fun new_env entry => env_add_aux n new_env entry.key entry.val)
            (alloc_env env.parent ((env.size * 2 + 1) % 2 ^ 32))) k v
        simp only [List.length_nil] at l1
        omega
      · intro k1
        rw [env_lookup_env_put _ k k1 v s1, q1 k1, env_lookup_alloc_env,
          apply_bindings_eq_find k1 env.entries none hw.nodup,
          env_lookup_eq_find_entries env k1 hw]
        simp
    · simp only [hc, if_false]
      have hs : 0 < env.size := by omega
      exact ⟨env_wf_env_put env k v hs hw, by rw [env_put_size]; exact hs,
        env_put_parent env k v, env_put_entries_length env k v,
        fun k1 => env_lookup_env_put env k k1 v hs⟩

/-- The function `env_add` keeps the invariant. -/
theorem env_wf_env_add (env : env_t) (k : string_t) (v : Value) (hw : env_wf env) :
    env_wf (env_add env k v) :=
  (env_add_aux_ok _ env k v hw (Nat.lt_succ_self _)).1

theorem env_add_parent (env : env_t) (k : string_t) (v : Value) (hw : env_wf env) :
    (env_add env k v).parent = env.parent :=
  (env_add_aux_ok _ env k v hw (Nat.lt_succ_self _)).2.2.1

/-- What a lookup finds after `env_add` on a frame that satisfies the invariant. -/
theorem env_lookup_env_add (env : env_t) (k k1 : string_t) (v : Value) (hw : env_wf env) :
    env_lookup (env_add env k v) k1
      = if key_eqv k k1 = true then some v else env_lookup env k1 :=
  (env_add_aux_ok _ env k v hw (Nat.lt_succ_self _)).2.2.2.2 k1

theorem env_wf_foldl_env_add (adds : List (string_t × Value)) (env : env_t)
    (hw : env_wf env) :
    env_wf (adds.foldl (fun env kv => env_add env kv.1 kv.2) env) := by
  induction adds generalizing env with
  | nil => exact hw
  | cons kv rest ih => exact ih _ (env_wf_env_add env kv.1 kv.2 hw)

/-- Every frame built by `env_add` from a fresh frame satisfies the invariant. -/
theorem env_wf_env_build (papa : Option Nat) (size : Nat) (adds : List (string_t × Value)) :
    env_wf (env_build papa size adds) :=
  env_wf_foldl_env_add adds _ (env_wf_alloc_env papa size)

/-! ## Lookup after `env_add` (C4, C5, C6) -/

theorem key_eqv_false_of_string_eq_false (k k1 : string_t) (h : string_eq k k1 = false) :
    key_eqv k k1 = false := by
  simp [key_eqv, h]

/-- Adding keys that differ from `k1` leaves what `k1` finds. -/
theorem env_lookup_foldl_env_add_other (adds : List (string_t × Value)) (env : env_t)
    (k1 : string_t) (hw : env_wf env) (hk : ∀ kv ∈ adds, string_eq kv.1 k1 = false) :
    env_lookup (adds.foldl (fun env kv => env_add env kv.1 kv.2) env) k1
      = env_lookup env k1 := by
  induction adds generalizing env with
  | nil => rfl
  | cons a rest ih =>
    rw [List.foldl_cons, ih _ (env_wf_env_add env a.1 a.2 hw)
      (fun kv hkv => hk kv (List.mem_cons_of_mem _ hkv)),
      env_lookup_env_add env a.1 k1 a.2 hw,
      key_eqv_false_of_string_eq_false _ _ (hk a (List.mem_cons_self _ _))]
    rfl

/-- After a sequence of adds of pairwise different keys, every key finds its
own value. -/
theorem env_lookup_foldl_env_add_mem (adds : List (string_t × Value)) (env : env_t)
    (hw : env_wf env) (hd : adds.Pairwise (fun a b => string_eq a.1 b.1 = false)) :
    ∀ kv ∈ adds,
      env_lookup (adds.foldl (fun env kv => env_add env kv.1 kv.2) env) kv.1 = some kv.2 := by
  induction adds generalizing env with
  | nil => intro kv hkv; cases hkv
  | cons a rest ih =>
    rw [List.pairwise_cons] at hd
    intro kv hkv
    rw [List.foldl_cons]
    rcases List.mem_cons.mp hkv with h1 | h2
    · subst h1
      rw [env_lookup_foldl_env_add_other rest _ kv.1 (env_wf_env_add env kv.1 kv.2 hw),
        env_lookup_env_add env kv.1 kv.1 kv.2 hw, key_eqv_refl]
      · rfl
      · intro x hx
        rw [string_eq_symm]
        exact hd.1 x hx
    · exact ih _ (env_wf_env_add env a.1 a.2 hw) hd.2 kv h2

/-- C4: in every frame built from a freshly allocated frame (of any number of
buckets) by any sequence of `env_add` calls, `env_lookup` of `k` right after
`env_add` of `k` and `v` returns `v`; the statement covers the insertion, the
overwrite and the add that starts with a rehash. -/
theorem C4_env_lookup_after_env_add (papa : Option Nat) (size : Nat)
    (adds : List (string_t × Value)) (k : string_t) (v : Value) :
    env_lookup (env_add (env_build papa size adds) k v) k = some v := by
  rw [env_lookup_env_add _ k k v (env_wf_env_build papa size adds), key_eqv_refl]
  rfl

/-- C5: in every frame built from a fresh frame of 16 buckets by any sequence
of `env_add` calls, adding `k` leaves what `env_lookup` returns for every key
`k1` that `string_eq` tells apart from `k`, rehash or not; and after the adds
of pairwise different keys every key finds its own value. -/
theorem C5_env_add_keeps_other_keys (papa : Option Nat) (adds : List (string_t × Value))
    (k k1 : string_t) (v : Value) (hk : string_eq k k1 = false) :
    env_lookup (env_add (env_build papa ENV_INIT_SIZE adds) k v) k1
        = env_lookup (env_build papa ENV_INIT_SIZE adds) k1 ∧
    (adds.Pairwise (fun a b => string_eq a.1 b.1 = false) →
      ∀ kv ∈ adds, env_lookup (env_build papa ENV_INIT_SIZE adds) kv.1 = some kv.2) := by
  refine ⟨?_, fun hd => env_lookup_foldl_env_add_mem adds _ (env_wf_alloc_env _ _) hd⟩
  rw [env_lookup_env_add _ k k1 v (env_wf_env_build papa ENV_INIT_SIZE adds),
    key_eqv_false_of_string_eq_false k k1 hk]
  rfl

/-- C5 at forty bindings: the frame has grown from 16 to 135 buckets (three
rehashes), the add of a forty-first key rehashes nothing away, and `k7` still
finds `Int 7`. -/
theorem C5_env_add_keeps_other_keys_witness :
    string_eq (STRING "fresh") (STRING "k7") = false ∧
    (env_build none ENV_INIT_SIZE forty_adds).size = 135 ∧
    env_lookup (env_build none ENV_INIT_SIZE forty_adds) (STRING "k7") = some (.INT 7) ∧
    env_lookup (env_add (env_build none ENV_INIT_SIZE forty_adds) (STRING "fresh") .EMPTY)
        (STRING "k7")
      = env_lookup (env_build none ENV_INIT_SIZE forty_adds) (STRING "k7") :=
  ⟨by decide, by decide!, by decide!,
    (C5_env_add_keeps_other_keys none forty_adds (STRING "fresh") (STRING "k7") .EMPTY
      (by decide)).1⟩

/-- C6, at the keys `x` and `X`: `string_eq` holds them equal, their hashes
differ, so after `env_add` of `x` the lookup of `X` finds nothing, and a later
`env_add` of `X` makes a second entry and leaves the binding of `x`. -/
theorem C6_case_differs_not_found :
    string_eq (STRING "x") (STRING "X") = true ∧
    hash (STRING "x") = 15720 ∧ hash (STRING "X") = 11528 ∧
    env_lookup (env_add (alloc_env none ENV_INIT_SIZE) (STRING "x") (.INT 1)) (STRING "X")
      = none ∧
    (env_add (env_add (alloc_env none ENV_INIT_SIZE) (STRING "x") (.INT 1))
      (STRING "X") (.INT 2)).num_entries = 2 ∧
    env_lookup (env_add (env_add (alloc_env none ENV_INIT_SIZE) (STRING "x") (.INT 1))
      (STRING "X") (.INT 2)) (STRING "x") = some (.INT 1) := by
  decide

/-! ## The walk of `lookup` (C7) -/

theorem lookup_from_chain (s : State) (symb : string_t) (p : Option Nat) (frames : List env_t)
    (fuel : Nat) (hc : frame_chain s p frames) (hf : frames.length ≤ fuel) :
    lookup_from fuel s p symb = .ok (frames.findSome? (fun env => env_lookup env symb)) := by
  induction hc generalizing fuel with
  | nil => cases fuel <;> rfl
  | cons a env rest hd _ ih =>
    cases fuel with
    | zero => simp at hf
    | succ n =>
      simp only [lookup_from, hd, List.findSome?_cons]
      cases hl : env_lookup env symb with
      | some v => rfl
      | none => exact ih n (by simpa using hf)

/-- C7 (as amended): along every frame chain `lookup` returns the binding of
the innermost frame that binds the symbol, and not-found exactly when no frame
of the chain binds it; on not-found, `eval` of the symbol and of a list headed
by it fail with the unbound-symbol error; on a value found, `eval` goes on with
that value (evaluates it, or dispatches on it). -/
theorem C7_lookup_innermost_binding (s : State) (frames : List env_t) (symb : string_t)
    (fuel : Nat) (hc : frame_chain s (some s.cur_env) frames) (hf : frames.length ≤ fuel) :
    lookup fuel s symb = .ok (frames.findSome? (fun env => env_lookup env symb)) ∧
    (∀ pre env post v, frames = pre ++ env :: post →
      (∀ e ∈ pre, env_lookup e symb = none) → env_lookup env symb = some v →
      lookup fuel s symb = .ok (some v)) ∧
    (lookup fuel s symb = .ok none ↔ ∀ e ∈ frames, env_lookup e symb = none) ∧
    ((∀ e ∈ frames, env_lookup e symb = none) →
      eval (fuel + 1) (.SYMB symb) s = .error (.exit_on "unbound symbol") ∧
      ∀ rest, eval (fuel + 1) (.LIST (.SYMB symb :: rest)) s
        = .error (.exit_on "unbound symbol")) ∧
    (∀ v, lookup fuel s symb = .ok (some v) →
      eval (fuel + 1) (.SYMB symb) s = eval fuel v s ∧
      ∀ rest, eval (fuel + 1) (.LIST (.SYMB symb :: rest)) s
        = eval_dispatch (eval fuel) v rest s) := by
  have hl : lookup fuel s symb = .ok (frames.findSome? (fun env => env_lookup env symb)) :=
    lookup_from_chain s symb _ frames fuel hc hf
  have hnone : lookup fuel s symb = .ok none ↔ ∀ e ∈ frames, env_lookup e symb = none := by
    rw [hl]
    constructor
    · intro h
      have h' : frames.findSome? (fun env => env_lookup env symb) = none := by
        injection h
      exact List.findSome?_eq_none_iff.mp h'
    · intro h
      rw [List.findSome?_eq_none_iff.mpr h]
  refine ⟨hl, ?_, hnone, ?_, ?_⟩
  · intro pre env post v hfr hpre henv
    rw [hl, hfr, List.findSome?_append, List.findSome?_eq_none_iff.mpr hpre]
    simp [List.findSome?_cons, henv]
  · intro h
    have h0 := hnone.mpr h
    constructor
    · simp only [eval, eval_body, h0]
    · intro rest
      simp only [eval, eval_body, h0]
  · intro v hv
    constructor
    · simp only [eval, eval_body, hv]
    · intro rest
      simp only [eval, eval_body, hv]

theorem two_frames_chain :
    frame_chain two_frames (some two_frames.cur_env)
      [env_add (alloc_env (some 0) ENV_INIT_SIZE) (STRING "x") (.INT 5),
       env_add (env_add (alloc_env none ENV_INIT_SIZE) (STRING "x") (.INT 10))
         (STRING "y") (.INT 20)] :=
  frame_chain.cons 1 _ _ rfl (frame_chain.cons 0 _ _ rfl frame_chain.nil)

/-- C7 at a chain of two frames that both bind `x`: the inner binding is the
one found, `y` is found in the outer frame, `z` is not found. -/
theorem C7_lookup_innermost_binding_witness :
    lookup 2 two_frames (STRING "x") = .ok (some (.INT 5)) ∧
    lookup 2 two_frames (STRING "y") = .ok (some (.INT 20)) ∧
    lookup 2 two_frames (STRING "z") = .ok none ∧
    eval 3 (.SYMB (STRING "z")) two_frames = .error (.exit_on "unbound symbol") :=
  ⟨(C7_lookup_innermost_binding two_frames _ (STRING "x") 2 two_frames_chain
      (by decide)).1.trans (by decide),
   (C7_lookup_innermost_binding two_frames _ (STRING "y") 2 two_frames_chain
      (by decide)).1.trans (by decide),
   (C7_lookup_innermost_binding two_frames _ (STRING "z") 2 two_frames_chain
      (by decide)).1.trans (by decide),
   ((C7_lookup_innermost_binding two_frames _ (STRING "z") 2 two_frames_chain
      (by decide)).2.2.2.1 (by decide)).1⟩

/-- C7 as stated fails: after `(define a b)` the symbol `a` is found by
`lookup` (it is bound to the symbol `b`), and yet `eval` of `a`, and of the
list `(a)`, fail with the unbound-symbol error. -/
theorem C7_found_yet_unbound_error :
    lookup 10 alias_state (STRING "a") = .ok (some (.SYMB (STRING "b"))) ∧
    eval 10 (.SYMB (STRING "a")) alias_state = .error (.exit_on "unbound symbol") ∧
    eval 10 (.LIST [.SYMB (STRING "a")]) alias_state = .error (.exit_on "unbound symbol") := by
  decide!

/-! ## Frames across a call (C2) -/

theorem getD_set_option (l : List (Option env_t)) (i j : Nat) (x : Option env_t) :
    (l.set i x).getD j none = if i = j ∧ i < l.length then x else l.getD j none := by
  rw [List.getD_eq_getElem?_getD, List.getElem?_set, List.getD_eq_getElem?_getD]
  by_cases hij : i = j
  · subst hij
    by_cases hl : i < l.length
    · simp [hl]
    · simp [hl, List.getElem?_eq_none (Nat.le_of_not_lt hl)]
  · simp [hij]

theorem deref_set (s : State) (i a : Nat) (x : Option env_t) (c : Nat) :
    State.deref { heap := s.heap.set i x, cur_env := c } a
      = if i = a ∧ i < s.heap.length then x else s.deref a := by
  simp only [State.deref, getD_set_option]

theorem deref_lt_length (s : State) (a : Nat) (env : env_t) (h : s.deref a = some env) :
    a < s.heap.length := by
  by_contra hn
  simp only [State.deref, List.getD_eq_getElem?_getD,
    List.getElem?_eq_none (Nat.le_of_not_lt hn)] at h
  cases h

theorem deref_enter_call (s : State) (a : Nat) (ha : a ≠ s.heap.length) :
    (enter_call s).deref a = s.deref a := by
  simp only [State.deref, enter_call, List.getD_eq_getElem?_getD]
  by_cases hlt : a < s.heap.length
  · rw [List.getElem?_append_left hlt]
  · have hgt : s.heap.length < a := by omega
    rw [List.getElem?_eq_none (by simp; omega), List.getElem?_eq_none (by omega)]

theorem deref_enter_call_self (s : State) :
    (enter_call s).deref (enter_call s).cur_env
      = some (alloc_env (some s.cur_env) ENV_INIT_SIZE) := by
  simp [State.deref, enter_call, List.getD_eq_getElem?_getD]

theorem bind_frame_local (symb : string_t) (val : Value) (s s1 : State)
    (h : bind symb val s = .ok s1) :
    s1.cur_env = s.cur_env ∧ (∀ a, a ≠ s.cur_env → s1.deref a = s.deref a) ∧
    ∃ env, s.deref s.cur_env = some env ∧
      s1.deref s.cur_env = some (env_add env symb val) := by
  unfold bind at h
  cases hd : s.deref s.cur_env with
  | none => simp [hd] at h
  | some env =>
    simp only [hd, Except.ok.injEq] at h
    subst h
    refine ⟨rfl, ?_, env, rfl, ?_⟩
    · intro a ha
      rw [deref_set, if_neg (fun hh => ha hh.1.symm)]
    · rw [deref_set, if_pos ⟨rfl, deref_lt_length s _ env hd⟩]

theorem bind_params_frame_local (params args : List Value) (s s1 : State)
    (h : bind_params params args s = .ok s1) :
    s1.cur_env = s.cur_env ∧ ∀ a, a ≠ s.cur_env → s1.deref a = s.deref a := by
  induction params generalizing args s with
  | nil =>
    cases args with
    | nil => simp only [bind_params, Except.ok.injEq] at h; subst h; exact ⟨rfl, fun _ _ => rfl⟩
    | cons a as => simp [bind_params] at h
  | cons p ps ih =>
    cases args with
    | nil => simp [bind_params] at h
    | cons a as =>
      cases p <;> simp only [bind_params] at h <;> try (exact absurd h (by simp))
      rename_i symb
      cases hb : bind symb a s with
      | error e => simp [hb] at h
      | ok s2 =>
        simp only [hb] at h
        obtain ⟨c2, d2, _⟩ := bind_frame_local symb a s s2 hb
        obtain ⟨c1, d1⟩ := ih as s2 h
        refine ⟨c1.trans c2, fun x hx => ?_⟩
        rw [d1 x (by rw [c2]; exact hx), d2 x hx]

theorem eval_each_frame_local (ev : Evaluator) (hev : frame_local ev) (list : List Value)
    (s : State) (vals : List Value) (s1 : State) (h : eval_each ev list s = .ok (vals, s1)) :
    s1.cur_env = s.cur_env ∧ ∀ a, a ≠ s.cur_env → s1.deref a = s.deref a := by
  induction list generalizing s vals with
  | nil =>
    simp only [eval_each, Except.ok.injEq, Prod.mk.injEq] at h
    rw [← h.2]
    exact ⟨rfl, fun _ _ => rfl⟩
  | cons v rest ih =>
    simp only [eval_each] at h
    cases hv : ev v s with
    | error e => simp [hv] at h
    | ok r =>
      obtain ⟨val, s2⟩ := r
      simp only [hv] at h
      cases hr : eval_each ev rest s2 with
      | error e => simp [hr] at h
      | ok r2 =>
        obtain ⟨vals2, s3⟩ := r2
        simp only [hr, Except.ok.injEq, Prod.mk.injEq] at h
        obtain ⟨c2, d2⟩ := hev v s val s2 hv
        rw [h.2] at hr
        obtain ⟨c3, d3⟩ := ih s2 vals2 hr
        refine ⟨c3.trans c2, fun x hx => ?_⟩
        rw [d3 x (by rw [c2]; exact hx), d2 x hx]

/-- Over a frame-local evaluator, `apply` returns in the frame of the caller with
every frame as it was before the call. -/
theorem apply_restores (ev : Evaluator) (hev : frame_local ev) (func : Value)
    (args : List Value) (s : State) (v : Value) (s1 : State)
    (h : apply ev func args s = .ok (v, s1)) :
    s1.cur_env = s.cur_env ∧ ∀ a, s1.deref a = s.deref a := by
  cases func <;> simp only [apply] at h <;> try (exact absurd h (by simp))
  rename_i params body
  cases hb : bind_params params args (enter_call s) with
  | error e => simp [hb] at h
  | ok s2 =>
    simp only [hb] at h
    cases he : eval_each ev body s2 with
    | error e => simp [he] at h
    | ok r =>
      obtain ⟨exprs, s3⟩ := r
      simp only [he] at h
      cases hd : s3.deref s3.cur_env with
      | none => simp [hd] at h
      | some env =>
        simp only [hd, Except.ok.injEq, Prod.mk.injEq] at h
        obtain ⟨c2, d2⟩ := bind_params_frame_local params args _ s2 hb
        obtain ⟨c3, d3⟩ := eval_each_frame_local ev hev body s2 exprs s3 he
        have hcur : s3.cur_env = s.heap.length := by rw [c3, c2]; rfl
        rw [← h.2]
        refine ⟨rfl, fun a => ?_⟩
        rw [deref_set]
        by_cases ha : a = s.heap.length
        · rw [if_pos ⟨by rw [hcur, ha], deref_lt_length s3 _ env hd⟩, ha]
          simp [State.deref, List.getD_eq_getElem?_getD]
        · rw [if_neg (fun hh => ha (by rw [← hh.1, hcur])),
            d3 a (by rw [c2]; exact ha), d2 a ha, deref_enter_call s a ha]

theorem prim_def_frame_local (ev : Evaluator) (hev : frame_local ev) (list : List Value)
    (s : State) (v : Value) (s1 : State) (h : prim_def ev list s = .ok (v, s1)) :
    s1.cur_env = s.cur_env ∧ ∀ a, a ≠ s.cur_env → s1.deref a = s.deref a := by
  unfold prim_def at h
  split at h
  · simp at h
  · simp at h
  · rename_i name expr rest
    simp only at h
    split at h
    · simp at h
    · rename_i expr1 s2 hev1
      split at h
      · simp at h
      · rename_i s3 hb
        simp only [Except.ok.injEq, Prod.mk.injEq] at h
        obtain ⟨c3, d3, _⟩ := bind_frame_local name expr1 s2 s3 hb
        have h2 : s2.cur_env = s.cur_env ∧ ∀ a, a ≠ s.cur_env → s2.deref a = s.deref a := by
          split at hev1
          · simp at hev1
          · exact hev _ _ _ _ hev1
          · simp only [Except.ok.injEq, Prod.mk.injEq] at hev1
            rw [← hev1.2]
            exact ⟨rfl, fun _ _ => rfl⟩
        rw [← h.2]
        refine ⟨c3.trans h2.1, fun a ha => ?_⟩
        rw [d3 a (by rw [h2.1]; exact ha), h2.2 a ha]
  · split at h
    · simp at h
    · rename_i name params
      split at h
      · simp at h
      · rename_i s2 hb
        simp only [Except.ok.injEq, Prod.mk.injEq] at h
        obtain ⟨c2, d2, _⟩ := bind_frame_local _ _ s s2 hb
        rw [← h.2]
        exact ⟨c2, d2⟩
    · simp at h
  · simp at h

theorem prim_if_frame_local (ev : Evaluator) (hev : frame_local ev) (list : List Value)
    (s : State) (v : Value) (s1 : State) (h : prim_if ev list s = .ok (v, s1)) :
    s1.cur_env = s.cur_env ∧ ∀ a, a ≠ s.cur_env → s1.deref a = s.deref a := by
  unfold prim_if at h
  split at h
  · simp at h
  · simp at h
  · rename_i cond consequent rest
    split at h
    · simp at h
    · rename_i b s2 hc
      obtain ⟨c2, d2⟩ := hev _ _ _ _ hc
      have hstep : ∀ x, ev x s2 = .ok (v, s1) →
          s1.cur_env = s.cur_env ∧ ∀ a, a ≠ s.cur_env → s1.deref a = s.deref a := by
        intro x hx
        obtain ⟨c3, d3⟩ := hev _ _ _ _ hx
        exact ⟨c3.trans c2, fun a ha => by rw [d3 a (by rw [c2]; exact ha), d2 a ha]⟩
      split at h
      · exact hstep _ h
      · split at h
        · exact hstep _ h
        · simp only [Except.ok.injEq, Prod.mk.injEq] at h
          rw [← h.2]
          exact ⟨c2, d2⟩
    · simp at h

theorem eval_prim_frame_local (ev : Evaluator) (hev : frame_local ev)
    (prim : List Value → Except Err Value) (args : List Value)
    (s : State) (v : Value) (s1 : State) (h : eval_prim ev prim args s = .ok (v, s1)) :
    s1.cur_env = s.cur_env ∧ ∀ a, a ≠ s.cur_env → s1.deref a = s.deref a := by
  unfold eval_prim at h
  split at h
  · simp at h
  · rename_i vals s2 he
    split at h
    · simp at h
    · simp only [Except.ok.injEq, Prod.mk.injEq] at h
      rw [← h.2]
      exact eval_each_frame_local ev hev args s vals s2 he

theorem eval_dispatch_frame_local (ev : Evaluator) (hev : frame_local ev) (op : Value)
    (rest : List Value) (s : State) (v : Value) (s1 : State)
    (h : eval_dispatch ev op rest s = .ok (v, s1)) :
    s1.cur_env = s.cur_env ∧ ∀ a, a ≠ s.cur_env → s1.deref a = s.deref a := by
  have hid : ∀ w : Value, (Except.ok (w, s) : Except Err (Value × State)) = .ok (v, s1) →
      s1.cur_env = s.cur_env ∧ ∀ a, a ≠ s.cur_env → s1.deref a = s.deref a := by
    intro w hw
    simp only [Except.ok.injEq, Prod.mk.injEq] at hw
    rw [← hw.2]
    exact ⟨rfl, fun _ _ => rfl⟩
  cases op with
  | EMPTY => exact hid _ h
  | INT n => exact hid _ h
  | LIST l => exact hid _ h
  | BOOL b => simp [eval_dispatch] at h
  | SYMB x => exact hev _ _ _ _ h
  | FUNC params body =>
    simp only [eval_dispatch] at h
    cases he : eval_each ev rest s with
    | error e => simp [he] at h
    | ok r =>
      obtain ⟨args, s2⟩ := r
      simp only [he] at h
      obtain ⟨c2, d2⟩ := eval_each_frame_local ev hev rest s args s2 he
      obtain ⟨c3, d3⟩ := apply_restores ev hev _ args s2 v s1 h
      exact ⟨c3.trans c2, fun a ha => by rw [d3 a, d2 a ha]⟩
  | PRIM p =>
    cases p <;> simp only [eval_dispatch] at h
    case DEF => exact prim_def_frame_local ev hev rest s v s1 h
    case IF => exact prim_if_frame_local ev hev rest s v s1 h
    case LAMBDA =>
      split at h
      · simp at h
      · exact hid _ h
    all_goals exact eval_prim_frame_local ev hev _ rest s v s1 h

theorem eval_body_frame_local (fuel : Nat) (ev : Evaluator) (hev : frame_local ev) :
    frame_local (eval_body fuel ev) := by
  intro val s v s1 h
  have hid : ∀ w : Value, (Except.ok (w, s) : Except Err (Value × State)) = .ok (v, s1) →
      s1.cur_env = s.cur_env ∧ ∀ a, a ≠ s.cur_env → s1.deref a = s.deref a := by
    intro w hw
    simp only [Except.ok.injEq, Prod.mk.injEq] at hw
    rw [← hw.2]
    exact ⟨rfl, fun _ _ => rfl⟩
  unfold eval_body at h
  split at h
  · split at h
    · simp at h
    · split at h
      · simp at h
      · simp at h
      · exact eval_dispatch_frame_local ev hev _ _ s v s1 h
    · split at h
      · simp at h
      · rename_i op s2 hop
        obtain ⟨c2, d2⟩ := hev _ _ _ _ hop
        obtain ⟨c3, d3⟩ := eval_dispatch_frame_local ev hev _ _ s2 v s1 h
        exact ⟨c3.trans c2, fun a ha => by rw [d3 a (by rw [c2]; exact ha), d2 a ha]⟩
  · split at h
    · simp at h
    · simp at h
    · exact hev _ _ _ _ h
  · exact hid _ h

/-- The function `eval` returns in the frame it was called in; it changes no other frame. -/
theorem eval_frame_local (fuel : Nat) : frame_local (eval fuel) := by
  induction fuel with
  | zero => intro v s r s1 h; simp [eval] at h
  | succ n ih => exact eval_body_frame_local n (eval n) ih

theorem lookup_from_congr (s s1 : State) (hd : ∀ a, s1.deref a = s.deref a) (fuel : Nat)
    (p : Option Nat) (symb : string_t) :
    lookup_from fuel s1 p symb = lookup_from fuel s p symb := by
  induction fuel generalizing p with
  | zero => cases p <;> rfl
  | succ n ih =>
    cases p with
    | none => rfl
    | some a =>
      simp only [lookup_from, hd a]
      cases s.deref a with
      | none => rfl
      | some env =>
        simp only
        cases env_lookup env symb with
        | none => exact ih env.parent
        | some v => rfl

/-- C2: whenever `apply` returns, the current frame is again the frame of
the caller, every frame is as it was before the call (the frame of the call, at the
next free address, is gone), and so every symbol looks up the same as before. -/
theorem C2_apply_restores_caller_frame (fuel : Nat) (func : Value) (args : List Value)
    (s : State) (v : Value) (s1 : State)
    (h : apply (eval fuel) func args s = .ok (v, s1)) :
    s1.cur_env = s.cur_env ∧ (∀ a, s1.deref a = s.deref a) ∧
    s1.deref s.heap.length = none ∧
    ∀ n symb, lookup n s1 symb = lookup n s symb := by
  obtain ⟨hc, hd⟩ := apply_restores (eval fuel) (eval_frame_local fuel) func args s v s1 h
  refine ⟨hc, hd, ?_, fun n symb => ?_⟩
  · rw [hd]
    simp [State.deref, List.getD_eq_getElem?_getD]
  · unfold lookup
    rw [hc]
    exact lookup_from_congr s s1 hd n _ symb

/-- C2 at the scenario: after `(define x 10)` and `(define (f x) (+ x 1))`,
the call of `f` on `Int 5` returns `Int 6` in the frame of the caller, `x` looks up
as before, and `x` evaluates to `Int 10`; the four forms give `x`, `f`, 6, 10. -/
theorem C2_apply_restores_caller_frame_witness :
    lookup 5 shadow_state (STRING "f") = .ok (some shadow_f) ∧
    apply (eval 50) shadow_f [.INT 5] shadow_state = .ok (.INT 6, shadow_after) ∧
    shadow_after.cur_env = shadow_state.cur_env ∧
    lookup 5 shadow_after (STRING "x") = lookup 5 shadow_state (STRING "x") ∧
    eval 50 (.SYMB (STRING "x")) shadow_after = .ok (.INT 10, shadow_after) ∧
    (run 50 4 shadow_text init_state).map Prod.fst
      = .ok [.SYMB (STRING "x"), .SYMB (STRING "f"), .INT 6, .INT 10] :=
  ⟨by decide!, by decide!,
   (C2_apply_restores_caller_frame 50 shadow_f [.INT 5] shadow_state (.INT 6) shadow_after
      (by decide!)).1,
   (C2_apply_restores_caller_frame 50 shadow_f [.INT 5] shadow_state (.INT 6) shadow_after
      (by decide!)).2.2.2 5 (STRING "x"),
   by decide!, by decide!⟩

/-! ## `define` (C3) -/

/-- The statement proved of `env_add_aux` on any frame, with enough fuel. -/
theorem env_add_aux_self (fuel : Nat) :
    ∀ (env : env_t) (k : string_t) (v : Value), env.entries.length < fuel →
      0 < (env_add_aux fuel env k v).size ∧
      (env_add_aux fuel env k v).entries.length ≤ env.entries.length + 1 ∧
      env_lookup (env_add_aux fuel env k v) k = some v := by
  induction fuel with
  | zero => intro env k v hlen; omega
  | succ n ih =>
    intro env k v hlen
    have hfold : ∀ (es : List env_entry_t) (ne : env_t), 0 < ne.size →
        ne.entries.length + es.length ≤ n →
        0 < (es.foldl (fun new_env entry => env_add_aux n new_env entry.key entry.val)
          ne).size ∧
        (es.foldl (fun new_env entry => env_add_aux n new_env entry.key entry.val)
          ne).entries.length ≤ ne.entries.length + es.length := by
      intro es
      induction es with
      | nil => intro ne hs _; exact ⟨hs, by simp⟩
      | cons e t iht =>
        intro ne hs hl
        simp only [List.length_cons] at hl
        obtain ⟨s1, l1, _⟩ := ih ne e.key e.val (by omega)
        obtain ⟨s2, l2⟩ := iht (env_add_aux n ne e.key e.val) s1 (by omega)
        simp only [List.foldl_cons, List.length_cons]
        exact ⟨s2, by omega⟩
    simp only [env_add_aux]
    by_cases hc : (env.num_entries * 2) % 2 ^ 32 ≥ env.size
    · simp only [hc, if_true]
      have hodd : 0 < (alloc_env env.parent ((env.size * 2 + 1) % 2 ^ 32)).size := by
        rw [alloc_env_size]; omega
      obtain ⟨s1, l1⟩ := hfold env.entries _ hodd
        (by rw [alloc_env_entries]; simp only [List.length_nil]; omega)
      rw [alloc_env_entries] at l1
      simp only [List.length_nil] at l1
      refine ⟨by rw [env_put_size]; exact s1, ?_, ?_⟩
      · have := env_put_entries_length
          (env.entries.foldl (fun new_env entry => env_add_aux n new_env entry.key entry.val)
            (alloc_env env.parent ((env.size * 2 + 1) % 2 ^ 32))) k v
        omega
      · rw [env_lookup_env_put _ k k v s1, key_eqv_refl]
        rfl
    · simp only [hc, if_false]
      have hs : 0 < env.size := by omega
      refine ⟨by rw [env_put_size]; exact hs, env_put_entries_length env k v, ?_⟩
      rw [env_lookup_env_put _ k k v hs, key_eqv_refl]
      rfl

/-- On every frame: the key just added finds the value added. -/
theorem env_lookup_env_add_self (env : env_t) (k : string_t) (v : Value) :
    env_lookup (env_add env k v) k = some v :=
  (env_add_aux_self _ env k v (Nat.lt_succ_self _)).2.2

theorem bind_ok (symb : string_t) (val : Value) (s : State) (env : env_t)
    (h : s.deref s.cur_env = some env) :
    ∃ s1, bind symb val s = .ok s1 ∧ s1.cur_env = s.cur_env ∧
      s1.deref s.cur_env = some (env_add env symb val) ∧
      ∀ a, a ≠ s.cur_env → s1.deref a = s.deref a := by
  refine ⟨{ s with heap := s.heap.set s.cur_env (some (env_add env symb val)) }, ?_, rfl, ?_, ?_⟩
  · simp only [bind, h]
  · rw [deref_set, if_pos ⟨rfl, deref_lt_length s _ env h⟩]
  · intro a ha
    rw [deref_set, if_neg (fun hh => ha hh.1.symm)]

/-- C3 (as amended): `(define sym expr)`, with `define` bound to the primitive
and a live current frame, binds `sym` in the current frame to `expr` itself,
unevaluated, when `expr` is not a list headed by the symbol `lambda`, and to
the value `eval` returns for `expr` when it is; no other frame changes, and
the form returns the symbol `sym`. -/
theorem C3_define_binds_expression (fuel : Nat) (sym : string_t) (expr : Value) (s : State)
    (env : env_t)
    (hdef : lookup fuel s (STRING "define") = .ok (some (.PRIM .DEF)))
    (hcur : s.deref s.cur_env = some env) :
    (is_lambda_form expr = .ok false →
      ∃ s1, eval (fuel + 1) (.LIST [.SYMB (STRING "define"), .SYMB sym, expr]) s
          = .ok (.SYMB sym, s1) ∧
        s1.cur_env = s.cur_env ∧
        s1.deref s.cur_env = some (env_add env sym expr) ∧
        env_lookup (env_add env sym expr) sym = some expr ∧
        ∀ a, a ≠ s.cur_env → s1.deref a = s.deref a) ∧
    (is_lambda_form expr = .ok true →
      ∀ f s2 env2, eval fuel expr s = .ok (f, s2) → s2.deref s2.cur_env = some env2 →
      ∃ s1, eval (fuel + 1) (.LIST [.SYMB (STRING "define"), .SYMB sym, expr]) s
          = .ok (.SYMB sym, s1) ∧
        s1.cur_env = s.cur_env ∧
        s1.deref s.cur_env = some (env_add env2 sym f) ∧
        env_lookup (env_add env2 sym f) sym = some f ∧
        ∀ a, a ≠ s.cur_env → s1.deref a = s.deref a) := by
  constructor
  · intro hnl
    obtain ⟨s1, hb, hc, hd, ho⟩ := bind_ok sym expr s env hcur
    refine ⟨s1, ?_, hc, hd, env_lookup_env_add_self env sym expr, ho⟩
    simp only [eval, eval_body, hdef, eval_dispatch, prim_def, hnl, hb]
  · intro hl f s2 env2 hev hcur2
    obtain ⟨c2, d2⟩ := eval_frame_local fuel expr s f s2 hev
    obtain ⟨s1, hb, hc, hd, ho⟩ := bind_ok sym f s2 env2 hcur2
    refine ⟨s1, ?_, hc.trans c2, by rw [← c2]; exact hd,
      env_lookup_env_add_self env2 sym f, fun a ha => ?_⟩
    · simp only [eval, eval_body, hdef, eval_dispatch, prim_def, hl, hev, hb]
    · rw [ho a (by rw [c2]; exact ha), d2 a ha]

/-- C3 at `(define y (+ 1 2))` in the initial state: the form returns `y`, and
the current frame then binds `y` to the list `(+ 1 2)`. -/
theorem C3_define_binds_expression_witness :
    ∃ s1, eval 6 (.LIST [.SYMB (STRING "define"), .SYMB (STRING "y"),
          .LIST [.SYMB (STRING "+"), .INT 1, .INT 2]]) init_state
        = .ok (.SYMB (STRING "y"), s1) ∧
      s1.cur_env = init_state.cur_env ∧
      s1.deref init_state.cur_env
        = some (env_add (init_g_env (alloc_env none ENV_INIT_SIZE)) (STRING "y")
            (.LIST [.SYMB (STRING "+"), .INT 1, .INT 2])) ∧
      env_lookup (env_add (init_g_env (alloc_env none ENV_INIT_SIZE)) (STRING "y")
          (.LIST [.SYMB (STRING "+"), .INT 1, .INT 2])) (STRING "y")
        = some (.LIST [.SYMB (STRING "+"), .INT 1, .INT 2]) ∧
      ∀ a, a ≠ init_state.cur_env → s1.deref a = init_state.deref a :=
  (C3_define_binds_expression 5 (STRING "y") (.LIST [.SYMB (STRING "+"), .INT 1, .INT 2])
    init_state (init_g_env (alloc_env none ENV_INIT_SIZE)) (by decide!) (by decide!)).1
    (by decide)

/-- C3 as stated fails: after `(define y (+ 1 2))` the binding of `y` is the
list `(+ 1 2)`, not `Int 3`; and after `(define x 1) (define y (+ x 1))
(define x 5)` the evaluation of `y` gives `Int 6`, not `Int 2`. -/
theorem C3_define_does_not_evaluate :
    lookup 5 define_y_state (STRING "y")
      = .ok (some (.LIST [.SYMB (STRING "+"), .INT 1, .INT 2])) ∧
    (run 50 4 lazy_text init_state).map Prod.fst
      = .ok [.SYMB (STRING "x"), .SYMB (STRING "y"), .SYMB (STRING "x"), .INT 6] := by
  decide!

/-! ## The parameter loop of `apply` (C10) -/

theorem bind_params_ok_shape (params args : List Value) (s s1 : State)
    (h : bind_params params args s = .ok s1) :
    params.length = args.length ∧ ∀ p ∈ params, ∃ symb, p = .SYMB symb := by
  induction params generalizing args s with
  | nil =>
    cases args with
    | nil => exact ⟨rfl, fun p hp => by cases hp⟩
    | cons a as => simp [bind_params] at h
  | cons p ps ih =>
    cases args with
    | nil => simp [bind_params] at h
    | cons a as =>
      cases p <;> simp only [bind_params] at h <;> try (exact absurd h (by simp))
      rename_i symb
      cases hb : bind symb a s with
      | error e => simp [hb] at h
      | ok s2 =>
        simp only [hb] at h
        obtain ⟨hl, hs⟩ := ih as s2 h
        refine ⟨by simp [hl], fun q hq => ?_⟩
        rcases List.mem_cons.mp hq with h1 | h2
        · exact ⟨symb, h1⟩
        · exact hs q h2

theorem bind_params_total (params args : List Value) (s : State) (env : env_t)
    (hlive : s.deref s.cur_env = some env) :
    (∃ s1, bind_params params args s = .ok s1) ∨
    (∃ msg, msg ∈ ["parameter is not symbol", "too less args", "too many args"] ∧
      bind_params params args s = .error (.exit_on msg)) := by
  induction params generalizing args s env with
  | nil =>
    cases args with
    | nil => exact Or.inl ⟨s, rfl⟩
    | cons a as => exact Or.inr ⟨"too many args", by simp, rfl⟩
  | cons p ps ih =>
    cases args with
    | nil => exact Or.inr ⟨"too less args", by simp, rfl⟩
    | cons a as =>
      cases p
      case SYMB symb =>
        obtain ⟨s2, hb, hc, hd, _⟩ := bind_ok symb a s env hlive
        simp only [bind_params, hb]
        exact ih as s2 (env_add env symb a) (by rw [hc]; exact hd)
      all_goals exact Or.inr ⟨"parameter is not symbol", by simp, rfl⟩

theorem bind_params_ok_of_shape (params args : List Value) (s : State) (env : env_t)
    (hlive : s.deref s.cur_env = some env) (hlen : params.length = args.length)
    (hsymb : ∀ p ∈ params, ∃ symb, p = .SYMB symb) :
    ∃ s1, bind_params params args s = .ok s1 := by
  induction params generalizing args s env with
  | nil =>
    cases args with
    | nil => exact ⟨s, rfl⟩
    | cons a as => simp at hlen
  | cons p ps ih =>
    cases args with
    | nil => simp at hlen
    | cons a as =>
      obtain ⟨symb, hp⟩ := hsymb p (List.mem_cons_self _ _)
      subst hp
      obtain ⟨s2, hb, hc, hd, _⟩ := bind_ok symb a s env hlive
      simp only [bind_params, hb]
      exact ih as s2 (env_add env symb a) (by rw [hc]; exact hd) (by simpa using hlen)
        (fun q hq => hsymb q (List.mem_cons_of_mem _ hq))

/-- C10: in `apply`, the loop that binds the parameters (with the check
behind it) succeeds iff there are as many arguments as parameters and every
parameter is a symbol; when the numbers differ, `apply` ends in `exit_on` with
one of the three messages of the loop, whatever the evaluator of the body is:
the body is not evaluated. -/
theorem C10_apply_checks_arity (params body args : List Value) (s : State) :
    ((∃ s1, bind_params params args (enter_call s) = .ok s1) ↔
      (params.length = args.length ∧ ∀ p ∈ params, ∃ symb, p = .SYMB symb)) ∧
    (params.length ≠ args.length →
      ∃ msg, msg ∈ ["parameter is not symbol", "too less args", "too many args"] ∧
        ∀ ev : Evaluator, apply ev (.FUNC params body) args s = .error (.exit_on msg)) := by
  refine ⟨⟨fun ⟨s1, h⟩ => bind_params_ok_shape params args _ s1 h,
    fun ⟨hl, hs⟩ => bind_params_ok_of_shape params args _ _ (deref_enter_call_self s) hl hs⟩,
    fun hne => ?_⟩
  rcases bind_params_total params args (enter_call s) _ (deref_enter_call_self s) with
    ⟨s1, hok⟩ | ⟨msg, hmem, herr⟩
  · exact absurd (bind_params_ok_shape params args _ s1 hok).1 hne
  · exact ⟨msg, hmem, fun ev => by simp only [apply, herr]⟩

/-- C10 at a function of two parameters: one argument and three arguments both
end in `exit_on`, with the messages of the two directions, and two arguments
are accepted. -/
theorem C10_apply_checks_arity_witness :
    (∃ msg, msg ∈ ["parameter is not symbol", "too less args", "too many args"] ∧
      ∀ ev : Evaluator, apply ev two_param_f [.INT 1] init_state = .error (.exit_on msg)) ∧
    (∃ msg, msg ∈ ["parameter is not symbol", "too less args", "too many args"] ∧
      ∀ ev : Evaluator,
        apply ev two_param_f [.INT 1, .INT 2, .INT 3] init_state = .error (.exit_on msg)) ∧
    apply (eval 9) two_param_f [.INT 1] init_state = .error (.exit_on "too less args") ∧
    apply (eval 9) two_param_f [.INT 1, .INT 2, .INT 3] init_state
      = .error (.exit_on "too many args") ∧
    (apply (eval 9) two_param_f [.INT 1, .INT 2] init_state).map Prod.fst = .ok (.INT 3) :=
  ⟨(C10_apply_checks_arity _ _ [.INT 1] init_state).2 (by decide),
   (C10_apply_checks_arity _ _ [.INT 1, .INT 2, .INT 3] init_state).2 (by decide),
   by decide!, by decide!, by decide!⟩

/-! ## Tokens (C8) -/

theorem read_spaces_of_not_space (c : Nat) (p : List Nat) (h : isspace c = false) :
    read_spaces (c :: p) = c :: p := by
  simp [read_spaces, h]

theorem read_symb_token (tok rest : List Nat) (hchars : ∀ c ∈ tok, is_delimiter c = false)
    (hrest : is_delimiter (peekc rest) = true) :
    read_symb (tok ++ rest) = (tok, rest) := by
  induction tok with
  | nil =>
    cases rest with
    | nil => rfl
    | cons c r =>
      simp only [peekc, List.headD_cons, is_delimiter, Bool.or_eq_true, beq_iff_eq] at hrest
      have : ¬ (c ≠ 0 ∧ ¬ isspace c = true ∧ c ≠ 40 ∧ c ≠ 41) := by
        intro ⟨h0, hs, h40, h41⟩
        rcases hrest with ((h | h) | h) | h
        · exact h0 h
        · exact hs h
        · exact h40 h
        · exact h41 h
      simp only [List.nil_append, read_symb, if_neg this]
  | cons c t ih =>
    have hc := hchars c (List.mem_cons_self _ _)
    simp only [is_delimiter, Bool.or_eq_false_iff, beq_eq_false_iff_ne] at hc
    have hcond : c ≠ 0 ∧ ¬ isspace c = true ∧ c ≠ 40 ∧ c ≠ 41 :=
      ⟨hc.1.1.1, by simp [hc.1.1.2], hc.1.2, hc.2⟩
    rw [List.cons_append, read_symb, if_pos hcond,
      ih (fun x hx => hchars x (List.mem_cons_of_mem _ hx))]

theorem is_number_loop_digits (len i : Nat) (cs : List Nat) (h : i ≠ 0 ∨ len ≤ 1) :
    is_number_loop len i cs = cs.all isdigit := by
  induction cs generalizing i with
  | nil => rfl
  | cons c t ih =>
    have hcond : ¬ (i = 0 ∧ len > 1 ∧ (c = 43 ∨ c = 45)) := by
      intro ⟨h0, hl, _⟩
      rcases h with h | h
      · exact h h0
      · omega
    rw [is_number_loop, if_neg hcond, List.all_cons]
    cases hd : isdigit c
    · simp
    · simp only [not_true_eq_false, if_false, Bool.true_and]
      exact ih (i + 1) (Or.inl (by omega))

/-- On a token that is not empty, `is_number` decides the integer grammar of
the specification. -/
theorem is_number_eq_grammar (tok : List Nat) (hne : tok ≠ []) :
    is_number tok = matches_integer_grammar tok := by
  cases tok with
  | nil => exact absurd rfl hne
  | cons c ds =>
    unfold matches_integer_grammar
    by_cases hs : c = 43 ∨ c = 45
    · have hnd : isdigit c = false := by
        rcases hs with h | h <;> subst h <;> rfl
      simp only [if_pos hs]
      cases ds with
      | nil =>
        rw [is_number, is_number_loop_digits _ _ _ (Or.inr (by simp))]
        simp [hnd]
      | cons d t =>
        rw [is_number, is_number_loop, if_pos ⟨rfl, by simp, hs⟩,
          is_number_loop_digits _ _ _ (Or.inl (by omega))]
        simp
    · simp only [if_neg hs]
      rw [is_number, is_number_loop, if_neg (fun hh => hs hh.2.2), List.all_cons]
      cases hd : isdigit c
      · simp
      · simp only [not_true_eq_false, if_false, Bool.true_and]
        exact is_number_loop_digits _ _ _ (Or.inl (by omega))

theorem atoll_digits_append (acc : Nat) (ds rest : List Nat) (hd : ds.all isdigit = true)
    (hrest : isdigit (peekc rest) = false) :
    atoll_digits acc (ds ++ rest) = ds.foldl (fun a c => a * 10 + (c - 48)) acc := by
  induction ds generalizing acc with
  | nil =>
    cases rest with
    | nil => rfl
    | cons c r =>
      simp only [peekc, List.headD_cons] at hrest
      simp [atoll_digits, hrest]
  | cons d t ih =>
    simp only [List.all_cons, Bool.and_eq_true] at hd
    simp only [List.cons_append, atoll_digits, hd.1, if_true, List.foldl_cons]
    exact ih _ hd.2

theorem isdigit_of_delimiter (c : Nat) (h : is_delimiter c = true) : isdigit c = false := by
  simp only [is_delimiter, isspace, Bool.or_eq_true, beq_iff_eq, Bool.and_eq_true,
    decide_eq_true_eq] at h
  simp only [isdigit, Bool.and_eq_false_iff, decide_eq_false_iff_not]
  omega

theorem isspace_of_isdigit (c : Nat) (h : isdigit c = true) : isspace c = false := by
  simp only [isdigit, Bool.and_eq_true, decide_eq_true_eq] at h
  simp only [isspace, Bool.or_eq_false_iff, beq_eq_false_iff_ne, Bool.and_eq_false_iff,
    decide_eq_false_iff_not]
  omega

/-- On a token of the integer grammar whose value fits `int64_t`, followed by
a delimiter, `atoll` returns the base-10 value. -/
theorem atoll_token (tok rest : List Nat) (hg : matches_integer_grammar tok = true)
    (hrest : is_delimiter (peekc rest) = true)
    (hfit : -(2 ^ 63) ≤ token_value tok ∧ token_value tok ≤ 2 ^ 63 - 1) :
    atoll (tok ++ rest) = token_value tok := by
  have hnd := isdigit_of_delimiter _ hrest
  cases tok with
  | nil => simp [matches_integer_grammar] at hg
  | cons c ds =>
    unfold matches_integer_grammar at hg
    unfold token_value at hfit ⊢
    by_cases h43 : c = 43
    · subst h43
      simp only [true_or, if_true, Bool.and_eq_true] at hg
      simp only [if_true] at hfit ⊢
      simp only [atoll, List.cons_append, read_spaces_of_not_space 43 _ (by decide),
        atoll_digits_append 0 ds rest hg.2 hnd]
      simp only [decimal_value] at hfit ⊢
      have : ¬ (43 : Nat) = 45 := by decide
      simp only [this, if_false, if_true]
      omega
    · by_cases h45 : c = 45
      · subst h45
        simp only [or_true, if_true, Bool.and_eq_true] at hg
        simp only [h43, if_false, if_true] at hfit ⊢
        simp only [atoll, List.cons_append, read_spaces_of_not_space 45 _ (by decide),
          atoll_digits_append 0 ds rest hg.2 hnd]
        simp only [decimal_value] at hfit ⊢
        simp only [if_true]
        omega
      · have hs : ¬ (c = 43 ∨ c = 45) := fun h => h.elim h43 h45
        simp only [hs, if_false] at hg
        simp only [h43, h45, if_false] at hfit ⊢
        have hdd : isdigit c = true := by
          simp only [List.all_cons, Bool.and_eq_true] at hg
          exact hg.1
        have := atoll_digits_append 0 (c :: ds) rest hg hnd
        simp only [List.cons_append] at this
        simp only [atoll, List.cons_append,
          read_spaces_of_not_space c _ (isspace_of_isdigit c hdd), h43, h45, if_false, this]
        simp only [decimal_value] at hfit ⊢
        omega

/-- The default branch of `read`: a token at the cursor, not starting with
`;`, is read to its end; it gives `Int (atoll ...)` when `is_number` accepts
it and a `Symbol` of its characters otherwise. -/
theorem read_token (fuel : Nat) (tok rest : List Nat) (hne : tok ≠ [])
    (hchars : ∀ c ∈ tok, is_delimiter c = false) (hsemi : peekc tok ≠ 59)
    (hrest : is_delimiter (peekc rest) = true) :
    read (fuel + 1) (tok ++ rest)
      = .ok (some (if is_number tok then .INT (atoll (tok ++ rest)) else .SYMB tok), rest) := by
  cases tok with
  | nil => exact absurd rfl hne
  | cons c t =>
    have hc := hchars c (List.mem_cons_self _ _)
    simp only [is_delimiter, Bool.or_eq_false_iff, beq_eq_false_iff_ne] at hc
    simp only [peekc, List.headD_cons] at hsemi
    have hsp : read_spaces (c :: t ++ rest) = c :: t ++ rest := by
      rw [List.cons_append, read_spaces_of_not_space c _ hc.1.1.2]
    have hpeek : peekc (c :: t ++ rest) = c := rfl
    have hsymb := read_symb_token (c :: t) rest hchars hrest
    simp only [read, hsp, hpeek, if_neg hc.1.1.1, if_neg hsemi, if_neg hc.2, if_neg hc.1.2,
      hsymb]

/-- C8: a token (not empty, free of white space, parentheses and NUL, not
starting with `;`) that is followed by a delimiter is read as `Int n` when it
matches `(+|-)?[0-9]+`, with `n` its base-10 value (taken to fit 64 bits), and
as the `Symbol` of exactly its characters otherwise; the cursor is left behind
the token. -/
theorem C8_read_token (fuel : Nat) (tok rest : List Nat) (hne : tok ≠ [])
    (hchars : ∀ c ∈ tok, is_delimiter c = false) (hsemi : peekc tok ≠ 59)
    (hrest : is_delimiter (peekc rest) = true)
    (hfit : matches_integer_grammar tok = true →
      -(2 ^ 63) ≤ token_value tok ∧ token_value tok ≤ 2 ^ 63 - 1) :
    read (fuel + 1) (tok ++ rest)
      = .ok (some (if matches_integer_grammar tok then .INT (token_value tok) else .SYMB tok),
          rest) := by
  rw [read_token fuel tok rest hne hchars hsemi hrest, is_number_eq_grammar tok hne]
  cases hg : matches_integer_grammar tok
  · rfl
  · simp only [if_true]
    rw [atoll_token tok rest hg hrest (hfit hg)]

/-- C8 at the tokens of the specification: `+5`, `-5`, `5` read as `Int 5`,
`Int (-5)`, `Int 5`; `+`, `-`, `a-1`, `1a` read as symbols. -/
theorem C8_read_token_witness :
    read 1 (STRING "+5" ++ STRING " rest") = .ok (some (.INT 5), STRING " rest") ∧
    read 1 (STRING "-5" ++ STRING ")") = .ok (some (.INT (-5)), STRING ")") ∧
    read 1 (STRING "5" ++ []) = .ok (some (.INT 5), []) ∧
    read 1 (STRING "+" ++ STRING " 1 2)") = .ok (some (.SYMB (STRING "+")), STRING " 1 2)") ∧
    read 1 (STRING "-" ++ STRING "\n") = .ok (some (.SYMB (STRING "-")), STRING "\n") ∧
    read 1 (STRING "a-1" ++ STRING "(") = .ok (some (.SYMB (STRING "a-1")), STRING "(") ∧
    read 1 (STRING "1a" ++ []) = .ok (some (.SYMB (STRING "1a")), []) :=
  ⟨C8_read_token 0 (STRING "+5") (STRING " rest") (by decide) (by decide) (by decide)
      (by decide) (by decide),
   C8_read_token 0 (STRING "-5") (STRING ")") (by decide) (by decide) (by decide)
      (by decide) (by decide),
   C8_read_token 0 (STRING "5") [] (by decide) (by decide) (by decide) (by decide) (by decide),
   C8_read_token 0 (STRING "+") (STRING " 1 2)") (by decide) (by decide) (by decide)
      (by decide) (by decide),
   C8_read_token 0 (STRING "-") (STRING "\n") (by decide) (by decide) (by decide)
      (by decide) (by decide),
   C8_read_token 0 (STRING "a-1") (STRING "(") (by decide) (by decide) (by decide)
      (by decide) (by decide),
   C8_read_token 0 (STRING "1a") [] (by decide) (by decide) (by decide) (by decide)
      (by decide)⟩

/-! ## Printing and reading back (C9) -/

theorem decimal_value_append (ds : List Nat) (d : Nat) :
    decimal_value (ds ++ [d]) = decimal_value ds * 10 + (d - 48) := by
  simp [decimal_value, List.foldl_append]

/-- The digits `print_nat_aux` puts in front of `acc`: not empty, all digits,
of base-10 value `n`. -/
theorem print_nat_aux_digits (fuel : Nat) :
    ∀ (n : Nat) (acc : List Nat), n < fuel →
      ∃ ds, print_nat_aux fuel n acc = ds ++ acc ∧ ds ≠ [] ∧ ds.all isdigit = true ∧
        decimal_value ds = n := by
  induction fuel with
  | zero => intro n acc h; omega
  | succ f ih =>
    intro n acc h
    by_cases h10 : n < 10
    · refine ⟨[48 + n], by simp [print_nat_aux, h10], by simp, ?_, ?_⟩
      · simp only [List.all_cons, List.all_nil, Bool.and_true, isdigit, Bool.and_eq_true,
          decide_eq_true_eq]
        omega
      · simp [decimal_value]
    · obtain ⟨ds, h1, h2, h3, h4⟩ := ih (n / 10) ((48 + n % 10) :: acc) (by omega)
      refine ⟨ds ++ [48 + n % 10], ?_, by simp, ?_, ?_⟩
      · simp only [print_nat_aux, if_neg h10, h1, List.append_assoc, List.singleton_append]
      · simp only [List.all_append, h3, List.all_cons, List.all_nil, Bool.and_true,
          Bool.true_and, isdigit, Bool.and_eq_true, decide_eq_true_eq]
        omega
      · rw [decimal_value_append, h4]
        omega

theorem is_delimiter_of_isdigit (c : Nat) (h : isdigit c = true) : is_delimiter c = false := by
  cases hd : is_delimiter c
  · rfl
  · rw [isdigit_of_delimiter c hd] at h
    cases h

/-- What `print_int` writes is a token of the integer grammar whose base-10
value is the number printed. -/
theorem print_int_token (n : Int) :
    print_int n ≠ [] ∧ (∀ c ∈ print_int n, is_delimiter c = false) ∧
    peekc (print_int n) ≠ 59 ∧ isspace (peekc (print_int n)) = false ∧
    peekc (print_int n) ≠ 41 ∧
    matches_integer_grammar (print_int n) = true ∧ token_value (print_int n) = n := by
  obtain ⟨ds, h1, h2, h3, h4⟩ := print_nat_aux_digits (n.natAbs + 1) n.natAbs []
    (Nat.lt_succ_self _)
  rw [List.append_nil] at h1
  have hall : ∀ c ∈ ds, isdigit c = true := by
    intro c hc
    exact List.all_eq_true.mp h3 c hc
  cases ds with
  | nil => exact absurd rfl h2
  | cons d t =>
    have hd : isdigit d = true := hall d (List.mem_cons_self _ _)
    have hd' := hd
    simp only [isdigit, Bool.and_eq_true, decide_eq_true_eq] at hd'
    by_cases hneg : n < 0
    · have hp : print_int n = 45 :: d :: t := by simp only [print_int, if_pos hneg, h1]
      rw [hp]
      refine ⟨by simp, ?_, by simp [peekc], rfl, by simp [peekc], ?_, ?_⟩
      · intro c hc
        rcases List.mem_cons.mp hc with h | h
        · subst h; decide
        · exact is_delimiter_of_isdigit c (hall c h)
      · simp only [matches_integer_grammar, or_true, if_true, List.isEmpty_cons, Bool.not_false,
          Bool.true_and]
        exact h3
      · have h45 : ¬ (45 : Nat) = 43 := by decide
        simp only [token_value, h45, if_false, if_true, h4]
        omega
    · have hp : print_int n = d :: t := by simp only [print_int, if_neg hneg, h1]
      rw [hp]
      have h43 : d ≠ 43 := by omega
      have h45 : d ≠ 45 := by omega
      refine ⟨by simp, ?_, ?_, ?_, ?_, ?_, ?_⟩
      · intro c hc
        exact is_delimiter_of_isdigit c (hall c hc)
      · simp only [peekc, List.headD_cons]; omega
      · simp only [peekc, List.headD_cons]; exact isspace_of_isdigit d hd
      · simp only [peekc, List.headD_cons]; omega
      · have hs : ¬ (d = 43 ∨ d = 45) := fun h => h.elim h43 h45
        simp only [matches_integer_grammar, hs, if_false]
        exact h3
      · simp only [token_value, h43, h45, if_false, h4]
        omega

theorem read_skip_space (fuel : Nat) (p : List Nat) : read fuel (32 :: p) = read fuel p := by
  cases fuel with
  | zero => rfl
  | succ f =>
    have : read_spaces (32 :: p) = read_spaces p := by
      rw [read_spaces]; simp [isspace]
    simp only [read, this]

theorem read_list_skip_space (fuel : Nat) (p : List Nat) :
    read_list fuel (32 :: p) = read_list fuel p := by
  cases fuel with
  | zero => rfl
  | succ f => simp only [read_list, read_skip_space]

theorem peekc_append (out rest : List Nat) (h : out ≠ []) : peekc (out ++ rest) = peekc out := by
  cases out with
  | nil => exact absurd rfl h
  | cons c t => rfl

theorem read_spaces_append (out rest : List Nat) (h : out ≠ [])
    (hs : isspace (peekc out) = false) : read_spaces (out ++ rest) = out ++ rest := by
  cases out with
  | nil => exact absurd rfl h
  | cons c t => exact read_spaces_of_not_space c _ hs

mutual
/-- A `readable` value is printed as a text that reads back as the value. -/
theorem round_trip_value : ∀ (v : Value), readable v = true →
    ∃ out, print v = .ok out ∧ out ≠ [] ∧ isspace (peekc out) = false ∧ peekc out ≠ 41 ∧
      ∀ rest, is_delimiter (peekc rest) = true →
        ∃ N, ∀ fuel, N ≤ fuel → read fuel (out ++ rest) = .ok (some v, rest)
  | .INT n, h => by
    obtain ⟨t1, t2, t3, t4, t5, t6, t7⟩ := print_int_token n
    refine ⟨print_int n, by simp [print], t1, t4, t5, fun rest hrest => ⟨1, fun fuel hf => ?_⟩⟩
    obtain ⟨f, rfl⟩ : ∃ f, fuel = f + 1 := ⟨fuel - 1, by omega⟩
    simp only [readable, decide_eq_true_eq] at h
    rw [read_token f _ rest t1 t2 t3 hrest, is_number_eq_grammar _ t1, t6,
      atoll_token _ rest t6 hrest (by rw [t7]; exact h), t7]
    rfl
  | .SYMB s, h => by
    simp only [readable, Bool.and_eq_true, Bool.not_eq_true', bne_iff_ne, ne_eq,
      List.all_eq_true] at h
    obtain ⟨⟨⟨h1, h2⟩, h3⟩, h4⟩ := h
    have hne : s ≠ [] := by
      intro hs
      rw [hs] at h1
      simp at h1
    have hchars : ∀ c ∈ s, is_delimiter c = false := fun c hc => h2 c hc
    have hhead : is_delimiter (peekc s) = false := by
      cases s with
      | nil => exact absurd rfl hne
      | cons c t => exact hchars c (List.mem_cons_self _ _)
    simp only [is_delimiter, Bool.or_eq_false_iff, beq_eq_false_iff_ne] at hhead
    refine ⟨s, by simp [print], hne, hhead.1.1.2, hhead.2, fun rest hrest => ⟨1, fun fuel hf => ?_⟩⟩
    obtain ⟨f, rfl⟩ : ∃ f, fuel = f + 1 := ⟨fuel - 1, by omega⟩
    rw [read_token f s rest hne hchars h3 hrest, h4]
    rfl
  | .LIST l, h => by
    simp only [readable, Bool.and_eq_true, Bool.not_eq_true'] at h
    have hne : l ≠ [] := by
      intro hl
      rw [hl] at h
      simp at h
    obtain ⟨outs, hp, hhead, hread⟩ := round_trip_cells l h.2
    obtain ⟨ho1, ho2, ho3⟩ := hhead hne
    refine ⟨40 :: (outs ++ [41]), by simp [print, hp], by simp, rfl, by simp [peekc],
      fun rest _ => ?_⟩
    obtain ⟨N, hN⟩ := hread rest
    refine ⟨N + 1, fun fuel hf => ?_⟩
    obtain ⟨f, rfl⟩ : ∃ f, fuel = f + 1 := ⟨fuel - 1, by omega⟩
    have htail : (40 :: (outs ++ [41]) ++ rest).tail = outs ++ 41 :: rest := by simp
    have hsp : read_spaces (40 :: (outs ++ [41]) ++ rest) = 40 :: (outs ++ [41]) ++ rest :=
      read_spaces_of_not_space 40 _ rfl
    have hsp1 : read_spaces (outs ++ 41 :: rest) = outs ++ 41 :: rest :=
      read_spaces_append outs _ ho1 ho2
    have hpk : peekc (outs ++ 41 :: rest) ≠ 41 := by
      rw [peekc_append outs _ ho1]; exact ho3
    have h40 : peekc (40 :: (outs ++ [41]) ++ rest) = 40 := rfl
    have hml : make_list l = .LIST l := by
      cases l with
      | nil => exact absurd rfl hne
      | cons a b => rfl
    simp only [read, hsp, h40, htail, hsp1, if_neg hpk, hN f (by omega), hml]
    simp
  | .EMPTY, h => by simp [readable] at h
  | .BOOL _, h => by simp [readable] at h
  | .FUNC _ _, h => by simp [readable] at h
  | .PRIM _, h => by simp [readable] at h
/-- The elements of a cell chain, printed by `print_list` and closed by `)`,
read back by `read_list`. -/
theorem round_trip_cells : ∀ (l : List Value), readable_cells l = true →
    ∃ outs, print_cells l = .ok outs ∧
      (l ≠ [] → outs ≠ [] ∧ isspace (peekc outs) = false ∧ peekc outs ≠ 41) ∧
      ∀ rest, ∃ N, ∀ fuel, N ≤ fuel → read_list fuel (outs ++ 41 :: rest) = .ok (l, rest)
  | [], _ => by
    refine ⟨[], rfl, fun h => absurd rfl h, fun rest => ⟨2, fun fuel hf => ?_⟩⟩
    obtain ⟨f, rfl⟩ : ∃ f, fuel = f + 2 := ⟨fuel - 2, by omega⟩
    have hsp : read_spaces (41 :: rest) = 41 :: rest := read_spaces_of_not_space 41 _ rfl
    simp [read_list, read, hsp, peekc]
  | v :: t, h => by
    simp only [readable_cells, Bool.and_eq_true] at h
    obtain ⟨out, hp, ho1, ho2, ho3, hread⟩ := round_trip_value v h.1
    obtain ⟨outs, hps, _, hreads⟩ := round_trip_cells t h.2
    refine ⟨out ++ 32 :: outs, by simp [print_cells, hp, hps], fun _ => ⟨by simp [ho1], ?_, ?_⟩,
      fun rest => ?_⟩
    · rw [peekc_append out _ ho1]; exact ho2
    · rw [peekc_append out _ ho1]; exact ho3
    · obtain ⟨N1, hN1⟩ := hread (32 :: (outs ++ 41 :: rest)) rfl
      obtain ⟨N2, hN2⟩ := hreads rest
      refine ⟨max N1 N2 + 1, fun fuel hf => ?_⟩
      obtain ⟨f, rfl⟩ : ∃ f, fuel = f + 1 := ⟨fuel - 1, by omega⟩
      have hf1 : N1 ≤ f := by omega
      have hf2 : N2 ≤ f := by omega
      have happ : (out ++ 32 :: outs) ++ 41 :: rest = out ++ 32 :: (outs ++ 41 :: rest) := by
        simp
      simp only [read_list, happ, hN1 f hf1, read_list_skip_space, hN2 f hf2]
end

/-- C9 (as amended): every value without `Empty` that `read` returns (an
`Int` of 64 bits, a `Symbol` of a token, a list of such values, to any depth)
is printed by `print`, and the text printed, followed by the end of the input
or any delimiter, is read back as the same value by `read` with enough fuel. -/
theorem C9_print_then_read (v : Value) (h : readable v = true) :
    ∃ out, print v = .ok out ∧
      ∀ rest, is_delimiter (peekc rest) = true →
        ∃ N, ∀ fuel, N ≤ fuel → read fuel (out ++ rest) = .ok (some v, rest) := by
  obtain ⟨out, hp, _, _, _, hread⟩ := round_trip_value v h
  exact ⟨out, hp, hread⟩

/-- C9 at `(+ 1 2)`: read, printed as `(+ 1 2 )`, and read back as the list
of the symbol `+`, `Int 1` and `Int 2`. -/
theorem C9_print_then_read_witness :
    read 9 (STRING "(+ 1 2)") = .ok (some plus_one_two, []) ∧
    print plus_one_two = .ok (STRING "(+ 1 2 )") ∧
    read 9 (STRING "(+ 1 2 )") = .ok (some plus_one_two, []) ∧
    ∃ out, print plus_one_two = .ok out ∧
      ∀ rest, is_delimiter (peekc rest) = true →
        ∃ N, ∀ fuel, N ≤ fuel → read fuel (out ++ rest) = .ok (some plus_one_two, rest) :=
  ⟨by decide, by decide, by decide, C9_print_then_read plus_one_two (by decide)⟩

/-- C9 as stated fails at `Empty`: `()` is read as `Empty`, `print` writes
nothing for it, and `read` of the empty text ends the program; inside a list,
`(a ())` is read as the list of `a` and `Empty`, printed as `(a  )`, and that
text is read back as the list of `a` alone. -/
theorem C9_empty_does_not_round_trip :
    read 9 (STRING "()") = .ok (some .EMPTY, []) ∧
    print .EMPTY = .ok [] ∧
    read 9 [] = .error .program_done ∧
    read 9 (STRING "(a ())") = .ok (some (.LIST [.SYMB (STRING "a"), .EMPTY]), []) ∧
    print (.LIST [.SYMB (STRING "a"), .EMPTY]) = .ok (STRING "(a  )") ∧
    read 9 (STRING "(a  )") = .ok (some (.LIST [.SYMB (STRING "a")]), []) := by
  decide

/-! ## More fuel, same result -/

/-- A frame with more fuel than entries: the fuel does not matter. -/
theorem env_add_aux_fuel (f1 : Nat) :
    ∀ (f2 : Nat) (env : env_t) (k : string_t) (v : Value),
      env.entries.length < f1 → env.entries.length < f2 →
      env_add_aux f1 env k v = env_add_aux f2 env k v := by
  induction f1 with
  | zero => intro f2 env k v h; omega
  | succ n1 ih =>
    intro f2 env k v h1 h2
    cases f2 with
    | zero => omega
    | succ n2 =>
      have hfold : ∀ (es : List env_entry_t) (ne : env_t),
          ne.entries.length + es.length ≤ n1 → ne.entries.length + es.length ≤ n2 →
          es.foldl (fun new_env entry => env_add_aux n1 new_env entry.key entry.val) ne
            = es.foldl (fun new_env entry => env_add_aux n2 new_env entry.key entry.val) ne := by
        intro es
        induction es with
        | nil => intro ne _ _; rfl
        | cons e t iht =>
          intro ne hl1 hl2
          simp only [List.length_cons] at hl1 hl2
          have hlen := (env_add_aux_self n1 ne e.key e.val (by omega)).2.1
          simp only [List.foldl_cons]
          rw [← ih n2 ne e.key e.val (by omega) (by omega)]
          exact iht _ (by omega) (by omega)
      simp only [env_add_aux]
      by_cases hc : (env.num_entries * 2) % 2 ^ 32 ≥ env.size
      · simp only [hc, if_true]
        rw [hfold env.entries _ (by rw [alloc_env_entries]; simp only [List.length_nil]; omega)
          (by rw [alloc_env_entries]; simp only [List.length_nil]; omega)]
      · simp only [hc, if_false]

theorem lookup_from_mono (n : Nat) (s : State) (symb : string_t) :
    ∀ (p : Option Nat) (r : Option Value), lookup_from n s p symb = .ok r →
      lookup_from (n + 1) s p symb = .ok r := by
  induction n with
  | zero =>
    intro p r h
    cases p with
    | none => exact h
    | some a => simp [lookup_from] at h
  | succ m ih =>
    intro p r h
    cases p with
    | none => exact h
    | some a =>
      simp only [lookup_from] at h ⊢
      cases hd : s.deref a with
      | none => simp [hd] at h
      | some env =>
        simp only [hd] at h ⊢
        cases hl : env_lookup env symb with
        | some v => simpa [hl] using h
        | none =>
          simp only [hl] at h ⊢
          exact ih _ _ h

theorem eval_each_mono (ev ev1 : Evaluator) (hle : ev_le ev ev1) (list : List Value) :
    ∀ (s : State) (r : List Value × State), eval_each ev list s = .ok r →
      eval_each ev1 list s = .ok r := by
  induction list with
  | nil => intro s r h; exact h
  | cons v rest ih =>
    intro s r h
    simp only [eval_each] at h ⊢
    cases hv : ev v s with
    | error e => simp [hv] at h
    | ok r1 =>
      obtain ⟨val, s1⟩ := r1
      simp only [hv] at h
      rw [hle v s _ hv]
      cases hr : eval_each ev rest s1 with
      | error e => simp [hr] at h
      | ok r2 =>
        simp only [hr] at h
        simp only [ih s1 r2 hr]
        exact h

theorem apply_mono (ev ev1 : Evaluator) (hle : ev_le ev ev1) (func : Value)
    (args : List Value) (s : State) (r : Value × State) (h : apply ev func args s = .ok r) :
    apply ev1 func args s = .ok r := by
  cases func <;> simp only [apply] at h ⊢ <;> try (exact absurd h (by simp))
  rename_i params body
  cases hb : bind_params params args (enter_call s) with
  | error e => simp [hb] at h
  | ok s2 =>
    simp only [hb] at h ⊢
    cases he : eval_each ev body s2 with
    | error e => simp [he] at h
    | ok r1 =>
      simp only [he] at h
      simp only [eval_each_mono ev ev1 hle body s2 r1 he]
      exact h

theorem prim_def_mono (ev ev1 : Evaluator) (hle : ev_le ev ev1) (list : List Value)
    (s : State) (r : Value × State) (h : prim_def ev list s = .ok r) :
    prim_def ev1 list s = .ok r := by
  cases list with
  | nil => exact h
  | cons a t =>
    cases t with
    | nil => simp [prim_def] at h
    | cons expr rest =>
      cases a with
      | SYMB name =>
        simp only [prim_def] at h ⊢
        cases hlam : is_lambda_form expr with
        | error e => simp [hlam] at h
        | ok b =>
          cases b with
          | false => simpa [hlam] using h
          | true =>
            simp only [hlam] at h ⊢
            cases hv : ev expr s with
            | error e => simp [hv] at h
            | ok r1 =>
              simp only [hv] at h
              simp only [hle expr s r1 hv]
              exact h
      | LIST l => exact h
      | EMPTY => exact h
      | INT n => exact h
      | BOOL b => exact h
      | FUNC p q => exact h
      | PRIM p => exact h

theorem prim_if_mono (ev ev1 : Evaluator) (hle : ev_le ev ev1) (list : List Value)
    (s : State) (r : Value × State) (h : prim_if ev list s = .ok r) :
    prim_if ev1 list s = .ok r := by
  cases list with
  | nil => exact h
  | cons cond t =>
    cases t with
    | nil => exact h
    | cons consequent rest =>
      simp only [prim_if] at h ⊢
      cases hc : ev cond s with
      | error e => simp [hc] at h
      | ok r1 =>
        obtain ⟨c, s1⟩ := r1
        simp only [hc] at h
        simp only [hle cond s _ hc]
        cases c with
        | BOOL b =>
          simp only at h ⊢
          cases b with
          | true =>
            simp only [if_true] at h ⊢
            exact hle _ _ _ h
          | false =>
            simp only [Bool.false_eq_true, if_false] at h ⊢
            cases rest with
            | nil => exact h
            | cons alt more => exact hle _ _ _ h
        | EMPTY => exact h
        | INT n => exact h
        | LIST l => exact h
        | SYMB x => exact h
        | FUNC p q => exact h
        | PRIM p => exact h

theorem eval_prim_mono (ev ev1 : Evaluator) (hle : ev_le ev ev1)
    (prim : List Value → Except Err Value) (args : List Value) (s : State)
    (r : Value × State) (h : eval_prim ev prim args s = .ok r) :
    eval_prim ev1 prim args s = .ok r := by
  unfold eval_prim at h ⊢
  cases he : eval_each ev args s with
  | error e => simp [he] at h
  | ok r1 =>
    simp only [he] at h
    simp only [eval_each_mono ev ev1 hle args s r1 he]
    exact h

theorem eval_dispatch_mono (ev ev1 : Evaluator) (hle : ev_le ev ev1) (op : Value)
    (rest : List Value) (s : State) (r : Value × State)
    (h : eval_dispatch ev op rest s = .ok r) : eval_dispatch ev1 op rest s = .ok r := by
  cases op with
  | EMPTY => exact h
  | INT n => exact h
  | LIST l => exact h
  | BOOL b => simp [eval_dispatch] at h
  | SYMB x => exact hle _ _ _ h
  | FUNC params body =>
    simp only [eval_dispatch] at h ⊢
    cases he : eval_each ev rest s with
    | error e => simp [he] at h
    | ok r1 =>
      simp only [he] at h
      simp only [eval_each_mono ev ev1 hle rest s r1 he]
      exact apply_mono ev ev1 hle _ _ _ _ h
  | PRIM p =>
    cases p <;> simp only [eval_dispatch] at h ⊢
    case DEF => exact prim_def_mono ev ev1 hle rest s r h
    case IF => exact prim_if_mono ev ev1 hle rest s r h
    case LAMBDA => exact h
    all_goals exact eval_prim_mono ev ev1 hle _ rest s r h

theorem eval_body_mono (n : Nat) (ev ev1 : Evaluator) (hle : ev_le ev ev1) :
    ev_le (eval_body n ev) (eval_body (n + 1) ev1) := by
  intro val s r h
  have hsymb : ∀ (symb : string_t) (k k1 : Value → Except Err (Value × State)),
      (∀ op, k op = .ok r → k1 op = .ok r) →
      (match lookup n s symb with
        | .error e => .error e
        | .ok none => .error (.exit_on "unbound symbol")
        | .ok (some op) => k op) = Except.ok r →
      (match lookup (n + 1) s symb with
        | .error e => .error e
        | .ok none => .error (.exit_on "unbound symbol")
        | .ok (some op) => k1 op) = Except.ok r := by
    intro symb k k1 hk hm
    unfold lookup at hm ⊢
    cases hl : lookup_from n s (some s.cur_env) symb with
    | error e => simp [hl] at hm
    | ok o =>
      simp only [hl] at hm
      simp only [lookup_from_mono n s symb _ o hl]
      cases o with
      | none => simp at hm
      | some op => exact hk op hm
  cases val with
  | LIST list =>
    cases list with
    | nil => exact h
    | cons head rest =>
      have hother : (match ev head s with
            | .error e => .error e
            | .ok (op, s1) => eval_dispatch ev op rest s1) = Except.ok r →
          (match ev1 head s with
            | .error e => .error e
            | .ok (op, s1) => eval_dispatch ev1 op rest s1) = Except.ok r := by
        intro hm
        cases hv : ev head s with
        | error e => simp [hv] at hm
        | ok r1 =>
          simp only [hv] at hm
          simp only [hle head s r1 hv]
          exact eval_dispatch_mono ev ev1 hle _ _ _ _ hm
      cases head with
      | SYMB symb =>
        exact hsymb symb _ _ (fun op hop => eval_dispatch_mono ev ev1 hle _ _ _ _ hop) h
      | EMPTY => exact hother h
      | INT i => exact hother h
      | BOOL b => exact hother h
      | LIST l => exact hother h
      | FUNC p q => exact hother h
      | PRIM p => exact hother h
  | SYMB symb => exact hsymb symb _ _ (fun ret hret => hle _ _ _ hret) h
  | EMPTY => exact h
  | INT i => exact h
  | BOOL b => exact h
  | FUNC p q => exact h
  | PRIM p => exact h

/-- What `eval` returns with some fuel it returns with more fuel. -/
theorem eval_mono (n : Nat) : ev_le (eval n) (eval (n + 1)) := by
  induction n with
  | zero => intro v s r h; simp [eval] at h
  | succ m ih => exact eval_body_mono m (eval m) (eval (m + 1)) ih

theorem eval_mono_le (n m : Nat) (hnm : n ≤ m) : ev_le (eval n) (eval m) := by
  induction hnm with
  | refl => intro v s r h; exact h
  | step _ ih => intro v s r h; exact eval_mono _ v s r (ih v s r h)

/-- What `read` and `read_list` return with some fuel they return with more. -/
theorem read_mono (n : Nat) :
    (∀ p r, read n p = .ok r → read (n + 1) p = .ok r) ∧
    (∀ p r, read_list n p = .ok r → read_list (n + 1) p = .ok r) := by
  induction n with
  | zero => exact ⟨fun p r h => by simp [read] at h, fun p r h => by simp [read_list] at h⟩
  | succ m ih =>
    constructor
    · intro p r h
      rw [read] at h ⊢
      simp only at h ⊢
      split
      · rename_i h0; simp [h0] at h
      · rename_i h0
        simp only [if_neg h0] at h
        split
        · rename_i h1; rw [if_pos h1] at h; exact ih.1 _ _ h
        · rename_i h1
          rw [if_neg h1] at h
          split
          · rename_i h2; rw [if_pos h2] at h; exact h
          · rename_i h2
            rw [if_neg h2] at h
            split
            · rename_i h3
              rw [if_pos h3] at h
              split
              · rename_i h4; rw [if_pos h4] at h; exact h
              · rename_i h4
                rw [if_neg h4] at h
                cases hl : read_list m (read_spaces (read_spaces p).tail) with
                | error e => simp [hl] at h
                | ok r1 =>
                  simp only [hl] at h
                  simp only [ih.2 _ r1 hl]
                  exact h
            · rename_i h3; rw [if_neg h3] at h; exact h
    · intro p r h
      rw [read_list] at h ⊢
      cases hr : read m p with
      | error e => simp [hr] at h
      | ok r1 =>
        simp only [hr] at h
        simp only [ih.1 p r1 hr]
        obtain ⟨o, p1⟩ := r1
        cases o with
        | none => exact h
        | some val =>
          simp only at h ⊢
          cases hl : read_list m p1 with
          | error e => simp [hl] at h
          | ok r2 =>
            simp only [hl] at h
            simp only [ih.2 p1 r2 hl]
            exact h

theorem read_mono_le (n m : Nat) (hnm : n ≤ m) (p : List Nat) (r : Option Value × List Nat)
    (h : read n p = .ok r) : read m p = .ok r := by
  induction hnm with
  | refl => exact h
  | step _ ih => exact (read_mono _).1 p r ih

theorem read_eval_mono (n m : Nat) (hnm : n ≤ m) (p : List Nat) (s : State)
    (r : Value × List Nat × State) (h : read_eval n p s = .ok r) :
    read_eval m p s = .ok r := by
  unfold read_eval at h ⊢
  cases hr : read n p with
  | error e => simp [hr] at h
  | ok r1 =>
    simp only [hr] at h
    simp only [read_mono_le n m hnm p r1 hr]
    obtain ⟨o, p1⟩ := r1
    cases o with
    | none => simp at h
    | some val =>
      simp only at h ⊢
      cases hv : eval n val s with
      | error e => simp [hv] at h
      | ok r2 =>
        simp only [hv] at h
        simp only [eval_mono_le n m hnm val s r2 hv]
        exact h

/-- The rounds of `repl` that return with some fuel return the same with more. -/
theorem run_mono (n m : Nat) (hnm : n ≤ m) (k : Nat) :
    ∀ (p : List Nat) (s : State) (r : List Value × State), run n k p s = .ok r →
      run m k p s = .ok r := by
  induction k with
  | zero => intro p s r h; exact h
  | succ j ih =>
    intro p s r h
    simp only [run] at h ⊢
    cases hr : read_eval n p s with
    | error e => simp [hr] at h
    | ok r1 =>
      simp only [hr] at h
      simp only [read_eval_mono n m hnm p s r1 hr]
      obtain ⟨v, p1, s1⟩ := r1
      simp only at h ⊢
      cases hj : run n j p1 s1 with
      | error e => simp [hj] at h
      | ok r2 =>
        simp only [hj] at h
        simp only [ih p1 s1 r2 hj]
        exact h

/-! ## Scenario: recursion through `define` (C1) -/

/-- C1: from the initialised global frame, reading and evaluating the
definition of `fact` and then `(fact 5)` returns the symbol `fact` and then
`Int 120`, with every fuel from 100 on. -/
theorem C1_fact_5 (fuel : Nat) (hfuel : 100 ≤ fuel) :
    (run fuel 2 fact_text init_state).map Prod.fst
      = .ok [.SYMB (STRING "fact"), .INT 120] := by
  have h100 : (run 100 2 fact_text init_state).map Prod.fst
      = .ok [.SYMB (STRING "fact"), .INT 120] := by decide!
  cases hr : run 100 2 fact_text init_state with
  | error e =>
    rw [hr] at h100
    cases h100
  | ok r =>
    rw [hr] at h100
    rw [run_mono 100 fuel hfuel 2 fact_text init_state r hr]
    exact h100

/-- C1 at fuel 100. -/
theorem C1_fact_5_witness :
    100 ≤ 100 ∧
    (run 100 2 fact_text init_state).map Prod.fst = .ok [.SYMB (STRING "fact"), .INT 120] :=
  ⟨by decide, C1_fact_5 100 (by decide)⟩

/-! ## Wrap-around arithmetic (C16) -/

theorem wrap64_add_left (x n : Int) : wrap64 (wrap64 x + n) = wrap64 (x + n) := by
  unfold wrap64
  omega

theorem wrap64_sub_left (x n : Int) : wrap64 (wrap64 x - n) = wrap64 (x - n) := by
  unfold wrap64
  omega

theorem wrap64_eq_sub (x : Int) : wrap64 x = x - 2 ^ 64 * ((x + 2 ^ 63) / 2 ^ 64) := by
  unfold wrap64
  rw [Int.emod_def]
  ring

theorem wrap64_add_mul (x k : Int) : wrap64 (x + k * 2 ^ 64) = wrap64 x := by
  unfold wrap64
  have : x + k * 2 ^ 64 + 2 ^ 63 = x + 2 ^ 63 + k * 2 ^ 64 := by ring
  rw [this, Int.add_mul_emod_self]

theorem wrap64_mul_left (x n : Int) : wrap64 (wrap64 x * n) = wrap64 (x * n) := by
  rw [wrap64_eq_sub x]
  have : (x - 2 ^ 64 * ((x + 2 ^ 63) / 2 ^ 64)) * n
      = x * n + (-(((x + 2 ^ 63) / 2 ^ 64) * n)) * 2 ^ 64 := by ring
  rw [this, wrap64_add_mul]

theorem wrap64_zero : wrap64 0 = 0 := by decide

theorem wrap64_one : wrap64 1 = 1 := by decide

theorem prim_add_loop_ints (res : Int) (ints : List Int) :
    prim_add_loop res (ints.map Value.INT)
      = .ok (ints.foldl (fun r a => wrap64 (r + a)) res) := by
  induction ints generalizing res with
  | nil => rfl
  | cons a t ih => simp only [List.map_cons, prim_add_loop, List.foldl_cons, ih]

theorem prim_sub_loop_ints (res : Int) (ints : List Int) :
    prim_sub_loop res (ints.map Value.INT)
      = .ok (ints.foldl (fun r a => wrap64 (r - a)) res) := by
  induction ints generalizing res with
  | nil => rfl
  | cons a t ih => simp only [List.map_cons, prim_sub_loop, List.foldl_cons, ih]

theorem prim_mul_loop_ints (res : Int) (ints : List Int) :
    prim_mul_loop res (ints.map Value.INT)
      = .ok (ints.foldl (fun r a => wrap64 (r * a)) res) := by
  induction ints generalizing res with
  | nil => rfl
  | cons a t ih => simp only [List.map_cons, prim_mul_loop, List.foldl_cons, ih]

theorem foldl_wrap_add (ints : List Int) (x : Int) :
    ints.foldl (fun r a => wrap64 (r + a)) (wrap64 x) = wrap64 (x + ints.sum) := by
  induction ints generalizing x with
  | nil => simp
  | cons a t ih =>
    simp only [List.foldl_cons, List.sum_cons, wrap64_add_left, ih]
    congr 1
    ring

theorem foldl_wrap_sub (ints : List Int) (x : Int) :
    ints.foldl (fun r a => wrap64 (r - a)) (wrap64 x) = wrap64 (x - ints.sum) := by
  induction ints generalizing x with
  | nil => simp
  | cons a t ih =>
    simp only [List.foldl_cons, List.sum_cons, wrap64_sub_left, ih]
    congr 1
    ring

theorem foldl_wrap_mul (ints : List Int) (x : Int) :
    ints.foldl (fun r a => wrap64 (r * a)) (wrap64 x) = wrap64 (x * ints.prod) := by
  induction ints generalizing x with
  | nil => simp
  | cons a t ih =>
    simp only [List.foldl_cons, List.prod_cons, wrap64_mul_left, ih]
    congr 1
    ring

/-- C16: on every list of integers, `-` returns `Int 0` for the empty list,
`Int (0 - a)` for one argument and `Int (a0 - a1 - ... - an)` for two or more,
`+` returns the sum from 0 and `*` the product from 1, all in 64-bit
wrap-around arithmetic. -/
theorem C16_sub_add_mul_on_ints (ints : List Int) :
    prim_sub (ints.map Value.INT) = .ok (.INT (sub_spec ints)) ∧
    prim_add (ints.map Value.INT) = .ok (.INT (wrap64 (0 + ints.sum))) ∧
    prim_mul (ints.map Value.INT) = .ok (.INT (wrap64 (1 * ints.prod))) := by
  refine ⟨?_, ?_, ?_⟩
  · cases ints with
    | nil => rfl
    | cons a0 rest =>
      cases rest with
      | nil => rfl
      | cons a1 more =>
        have h := prim_sub_loop_ints a0 (a1 :: more)
        simp only [List.map_cons] at h
        simp only [List.map_cons, prim_sub, union_as_int, h, sub_spec, Except.map]
        have h2 := foldl_wrap_sub more (a0 - a1)
        simp only [List.foldl_cons, h2, List.sum_cons]
        congr 3
        ring
  · have h := prim_add_loop_ints 0 ints
    have h2 := foldl_wrap_add ints 0
    rw [wrap64_zero] at h2
    simp only [prim_add, h, h2, Except.map]
  · have h := prim_mul_loop_ints 1 ints
    have h2 := foldl_wrap_mul ints 1
    rw [wrap64_one] at h2
    simp only [prim_mul, h, h2, Except.map]

/-! ## Division (C13, C14) -/

theorem prim_div_loop_safe (res : Int) (ints : List Int) (h : div_safe res ints = true) :
    prim_div_loop res (ints.map Value.INT) = .ok (ints.foldl Int.tdiv res) := by
  induction ints generalizing res with
  | nil => rfl
  | cons n t ih =>
    simp only [div_safe, Bool.and_eq_true, decide_eq_true_eq, Bool.not_eq_true',
      Bool.and_eq_false_iff, decide_eq_false_iff_not] at h
    obtain ⟨⟨h0, hmin⟩, ht⟩ := h
    have hcond : ¬ (n = 0 ∨ (res = -(2 ^ 63) ∧ n = -1)) := by
      intro hc
      rcases hc with hc | ⟨hc1, hc2⟩
      · exact h0 hc
      · rcases hmin with hm | hm
        · exact hm hc1
        · exact hm hc2
    simp only [List.map_cons, prim_div_loop, if_neg hcond, List.foldl_cons]
    exact ih _ ht

/-- The division `Int.tdiv` truncates toward zero: the magnitude of the
quotient is the quotient of the magnitudes, rounded down. -/
theorem tdiv_truncates (a n : Int) : (Int.tdiv a n).natAbs = a.natAbs / n.natAbs :=
  Int.natAbs_tdiv a n

/-- C13: on a list of integers `a0, a1, ..., an`, not empty, in which no step
divides by zero or divides the minimum 64-bit integer by -1, `/` returns the
left fold of the division that truncates toward zero; one argument is
returned as it is. -/
theorem C13_div_left_fold (a0 : Int) (divisors : List Int)
    (h : div_safe a0 divisors = true) :
    prim_div (.INT a0 :: divisors.map Value.INT)
        = .ok (.INT (divisors.foldl Int.tdiv a0)) ∧
    prim_div [.INT a0] = .ok (.INT a0) := by
  refine ⟨?_, rfl⟩
  simp only [prim_div, prim_div_loop_safe a0 divisors h, Except.map]

/-- C13 at `(/ 7 2)`, `(/ -7 2)`, one argument, and a fold of three. -/
theorem C13_div_left_fold_witness :
    prim_div [.INT 7, .INT 2] = .ok (.INT 3) ∧
    prim_div [.INT (-7), .INT 2] = .ok (.INT (-3)) ∧
    prim_div [.INT 7, .INT (-2)] = .ok (.INT (-3)) ∧
    prim_div [.INT 100, .INT 7, .INT 3] = .ok (.INT 4) ∧
    eval_text 30 "(/ 7 2)" = .ok [.INT 3] ∧
    eval_text 30 "(/ -7 2)" = .ok [.INT (-3)] ∧
    eval_text 30 "(/ 5)" = .ok [.INT 5] :=
  ⟨(C13_div_left_fold 7 [2] (by decide)).1,
   (C13_div_left_fold (-7) [2] (by decide)).1,
   (C13_div_left_fold 7 [-2] (by decide)).1,
   (C13_div_left_fold 100 [7, 3] (by decide)).1,
   by decide!, by decide!, by decide!⟩

theorem prim_div_loop_zero (res : Int) (ints : List Int) (h : (0 : Int) ∈ ints) :
    prim_div_loop res (ints.map Value.INT) = .error .division_trap := by
  induction ints generalizing res with
  | nil => cases h
  | cons n t ih =>
    simp only [List.map_cons, prim_div_loop]
    by_cases hc : n = 0 ∨ (res = -(2 ^ 63) ∧ n = -1)
    · rw [if_pos hc]
    · rw [if_neg hc]
      rcases List.mem_cons.mp h with h1 | h2
      · exact absurd h1.symm (fun hn => hc (Or.inl hn))
      · exact ih _ h2

/-- C14, the code at a zero divisor: on integers with a zero among the
divisors `prim_div` runs into the division itself, which traps; it never
reaches `exit_on`, whose message is the fatal error of the interpreter. -/
theorem C14_zero_divisor_traps (a0 : Int) (divisors : List Int) (h : (0 : Int) ∈ divisors) :
    prim_div (.INT a0 :: divisors.map Value.INT) = .error .division_trap ∧
    ∀ msg, prim_div (.INT a0 :: divisors.map Value.INT) ≠ .error (.exit_on msg) := by
  have hd : prim_div (.INT a0 :: divisors.map Value.INT) = .error .division_trap := by
    simp only [prim_div, prim_div_loop_zero a0 divisors h, Except.map]
  refine ⟨hd, fun msg hm => ?_⟩
  rw [hd] at hm
  cases hm

/-- C14 at `(/ 1 0)`. -/
theorem C14_zero_divisor_traps_witness :
    prim_div [.INT 1, .INT 0] = .error .division_trap ∧
    eval_text 30 "(/ 1 0)" = .error .division_trap :=
  ⟨(C14_zero_divisor_traps 1 [0] (by decide)).1, by decide!⟩

/-! ## Tags of the arguments (C15) -/

theorem prim_add_loop_not_int (res : Int) (args : List Value)
    (h : ∃ v ∈ args, is_int v = false) :
    prim_add_loop res args = .error (.exit_on "argument type unmatched") := by
  induction args generalizing res with
  | nil => obtain ⟨v, hv, _⟩ := h; cases hv
  | cons a t ih =>
    cases a with
    | INT n =>
      simp only [prim_add_loop]
      apply ih
      obtain ⟨v, hv, hn⟩ := h
      rcases List.mem_cons.mp hv with h1 | h2
      · subst h1; simp [is_int] at hn
      · exact ⟨v, h2, hn⟩
    | EMPTY => rfl
    | BOOL b => rfl
    | LIST l => rfl
    | SYMB x => rfl
    | FUNC p q => rfl
    | PRIM p => rfl

theorem prim_mul_loop_not_int (res : Int) (args : List Value)
    (h : ∃ v ∈ args, is_int v = false) :
    prim_mul_loop res args = .error (.exit_on "argument type unmatched") := by
  induction args generalizing res with
  | nil => obtain ⟨v, hv, _⟩ := h; cases hv
  | cons a t ih =>
    cases a with
    | INT n =>
      simp only [prim_mul_loop]
      apply ih
      obtain ⟨v, hv, hn⟩ := h
      rcases List.mem_cons.mp hv with h1 | h2
      · subst h1; simp [is_int] at hn
      · exact ⟨v, h2, hn⟩
    | EMPTY => rfl
    | BOOL b => rfl
    | LIST l => rfl
    | SYMB x => rfl
    | FUNC p q => rfl
    | PRIM p => rfl

/-- The primitives `+` and `*` check the tag of every argument. -/
theorem add_mul_check_every_tag (args : List Value) (h : ∃ v ∈ args, is_int v = false) :
    prim_add args = .error (.exit_on "argument type unmatched") ∧
    prim_mul args = .error (.exit_on "argument type unmatched") := by
  simp only [prim_add, prim_mul, prim_add_loop_not_int 0 args h,
    prim_mul_loop_not_int 1 args h, Except.map, and_self]

/-- C15, the code at `(- (= 1 1) 1)`: with two arguments `prim_sub` takes the
first one through the member `as_int` without looking at its tag, so the
`Bool` true counts as 1 and the call returns `Int 0`; and `prim_div` with a
zero divisor in front of a `Bool` traps before it looks at the tag. -/
theorem C15_sub_first_tag_unchecked :
    prim_sub [.BOOL true, .INT 1] = .ok (.INT 0) ∧
    eval_text 30 "(- (= 1 1) 1)" = .ok [.INT 0] ∧
    prim_sub [.INT 1, .BOOL true] = .error (.exit_on "argument type unmatched") ∧
    prim_sub [.BOOL true] = .error (.exit_on "argument type unmatched") ∧
    prim_div [.INT 1, .INT 0, .BOOL true] = .error .division_trap := by
  decide!

/-! ## Relational primitives (C17, C18) -/

theorem lookup_mono_le (n m : Nat) (hnm : n ≤ m) (s : State) (symb : string_t)
    (r : Option Value) (h : lookup n s symb = .ok r) : lookup m s symb = .ok r := by
  induction hnm with
  | refl => exact h
  | step _ ih => exact lookup_from_mono _ s symb _ r ih

/-- The evaluation of `(name a b)` where `name` is bound to a primitive on
evaluated arguments: the primitive on `Int a` and `Int b`, in the same state. -/
theorem eval_binary_prim_form (fuel : Nat) (s : State) (name : String) (a b : Int)
    (op : Value) (prim : List Value → Except Err Value)
    (hl : lookup 1 s (STRING name) = .ok (some op))
    (hd : ∀ ev rest s1, eval_dispatch ev op rest s1 = eval_prim ev prim rest s1) :
    eval (fuel + 2) (rel_form name a b) s
      = match prim [.INT a, .INT b] with
        | .error e => .error e
        | .ok v => .ok (v, s) := by
  have hl1 := lookup_mono_le 1 (fuel + 1) (by omega) s (STRING name) _ hl
  simp only [eval, eval_body, rel_form, hl1, hd, eval_prim, eval_each]

/-- C17: in the initial state the names `=`, `>`, `<`, `>=`, `<=`, `!=` are
bound to primitives that return, on the evaluated list of `Int a` and `Int b`,
the `Bool` of `a = b`, `a > b`, `a < b`, `a ≥ b`, `a ≤ b`, `a ≠ b`; on a pair
with an operand that is no `Int` each of them fails. -/
theorem C17_relational_primitives (fuel : Nat) (a b : Int) :
    eval (fuel + 2) (rel_form "=" a b) init_state
      = .ok (.BOOL (decide (a = b)), init_state) ∧
    eval (fuel + 2) (rel_form ">" a b) init_state
      = .ok (.BOOL (decide (a > b)), init_state) ∧
    eval (fuel + 2) (rel_form "<" a b) init_state
      = .ok (.BOOL (decide (a < b)), init_state) ∧
    eval (fuel + 2) (rel_form ">=" a b) init_state
      = .ok (.BOOL (decide (a ≥ b)), init_state) ∧
    eval (fuel + 2) (rel_form "<=" a b) init_state
      = .ok (.BOOL (decide (a ≤ b)), init_state) ∧
    eval (fuel + 2) (rel_form "!=" a b) init_state
      = .ok (.BOOL (decide (a ≠ b)), init_state) ∧
    ∀ op x y rest, (is_int x = false ∨ is_int y = false) →
      prim_rel op (x :: y :: rest) = .error (.exit_on "expect number") := by
  refine ⟨?_, ?_, ?_, ?_, ?_, ?_, ?_⟩
  · rw [eval_binary_prim_form fuel init_state "=" a b (.PRIM .EQ) (prim_rel .EQ)
      (by decide!) (fun _ _ _ => rfl)]
    rfl
  · rw [eval_binary_prim_form fuel init_state ">" a b (.PRIM .GT) (prim_rel .GT)
      (by decide!) (fun _ _ _ => rfl)]
    rfl
  · rw [eval_binary_prim_form fuel init_state "<" a b (.PRIM .LT) (prim_rel .LT)
      (by decide!) (fun _ _ _ => rfl)]
    rfl
  · rw [eval_binary_prim_form fuel init_state ">=" a b (.PRIM .GE) (prim_rel .GE)
      (by decide!) (fun _ _ _ => rfl)]
    rfl
  · rw [eval_binary_prim_form fuel init_state "<=" a b (.PRIM .LE) (prim_rel .LE)
      (by decide!) (fun _ _ _ => rfl)]
    rfl
  · rw [eval_binary_prim_form fuel init_state "!=" a b (.PRIM .NE) (prim_rel .NE)
      (by decide!) (fun _ _ _ => rfl)]
    rfl
  · intro op x y rest h
    cases x <;> cases y <;> first
      | rfl
      | (simp [is_int] at h)

/-- C17 at 3 and 5, and at a `Bool` operand. -/
theorem C17_relational_primitives_witness :
    eval_text 30 "(<= 3 5)" = .ok [.BOOL true] ∧
    eval_text 30 "(>= 3 5)" = .ok [.BOOL false] ∧
    eval_text 30 "(!= 3 5)" = .ok [.BOOL true] ∧
    eval_text 30 "(= 3 5)" = .ok [.BOOL false] ∧
    eval 2 (rel_form "<" 3 5) init_state = .ok (.BOOL true, init_state) ∧
    prim_rel .GT [.BOOL true, .INT 1] = .error (.exit_on "expect number") ∧
    eval_text 30 "(< 1 (= 1 1))" = .error (.exit_on "expect number") :=
  ⟨by decide!, by decide!, by decide!, by decide!,
   (C17_relational_primitives 0 3 5).2.2.1,
   (C17_relational_primitives 0 3 5).2.2.2.2.2.2 .GT (.BOOL true) (.INT 1) [] (by decide),
   by decide!⟩

/-- C18: the check for surplus arguments is missing in `prim_rel` and in
`prim_not`. `prim_rel`, whose guard reads "expect two operands", rejects a
list of fewer than two elements and never looks behind the second one, so a
list of three or more elements is answered like its first two; `prim_not`
rejects the empty list and never looks behind the first element. Hence
`(= 1 1 2)` returns `Bool` true and `(not (= 1 1) 5)` returns `Bool` false,
where an argument count other than two, respectively one, is to fail. -/
theorem C18_surplus_arguments_accepted :
    eval_text 30 "(= 1 1 2)" = .ok [.BOOL true] ∧
    eval_text 30 "(not (= 1 1) 5)" = .ok [.BOOL false] ∧
    prim_rel .EQ [.INT 1, .INT 1, .INT 2] = .ok (.BOOL true) ∧
    prim_not [.BOOL true, .INT 5] = .ok (.BOOL false) ∧
    (∀ op x y rest, prim_rel op (x :: y :: rest) = prim_rel op [x, y]) ∧
    (∀ x rest, prim_not (x :: rest) = prim_not [x]) ∧
    (∀ op list, list.length < 2 →
      prim_rel op list = .error (.exit_on "expect two operands")) ∧
    prim_not [] = .error (.exit_on "expect bool expression") ∧
    eval_text 30 "(= 1)" = .error (.exit_on "expect two operands") ∧
    eval_text 30 "(not)" = .error (.exit_on "expect bool expression") := by
  refine ⟨by decide!, by decide!, by decide!, by decide!, ?_, ?_, ?_, rfl,
    by decide!, by decide!⟩
  · intro op x y rest
    cases x <;> cases y <;> rfl
  · intro x rest
    cases x <;> rfl
  · intro op list h
    cases list with
    | nil => rfl
    | cons x t =>
      cases t with
      | nil => cases x <;> rfl
      | cons y u =>
        simp only [List.length_cons] at h
        omega

/-! ## The branches of `if` (C12) -/

/-- C12: when the condition evaluates to a `Bool`, `prim_if` is the evaluation
of the consequent for true, of the alternate for false when there is one, and
`Empty` for false without alternate; the equations hold for every evaluator
and every rest of the list, so the other branch is not evaluated. When the
condition evaluates to another value, or the consequent is missing, `prim_if`
fails. -/
theorem C12_if_selects_branch (ev : Evaluator) (cond consequent : Value) (rest : List Value)
    (s s1 : State) (b : Bool) (hc : ev cond s = .ok (.BOOL b, s1)) :
    (b = true → prim_if ev (cond :: consequent :: rest) s = ev consequent s1) ∧
    (b = false → ∀ alternate more, rest = alternate :: more →
      prim_if ev (cond :: consequent :: rest) s = ev alternate s1) ∧
    (b = false → rest = [] →
      prim_if ev (cond :: consequent :: rest) s = .ok (.EMPTY, s1)) ∧
    (∀ (ev2 : Evaluator) v s2, ev2 cond s = .ok (v, s2) → is_bool v = false →
      prim_if ev2 (cond :: consequent :: rest) s
        = .error (.exit_on "expect bool expression")) ∧
    (∀ ev2 : Evaluator, prim_if ev2 [cond] s = .error (.exit_on "expect expression")) ∧
    (∀ ev2 : Evaluator, prim_if ev2 [] s = .error (.exit_on "expect expression")) := by
  refine ⟨?_, ?_, ?_, ?_, fun _ => rfl, fun _ => rfl⟩
  · intro hb
    subst hb
    simp only [prim_if, hc, if_true]
  · intro hb alternate more hr
    subst hb hr
    simp only [prim_if, hc, Bool.false_eq_true, if_false]
  · intro hb hr
    subst hb hr
    simp only [prim_if, hc, Bool.false_eq_true, if_false]
  · intro ev2 v s2 hv hnb
    cases v
    case BOOL b2 => simp [is_bool] at hnb
    all_goals simp only [prim_if, hv]

/-- C12 at `(if (= 1 2) 99)`, which yields `Empty`, and at forms whose other
branch would fail with an unbound symbol if it were evaluated. -/
theorem C12_if_selects_branch_witness :
    prim_if (eval 9) [rel_form "=" 1 2, .INT 99] init_state = .ok (.EMPTY, init_state) ∧
    eval_text 30 "(if (= 1 2) 99)" = .ok [.EMPTY] ∧
    eval_text 30 "(if (= 1 1) 1 nowhere)" = .ok [.INT 1] ∧
    eval_text 30 "(if (= 1 2) nowhere 2)" = .ok [.INT 2] ∧
    eval_text 30 "nowhere" = .error (.exit_on "unbound symbol") ∧
    eval_text 30 "(if 1 2 3)" = .error (.exit_on "expect bool expression") ∧
    eval_text 30 "(if (= 1 1))" = .error (.exit_on "expect expression") :=
  ⟨(C12_if_selects_branch (eval 9) (rel_form "=" 1 2) (.INT 99) [] init_state init_state
      false (by decide!)).2.2.1 rfl rfl,
   by decide!, by decide!, by decide!, by decide!, by decide!, by decide!⟩

/-! ## The parent of the call frame (C11) -/

/-- Binding parameters none of which a lookup of `y` would find leaves what
the current frame holds for `y`, and leaves its parent. -/
theorem bind_params_keeps_other (y : string_t) (params args : List Value) (s s2 : State)
    (env : env_t) (hb : bind_params params args s = .ok s2)
    (hd : s.deref s.cur_env = some env) (hw : env_wf env)
    (hy : ∀ p ∈ params, binds_symbol y p = false) :
    ∃ env2, s2.deref s.cur_env = some env2 ∧ env_wf env2 ∧ env2.parent = env.parent ∧
      env_lookup env2 y = env_lookup env y := by
  induction params generalizing args s env with
  | nil =>
    cases args with
    | nil =>
      simp only [bind_params, Except.ok.injEq] at hb
      subst hb
      exact ⟨env, hd, hw, rfl, rfl⟩
    | cons a as => simp [bind_params] at hb
  | cons p ps ih =>
    cases args with
    | nil => simp [bind_params] at hb
    | cons a as =>
      cases p <;> simp only [bind_params] at hb <;> try (exact absurd hb (by simp))
      rename_i symb
      cases hbind : bind symb a s with
      | error e => simp [hbind] at hb
      | ok s1 =>
        simp only [hbind] at hb
        obtain ⟨c1, _, env0, hd0, hd1⟩ := bind_frame_local symb a s s1 hbind
        rw [hd] at hd0
        injection hd0 with henv
        subst henv
        have hq : key_eqv symb y = false := hy (.SYMB symb) (List.mem_cons_self _ _)
        obtain ⟨env2, h1, h2, h3, h4⟩ := ih as s1 (env_add env symb a) hb
          (by rw [c1]; exact hd1) (env_wf_env_add env symb a hw)
          (fun q hq => hy q (List.mem_cons_of_mem _ hq))
        refine ⟨env2, by rw [← c1]; exact h1, h2, ?_, ?_⟩
        · rw [h3, env_add_parent env symb a hw]
        · rw [h4, env_lookup_env_add env symb y a hw, hq]
          rfl

theorem frame_chain_transfer (s s2 : State) (p : Option Nat) (frames : List env_t)
    (hc : frame_chain s p frames)
    (hd : ∀ a env, s.deref a = some env → s2.deref a = some env) :
    frame_chain s2 p frames := by
  induction hc with
  | nil => exact frame_chain.nil
  | cons a env rest ha _ ih => exact frame_chain.cons a env rest (hd a env ha) ih

/-- C11: the frame of a call has as parent the frame that is current at the
call site (a function value holds no frame), so in the call, once the
parameters are bound, a symbol that no parameter binds looks up as it does in
the chain of the caller. -/
theorem C11_call_frame_parent_is_caller (s s2 : State) (params args : List Value)
    (frames : List env_t) (y : string_t) (fuel : Nat)
    (hc : frame_chain s (some s.cur_env) frames) (hf : frames.length ≤ fuel)
    (hb : bind_params params args (enter_call s) = .ok s2)
    (hy : ∀ p ∈ params, binds_symbol y p = false) :
    (∃ env, s2.deref s2.cur_env = some env ∧ env.parent = some s.cur_env) ∧
    lookup (fuel + 1) s2 y = lookup fuel s y := by
  obtain ⟨c2, d2⟩ := bind_params_frame_local params args _ s2 hb
  obtain ⟨env2, h1, _, h3, h4⟩ := bind_params_keeps_other y params args _ s2 _ hb
    (deref_enter_call_self s) (env_wf_alloc_env _ _) hy
  have hcur : s2.cur_env = s.heap.length := c2
  have h1' : s2.deref s2.cur_env = some env2 := by rw [c2]; exact h1
  have hpar : env2.parent = some s.cur_env := h3
  refine ⟨⟨env2, h1', hpar⟩, ?_⟩
  have htrans : ∀ a env, s.deref a = some env → s2.deref a = some env := by
    intro a env ha
    have hne : a ≠ s.heap.length := Nat.ne_of_lt (deref_lt_length s a env ha)
    rw [d2 a hne, deref_enter_call s a hne]
    exact ha
  have hchain2 : frame_chain s2 (some s2.cur_env) (env2 :: frames) :=
    frame_chain.cons _ env2 frames h1'
      (by rw [hpar]; exact frame_chain_transfer s s2 _ frames hc htrans)
  have hl2 := lookup_from_chain s2 y _ (env2 :: frames) (fuel + 1) hchain2
    (by simp only [List.length_cons]; omega)
  have hl := lookup_from_chain s y _ frames fuel hc hf
  unfold lookup
  rw [hl2, hl, List.findSome?_cons, h4, env_lookup_alloc_env]

theorem scope_in_f_chain :
    frame_chain scope_in_f (some scope_in_f.cur_env) [scope_f_frame, scope_global_frame] := by
  have hcur : scope_in_f.cur_env = 1 := by decide!
  have h1 : scope_in_f.deref 1 = some scope_f_frame := by decide!
  have h0 : scope_in_f.deref 0 = some scope_global_frame := by decide!
  have hp1 : scope_f_frame.parent = some 0 := by decide!
  have hp0 : scope_global_frame.parent = none := by decide!
  rw [hcur]
  refine frame_chain.cons 1 _ _ h1 ?_
  rw [hp1]
  refine frame_chain.cons 0 _ _ h0 ?_
  rw [hp0]
  exact frame_chain.nil

/-- C11 at the scenario: `y` has no binding in the initial frame; in the call
of `g` made from the body of `f`, the frame of `g` has the frame of `f` as
parent and `y` looks up as in the call of `f`, to `Int 7`; and the three forms
give `g`, `f` and `Int 7`. -/
theorem C11_call_frame_parent_is_caller_witness :
    lookup 1 init_state (STRING "y") = .ok none ∧
    bind_params [] [] (enter_call scope_in_f) = .ok scope_in_g ∧
    (∃ env, scope_in_g.deref scope_in_g.cur_env = some env ∧
      env.parent = some scope_in_f.cur_env) ∧
    lookup 3 scope_in_g (STRING "y") = lookup 2 scope_in_f (STRING "y") ∧
    lookup 2 scope_in_f (STRING "y") = .ok (some (.INT 7)) ∧
    (run 30 3 scope_text init_state).map Prod.fst
      = .ok [.SYMB (STRING "g"), .SYMB (STRING "f"), .INT 7] :=
  ⟨by decide!, by decide!,
   (C11_call_frame_parent_is_caller scope_in_f scope_in_g [] []
      [scope_f_frame, scope_global_frame] (STRING "y") 2
      scope_in_f_chain (by decide) (by decide!) (by decide)).1,
   (C11_call_frame_parent_is_caller scope_in_f scope_in_g [] []
      [scope_f_frame, scope_global_frame] (STRING "y") 2
      scope_in_f_chain (by decide) (by decide!) (by decide)).2,
   by decide!, by decide!⟩

/-! ## Comments (C19) -/

theorem read_comment_body (c t : List Nat) (hc : ∀ x ∈ c, x ≠ 10 ∧ x ≠ 0) :
    read_comment (c ++ 10 :: t) = t := by
  induction c with
  | nil => simp [read_comment]
  | cons x xs ih =>
    have hx := hc x (List.mem_cons_self _ _)
    rw [List.cons_append, read_comment, if_neg hx.2, if_neg hx.1]
    exact ih (fun y hy => hc y (List.mem_cons_of_mem _ hy))

/-- C19: a comment, from `;` through the newline, in front of the text `t`:
`read` returns on it, with one more unit of fuel, what it returns on `t`, the
remaining input included; and `read_list`, which reads the values expected in
a list, returns on it what it returns on `t`. -/
theorem C19_comment_is_skipped (fuel : Nat) (c t : List Nat)
    (hc : ∀ x ∈ c, x ≠ 10 ∧ x ≠ 0) :
    read (fuel + 1) (59 :: (c ++ 10 :: t)) = read fuel t ∧
    (∀ r, read_list fuel t = .ok r → read_list (fuel + 1) (59 :: (c ++ 10 :: t)) = .ok r) := by
  have hsp : read_spaces (59 :: (c ++ 10 :: t)) = 59 :: (c ++ 10 :: t) :=
    read_spaces_of_not_space 59 _ rfl
  have hcm : read_comment (59 :: (c ++ 10 :: t)) = t := by
    rw [read_comment]
    simp only [Nat.reduceEqDiff, if_false]
    exact read_comment_body c t hc
  have hread : ∀ f, read (f + 1) (59 :: (c ++ 10 :: t)) = read f t := by
    intro f
    simp only [read, hsp, peekc, List.headD_cons, Nat.reduceEqDiff, if_false, if_true, hcm]
  refine ⟨hread fuel, fun r hr => ?_⟩
  cases fuel with
  | zero => simp [read_list] at hr
  | succ f =>
    rw [read_list] at hr ⊢
    rw [hread f]
    cases hrd : read f t with
    | error e => simp [hrd] at hr
    | ok r1 =>
      simp only [hrd] at hr ⊢
      obtain ⟨o, p1⟩ := r1
      cases o with
      | none => exact hr
      | some val =>
        simp only at hr ⊢
        cases hl : read_list f p1 with
        | error e => simp [hl] at hr
        | ok r2 =>
          simp only [hl] at hr
          simp only [(read_mono f).2 p1 r2 hl]
          exact hr

/-- C19 at the texts of the specification: a comment in front of a value, a
comment between the elements of a list, and a list that holds a comment only. -/
theorem C19_comment_is_skipped_witness :
    read 9 (59 :: (STRING "c (x)" ++ 10 :: STRING "(+ 1 2) z"))
      = read 8 (STRING "(+ 1 2) z") ∧
    read 8 (STRING "(+ 1 2) z") = .ok (some plus_one_two, STRING " z") ∧
    read 9 (STRING "(a ;c\nb)")
      = .ok (some (.LIST [.SYMB (STRING "a"), .SYMB (STRING "b")]), []) ∧
    read 9 (STRING "( ;c\n)") = .ok (some .EMPTY, []) :=
  ⟨(C19_comment_is_skipped 8 (STRING "c (x)") (STRING "(+ 1 2) z") (by decide)).1,
   by decide, by decide, by decide⟩

/-! ## No empty cell chain (C20) -/

theorem no_empty_list_make_list (l : List Value) (h : no_empty_list_cells l = true) :
    no_empty_list (make_list l) = true := by
  cases l with
  | nil => rfl
  | cons a t => simpa [make_list, no_empty_list] using h

/-- What `read` and `read_list` return has no empty cell chain. -/
theorem read_no_empty_list (fuel : Nat) :
    (∀ p v p1, read fuel p = .ok (some v, p1) → no_empty_list v = true) ∧
    (∀ p l p1, read_list fuel p = .ok (l, p1) → no_empty_list_cells l = true) := by
  induction fuel with
  | zero =>
    exact ⟨fun p v p1 h => by simp [read] at h, fun p l p1 h => by simp [read_list] at h⟩
  | succ m ih =>
    constructor
    · intro p v p1 h
      rw [read] at h
      simp only at h
      split at h
      · simp at h
      · split at h
        · exact ih.1 _ _ _ h
        · split at h
          · simp at h
          · split at h
            · split at h
              · simp only [Except.ok.injEq, Prod.mk.injEq, Option.some.injEq] at h
                rw [← h.1]
                rfl
              · cases hl : read_list m (read_spaces (read_spaces p).tail) with
                | error e => simp [hl] at h
                | ok r =>
                  obtain ⟨l, p2⟩ := r
                  simp only [hl, Except.ok.injEq, Prod.mk.injEq, Option.some.injEq] at h
                  rw [← h.1]
                  exact no_empty_list_make_list l (ih.2 _ _ _ hl)
            · simp only [Except.ok.injEq, Prod.mk.injEq, Option.some.injEq] at h
              rw [← h.1]
              split <;> rfl
    · intro p l p1 h
      rw [read_list] at h
      cases hr : read m p with
      | error e => simp [hr] at h
      | ok r =>
        obtain ⟨o, p2⟩ := r
        cases o with
        | none =>
          simp only [hr, Except.ok.injEq, Prod.mk.injEq] at h
          rw [← h.1]
          rfl
        | some val =>
          simp only [hr] at h
          cases hl : read_list m p2 with
          | error e => simp [hl] at h
          | ok r2 =>
            obtain ⟨l2, p3⟩ := r2
            simp only [hl, Except.ok.injEq, Prod.mk.injEq] at h
            rw [← h.1]
            simp only [no_empty_list_cells, Bool.and_eq_true]
            exact ⟨ih.1 _ _ _ hr, ih.2 _ _ _ hl⟩

theorem mem_flatten_set (slots : List (List env_entry_t)) (i : Nat) (c : List env_entry_t)
    (e : env_entry_t) (h : e ∈ (slots.set i c).flatten) : e ∈ c ∨ e ∈ slots.flatten := by
  induction slots generalizing i with
  | nil => simp at h
  | cons d ds ih =>
    cases i with
    | zero =>
      simp only [List.set_cons_zero, List.flatten_cons, List.mem_append] at h ⊢
      rcases h with h | h
      · exact Or.inl h
      · exact Or.inr (Or.inr h)
    | succ n =>
      simp only [List.set_cons_succ, List.flatten_cons, List.mem_append] at h ⊢
      rcases h with h | h
      · exact Or.inr (Or.inl h)
      · rcases ih n h with h1 | h2
        · exact Or.inl h1
        · exact Or.inr (Or.inr h2)

theorem mem_chain_set_val (h : Nat) (k : string_t) (v : Value) (chain : List env_entry_t)
    (e : env_entry_t) (he : e ∈ chain_set_val h k v chain) : e.val = v ∨ e ∈ chain := by
  induction chain with
  | nil => simp [chain_set_val] at he
  | cons x xs ih =>
    simp only [chain_set_val] at he
    split at he
    · rcases List.mem_cons.mp he with h1 | h2
      · exact Or.inl (by rw [h1])
      · exact Or.inr (List.mem_cons_of_mem _ h2)
    · rcases List.mem_cons.mp he with h1 | h2
      · exact Or.inr (by rw [h1]; exact List.mem_cons_self _ _)
      · rcases ih h2 with h3 | h4
        · exact Or.inl h3
        · exact Or.inr (List.mem_cons_of_mem _ h4)

/-- The values in a frame after `env_put`: the value put, or values that were
in the frame. -/
theorem env_put_vals (P : Value → Prop) (env : env_t) (k : string_t) (v : Value)
    (hold : ∀ e ∈ env.entries, P e.val) (hv : P v) :
    ∀ e ∈ (env_put env k v).entries, P e.val := by
  intro e he
  cases hl : __env_lookup env k with
  | some e0 =>
    rw [env_put_of_some env k v e0 hl] at he
    rcases mem_flatten_set _ _ _ _ he with h1 | h2
    · rcases mem_chain_set_val _ _ _ _ _ h1 with h3 | h4
      · rw [h3]; exact hv
      · exact hold e (mem_flatten_of_mem_getD _ _ _ h4)
    · exact hold e h2
  | none =>
    rw [env_put_of_none env k v hl] at he
    rcases mem_flatten_set _ _ _ _ he with h1 | h2
    · rcases List.mem_cons.mp h1 with h3 | h4
      · rw [h3]; exact hv
      · exact hold e (mem_flatten_of_mem_getD _ _ _ h4)
    · exact hold e h2

/-- The values in a frame after `env_add`: the value added, or values that
were in the frame. -/
theorem env_add_aux_vals (P : Value → Prop) (fuel : Nat) :
    ∀ (env : env_t) (k : string_t) (v : Value), (∀ e ∈ env.entries, P e.val) → P v →
      ∀ e ∈ (env_add_aux fuel env k v).entries, P e.val := by
  induction fuel with
  | zero => intro env k v hold _; exact hold
  | succ n ih =>
    intro env k v hold hv
    have hfold : ∀ (es : List env_entry_t) (ne : env_t), (∀ e ∈ es, P e.val) →
        (∀ e ∈ ne.entries, P e.val) →
        ∀ e ∈ (es.foldl (fun new_env entry => env_add_aux n new_env entry.key entry.val)
          ne).entries, P e.val := by
      intro es
      induction es with
      | nil => intro ne _ hne; exact hne
      | cons x xs ihx =>
        intro ne hes hne
        simp only [List.foldl_cons]
        exact ihx _ (fun e he => hes e (List.mem_cons_of_mem _ he))
          (ih ne x.key x.val hne (hes x (List.mem_cons_self _ _)))
    simp only [env_add_aux]
    apply env_put_vals P _ k v _ hv
    split
    · apply hfold env.entries _ hold
      rw [alloc_env_entries]
      intro e he
      cases he
    · exact hold

theorem env_lookup_mem (env : env_t) (k : string_t) (v : Value)
    (h : env_lookup env k = some v) : ∃ e ∈ env.entries, e.val = v := by
  simp only [env_lookup, Option.map_eq_some'] at h
  obtain ⟨e, he, hv⟩ := h
  exact ⟨e, mem_flatten_of_mem_getD _ _ _ (List.mem_of_find?_eq_some he), hv⟩

theorem lookup_from_no_empty_list (fuel : Nat) (s : State) (hs : state_no_empty_list s)
    (symb : string_t) :
    ∀ (p : Option Nat) (v : Value), lookup_from fuel s p symb = .ok (some v) →
      no_empty_list v = true := by
  induction fuel with
  | zero =>
    intro p v h
    cases p <;> simp [lookup_from] at h
  | succ n ih =>
    intro p v h
    cases p with
    | none => simp [lookup_from] at h
    | some a =>
      simp only [lookup_from] at h
      cases hd : s.deref a with
      | none => simp [hd] at h
      | some env =>
        simp only [hd] at h
        cases hl : env_lookup env symb with
        | some w =>
          simp only [hl, Except.ok.injEq, Option.some.injEq] at h
          obtain ⟨e, he, hw⟩ := env_lookup_mem env symb w hl
          rw [← h, ← hw]
          exact hs a env hd e he
        | none =>
          simp only [hl] at h
          exact ih _ _ h

theorem state_no_empty_list_bind (symb : string_t) (val : Value) (s s1 : State)
    (hs : state_no_empty_list s) (hv : no_empty_list val = true)
    (h : bind symb val s = .ok s1) : state_no_empty_list s1 := by
  obtain ⟨_, d1, env, hd, hd1⟩ := bind_frame_local symb val s s1 h
  intro a env1 ha e he
  by_cases hac : a = s.cur_env
  · subst hac
    rw [hd1] at ha
    injection ha with ha
    subst ha
    exact env_add_aux_vals (fun w => no_empty_list w = true) _ env symb val
      (hs _ env hd) hv e he
  · rw [d1 a hac] at ha
    exact hs a env1 ha e he

theorem state_no_empty_list_bind_params (params args : List Value) (s s1 : State)
    (hs : state_no_empty_list s) (ha : no_empty_list_cells args = true)
    (h : bind_params params args s = .ok s1) : state_no_empty_list s1 := by
  induction params generalizing args s with
  | nil =>
    cases args with
    | nil => simp only [bind_params, Except.ok.injEq] at h; subst h; exact hs
    | cons a as => simp [bind_params] at h
  | cons p ps ih =>
    cases args with
    | nil => simp [bind_params] at h
    | cons a as =>
      simp only [no_empty_list_cells, Bool.and_eq_true] at ha
      cases p <;> simp only [bind_params] at h <;> try (exact absurd h (by simp))
      rename_i symb
      cases hb : bind symb a s with
      | error e => simp [hb] at h
      | ok s2 =>
        simp only [hb] at h
        exact ih as s2 (state_no_empty_list_bind symb a s s2 hs ha.1 hb) ha.2 h

theorem state_no_empty_list_enter_call (s : State) (hs : state_no_empty_list s) :
    state_no_empty_list (enter_call s) := by
  intro a env ha e he
  by_cases hal : a = s.heap.length
  · subst hal
    have := deref_enter_call_self s
    simp only [enter_call] at this ha
    rw [this] at ha
    injection ha with ha
    rw [← ha, alloc_env_entries] at he
    cases he
  · rw [deref_enter_call s a hal] at ha
    exact hs a env ha e he

theorem state_no_empty_list_free (s : State) (i c : Nat) (hs : state_no_empty_list s) :
    state_no_empty_list { heap := s.heap.set i none, cur_env := c } := by
  intro a env ha e he
  rw [deref_set] at ha
  split at ha
  · cases ha
  · exact hs a env ha e he

theorem init_g_env_no_empty_list (g : env_t)
    (hg : ∀ e ∈ g.entries, no_empty_list e.val = true) :
    ∀ e ∈ (init_g_env g).entries, no_empty_list e.val = true := by
  have step : ∀ (env : env_t) (k : string_t) (p : Prim),
      (∀ e ∈ env.entries, no_empty_list e.val = true) →
      ∀ e ∈ (env_add env k (.PRIM p)).entries, no_empty_list e.val = true :=
    fun env k p h => env_add_aux_vals (fun w => no_empty_list w = true) _ env k _ h rfl
  unfold init_g_env
  exact step _ _ _ (step _ _ _ (step _ _ _ (step _ _ _ (step _ _ _ (step _ _ _ (step _ _ _
    (step _ _ _ (step _ _ _ (step _ _ _ (step _ _ _ (step _ _ _ (step _ _ _
    (step _ _ _ hg)))))))))))))

theorem init_state_no_empty_list : state_no_empty_list init_state := by
  intro a env ha e he
  cases a with
  | zero =>
    have h0 : init_state.deref 0 = some (init_g_env (alloc_env none ENV_INIT_SIZE)) := rfl
    have henv := Option.some.inj (h0.symm.trans ha)
    rw [← henv] at he
    refine init_g_env_no_empty_list _ ?_ e he
    rw [alloc_env_entries]
    intro x hx
    cases hx
  | succ n =>
    simp [State.deref, init_state, List.getD_eq_getElem?_getD] at ha

theorem no_empty_list_getLast (l : List Value) (h : no_empty_list_cells l = true) :
    no_empty_list (l.getLast?.getD .EMPTY) = true := by
  induction l with
  | nil => rfl
  | cons a t ih =>
    simp only [no_empty_list_cells, Bool.and_eq_true] at h
    cases t with
    | nil => simpa using h.1
    | cons b u =>
      rw [List.getLast?_cons_cons]
      exact ih h.2

theorem eval_each_agree (ev ev1 : Evaluator) (hA : agree_no_empty_list ev ev1)
    (list : List Value) :
    ∀ (s : State), no_empty_list_cells list = true → state_no_empty_list s →
      eval_each ev1 list s = eval_each ev list s ∧
      ∀ vals s1, eval_each ev list s = .ok (vals, s1) →
        no_empty_list_cells vals = true ∧ state_no_empty_list s1 := by
  induction list with
  | nil =>
    intro s _ hs
    refine ⟨rfl, fun vals s1 h => ?_⟩
    simp only [eval_each, Except.ok.injEq, Prod.mk.injEq] at h
    rw [← h.1, ← h.2]
    exact ⟨rfl, hs⟩
  | cons v rest ih =>
    intro s hl hs
    simp only [no_empty_list_cells, Bool.and_eq_true] at hl
    obtain ⟨heq, hpres⟩ := hA v s hl.1 hs
    simp only [eval_each, heq]
    cases hv : ev v s with
    | error e => exact ⟨rfl, fun vals s1 h => by simp at h⟩
    | ok r =>
      obtain ⟨val, s2⟩ := r
      obtain ⟨g1, g2⟩ := hpres val s2 hv
      obtain ⟨heq2, hpres2⟩ := ih s2 hl.2 g2
      simp only [heq2]
      refine ⟨trivial, fun vals s1 h => ?_⟩
      cases hr : eval_each ev rest s2 with
      | error e => simp [hr] at h
      | ok r2 =>
        obtain ⟨vals2, s3⟩ := r2
        simp only [hr, Except.ok.injEq, Prod.mk.injEq] at h
        obtain ⟨g3, g4⟩ := hpres2 vals2 s3 hr
        rw [← h.1, ← h.2]
        simp only [no_empty_list_cells, Bool.and_eq_true]
        exact ⟨⟨g1, g3⟩, g4⟩

theorem apply_agree (ev ev1 : Evaluator) (hA : agree_no_empty_list ev ev1) (func : Value)
    (args : List Value) (s : State) (hf : no_empty_list func = true)
    (ha : no_empty_list_cells args = true) (hs : state_no_empty_list s) :
    apply ev1 func args s = apply ev func args s ∧
    ∀ r s1, apply ev func args s = .ok (r, s1) →
      no_empty_list r = true ∧ state_no_empty_list s1 := by
  cases func
  case FUNC params body =>
    simp only [no_empty_list, Bool.and_eq_true] at hf
    simp only [apply]
    cases hb : bind_params params args (enter_call s) with
    | error e => exact ⟨rfl, fun r s1 h => by simp at h⟩
    | ok s2 =>
      have hs2 := state_no_empty_list_bind_params params args _ s2
        (state_no_empty_list_enter_call s hs) ha hb
      obtain ⟨heq, hpres⟩ := eval_each_agree ev ev1 hA body s2 hf.2 hs2
      simp only [heq]
      refine ⟨trivial, fun r s1 h => ?_⟩
      cases he : eval_each ev body s2 with
      | error e => simp [he] at h
      | ok r2 =>
        obtain ⟨exprs, s3⟩ := r2
        obtain ⟨g1, g2⟩ := hpres exprs s3 he
        simp only [he] at h
        cases hd : s3.deref s3.cur_env with
        | none => simp [hd] at h
        | some env =>
          simp only [hd, Except.ok.injEq, Prod.mk.injEq] at h
          rw [← h.1, ← h.2]
          exact ⟨no_empty_list_getLast exprs g1, state_no_empty_list_free s3 _ _ g2⟩
  all_goals exact ⟨rfl, fun r s1 h => by simp [apply] at h⟩

theorem prim_def_agree (ev ev1 : Evaluator) (hA : agree_no_empty_list ev ev1)
    (list : List Value) (s : State) (hl : no_empty_list_cells list = true)
    (hs : state_no_empty_list s) :
    prim_def ev1 list s = prim_def ev list s ∧
    ∀ r s1, prim_def ev list s = .ok (r, s1) →
      no_empty_list r = true ∧ state_no_empty_list s1 := by
  have hbind : ∀ (name : string_t) (val : Value) (s0 : State) (r : Value) (s1 : State),
      no_empty_list val = true → state_no_empty_list s0 →
      (match bind name val s0 with
        | .error e => .error e
        | .ok s2 => .ok (Value.SYMB name, s2)) = Except.ok (r, s1) →
      no_empty_list r = true ∧ state_no_empty_list s1 := by
    intro name val s0 r s1 hv hs0 h
    cases hb : bind name val s0 with
    | error e => simp [hb] at h
    | ok s2 =>
      simp only [hb, Except.ok.injEq, Prod.mk.injEq] at h
      rw [← h.1, ← h.2]
      exact ⟨rfl, state_no_empty_list_bind name val s0 s2 hs0 hv hb⟩
  cases list with
  | nil => exact ⟨rfl, fun r s1 h => by simp [prim_def] at h⟩
  | cons a t =>
    cases t with
    | nil => exact ⟨by simp [prim_def], fun r s1 h => by simp [prim_def] at h⟩
    | cons expr rest =>
      simp only [no_empty_list_cells, Bool.and_eq_true] at hl
      cases a
      case SYMB name =>
        simp only [prim_def]
        cases hlam : is_lambda_form expr with
        | error e => exact ⟨rfl, fun r s1 h => by simp at h⟩
        | ok b =>
          cases b with
          | false =>
            simp only
            exact ⟨trivial, fun r s1 h => hbind name expr s r s1 hl.2.1 hs h⟩
          | true =>
            obtain ⟨heq, hpres⟩ := hA expr s hl.2.1 hs
            simp only [heq]
            refine ⟨trivial, fun r s1 h => ?_⟩
            cases hv : ev expr s with
            | error e => simp [hv] at h
            | ok r2 =>
              obtain ⟨expr1, s2⟩ := r2
              obtain ⟨g1, g2⟩ := hpres expr1 s2 hv
              simp only [hv] at h
              exact hbind name expr1 s2 r s1 g1 g2 h
      case LIST nap =>
        refine ⟨rfl, fun r s1 h => ?_⟩
        cases nap with
        | nil => simp [prim_def] at h
        | cons nm params =>
          cases nm
          case SYMB name =>
            simp only [prim_def] at h
            refine hbind name _ s r s1 ?_ hs h
            have h1 := hl.1
            simp only [no_empty_list, no_empty_list_cells, Bool.and_eq_true] at h1
            simp only [no_empty_list, no_empty_list_cells, Bool.and_eq_true]
            exact ⟨h1.2.2, hl.2.1, hl.2.2⟩
          all_goals simp [prim_def] at h
      all_goals exact ⟨rfl, fun r s1 h => by simp [prim_def] at h⟩

theorem prim_if_agree (ev ev1 : Evaluator) (hA : agree_no_empty_list ev ev1)
    (list : List Value) (s : State) (hl : no_empty_list_cells list = true)
    (hs : state_no_empty_list s) :
    prim_if ev1 list s = prim_if ev list s ∧
    ∀ r s1, prim_if ev list s = .ok (r, s1) →
      no_empty_list r = true ∧ state_no_empty_list s1 := by
  cases list with
  | nil => exact ⟨rfl, fun r s1 h => by simp [prim_if] at h⟩
  | cons cond t =>
    cases t with
    | nil => exact ⟨rfl, fun r s1 h => by simp [prim_if] at h⟩
    | cons consequent rest =>
      simp only [no_empty_list_cells, Bool.and_eq_true] at hl
      obtain ⟨heq, hpres⟩ := hA cond s hl.1 hs
      simp only [prim_if, heq]
      cases hc : ev cond s with
      | error e => exact ⟨rfl, fun r s1 h => by simp at h⟩
      | ok r2 =>
        obtain ⟨c, s2⟩ := r2
        obtain ⟨gc, g2⟩ := hpres c s2 hc
        cases c
        case BOOL b =>
          cases b with
          | true =>
            simp only [if_true]
            exact hA consequent s2 hl.2.1 g2
          | false =>
            simp only [Bool.false_eq_true, if_false]
            cases rest with
            | nil =>
              refine ⟨rfl, fun r s1 h => ?_⟩
              simp only [Except.ok.injEq, Prod.mk.injEq] at h
              rw [← h.1, ← h.2]
              exact ⟨rfl, g2⟩
            | cons alt more =>
              simp only [no_empty_list_cells, Bool.and_eq_true] at hl
              exact hA alt s2 hl.2.2.1 g2
        all_goals exact ⟨rfl, fun r s1 h => by simp at h⟩

theorem map_int_no_empty_list (r : Except Err Int) (v : Value)
    (h : r.map Value.INT = .ok v) : no_empty_list v = true := by
  cases r with
  | error e => simp [Except.map] at h
  | ok n =>
    simp only [Except.map, Except.ok.injEq] at h
    rw [← h]
    rfl

/-- A primitive on evaluated arguments returns an `Int` or a `Bool`. -/
theorem prim_result_no_empty_list (vals : List Value) (v : Value) :
    (prim_add vals = .ok v → no_empty_list v = true) ∧
    (prim_sub vals = .ok v → no_empty_list v = true) ∧
    (prim_mul vals = .ok v → no_empty_list v = true) ∧
    (prim_div vals = .ok v → no_empty_list v = true) ∧
    (∀ op, prim_rel op vals = .ok v → no_empty_list v = true) ∧
    (prim_not vals = .ok v → no_empty_list v = true) := by
  refine ⟨fun h => map_int_no_empty_list _ v h, ?_, fun h => map_int_no_empty_list _ v h,
    ?_, ?_, ?_⟩
  · intro h
    unfold prim_sub at h
    split at h
    · split at h
      · simp at h
      · exact map_int_no_empty_list _ v h
    · exact map_int_no_empty_list _ v h
  · intro h
    unfold prim_div at h
    split at h
    · simp at h
    · exact map_int_no_empty_list _ v h
    · simp at h
  · intro op h
    unfold prim_rel at h
    split at h
    · simp at h
    · simp at h
    · split at h <;> first
        | (simp only [Except.ok.injEq] at h; rw [← h]; rfl)
        | (simp at h)
    · simp at h
  · intro h
    unfold prim_not at h
    split at h
    · simp only [Except.ok.injEq] at h
      rw [← h]
      rfl
    · simp at h

theorem prim_lambda_no_empty_list (rest : List Value) (v : Value)
    (hl : no_empty_list_cells rest = true) (h : prim_lambda rest = .ok v) :
    no_empty_list v = true := by
  unfold prim_lambda at h
  split at h
  · simp at h
  · rename_i params body
    simp only [no_empty_list_cells, no_empty_list, Bool.and_eq_true] at hl
    split at h
    · simp at h
    · simp only [Except.ok.injEq] at h
      rw [← h]
      simp only [no_empty_list, Bool.and_eq_true]
      exact ⟨hl.1.2, hl.2⟩
  · rename_i body
    simp only [no_empty_list_cells, Bool.and_eq_true] at hl
    split at h
    · simp at h
    · simp only [Except.ok.injEq] at h
      rw [← h]
      simp only [no_empty_list, no_empty_list_cells, Bool.and_eq_true, true_and]
      exact hl.2
  · simp at h

theorem eval_prim_agree (ev ev1 : Evaluator) (hA : agree_no_empty_list ev ev1)
    (prim : List Value → Except Err Value)
    (hprim : ∀ vals v, prim vals = .ok v → no_empty_list v = true)
    (args : List Value) (s : State) (hl : no_empty_list_cells args = true)
    (hs : state_no_empty_list s) :
    eval_prim ev1 prim args s = eval_prim ev prim args s ∧
    ∀ r s1, eval_prim ev prim args s = .ok (r, s1) →
      no_empty_list r = true ∧ state_no_empty_list s1 := by
  obtain ⟨heq, hpres⟩ := eval_each_agree ev ev1 hA args s hl hs
  simp only [eval_prim, heq]
  refine ⟨trivial, fun r s1 h => ?_⟩
  cases he : eval_each ev args s with
  | error e => simp [he] at h
  | ok r2 =>
    obtain ⟨vals, s2⟩ := r2
    obtain ⟨_, g2⟩ := hpres vals s2 he
    simp only [he] at h
    cases hp : prim vals with
    | error e => simp [hp] at h
    | ok v =>
      simp only [hp, Except.ok.injEq, Prod.mk.injEq] at h
      rw [← h.1, ← h.2]
      exact ⟨hprim vals v hp, g2⟩

theorem eval_dispatch_agree (ev ev1 : Evaluator) (hA : agree_no_empty_list ev ev1)
    (op : Value) (rest : List Value) (s : State) (ho : no_empty_list op = true)
    (hl : no_empty_list_cells rest = true) (hs : state_no_empty_list s) :
    eval_dispatch ev1 op rest s = eval_dispatch ev op rest s ∧
    ∀ r s1, eval_dispatch ev op rest s = .ok (r, s1) →
      no_empty_list r = true ∧ state_no_empty_list s1 := by
  have hid : ∀ (r : Value) (s1 : State),
      (Except.ok (op, s) : Except Err (Value × State)) = .ok (r, s1) →
      no_empty_list r = true ∧ state_no_empty_list s1 := by
    intro r s1 h
    simp only [Except.ok.injEq, Prod.mk.injEq] at h
    rw [← h.1, ← h.2]
    exact ⟨ho, hs⟩
  cases op with
  | EMPTY => exact ⟨rfl, hid⟩
  | INT n => exact ⟨rfl, hid⟩
  | LIST l => exact ⟨rfl, hid⟩
  | BOOL b => exact ⟨rfl, fun r s1 h => by simp [eval_dispatch] at h⟩
  | SYMB x => exact hA _ s ho hs
  | FUNC params body =>
    obtain ⟨heq, hpres⟩ := eval_each_agree ev ev1 hA rest s hl hs
    simp only [eval_dispatch, heq]
    cases he : eval_each ev rest s with
    | error e => exact ⟨rfl, fun r s1 h => by simp at h⟩
    | ok r2 =>
      obtain ⟨args, s2⟩ := r2
      obtain ⟨g1, g2⟩ := hpres args s2 he
      exact apply_agree ev ev1 hA _ args s2 ho g1 g2
  | PRIM p =>
    have hp := fun vals v => prim_result_no_empty_list vals v
    cases p
    case DEF => exact prim_def_agree ev ev1 hA rest s hl hs
    case IF => exact prim_if_agree ev ev1 hA rest s hl hs
    case LAMBDA =>
      refine ⟨rfl, fun r s1 h => ?_⟩
      simp only [eval_dispatch] at h
      cases hlam : prim_lambda rest with
      | error e => simp [hlam] at h
      | ok v =>
        simp only [hlam, Except.ok.injEq, Prod.mk.injEq] at h
        rw [← h.1, ← h.2]
        exact ⟨prim_lambda_no_empty_list rest v hl hlam, hs⟩
    case ADD => exact eval_prim_agree ev ev1 hA _ (fun vals v => (hp vals v).1) rest s hl hs
    case SUB => exact eval_prim_agree ev ev1 hA _ (fun vals v => (hp vals v).2.1) rest s hl hs
    case MUL => exact eval_prim_agree ev ev1 hA _ (fun vals v => (hp vals v).2.2.1) rest s hl hs
    case DIV =>
      exact eval_prim_agree ev ev1 hA _ (fun vals v => (hp vals v).2.2.2.1) rest s hl hs
    case NOT =>
      exact eval_prim_agree ev ev1 hA _ (fun vals v => (hp vals v).2.2.2.2.2) rest s hl hs
    all_goals
      exact eval_prim_agree ev ev1 hA _ (fun vals v => (hp vals v).2.2.2.2.1 _) rest s hl hs

theorem eval_body_agree (fuel : Nat) (ev ev1 : Evaluator) (hA : agree_no_empty_list ev ev1) :
    agree_no_empty_list (eval_body fuel ev) (eval_body fuel ev1) := by
  intro val s hv hs
  have hid : ∀ (r : Value) (s1 : State),
      (Except.ok (val, s) : Except Err (Value × State)) = .ok (r, s1) →
      no_empty_list r = true ∧ state_no_empty_list s1 := by
    intro r s1 h
    simp only [Except.ok.injEq, Prod.mk.injEq] at h
    rw [← h.1, ← h.2]
    exact ⟨hv, hs⟩
  cases val with
  | LIST list =>
    cases list with
    | nil => simp [no_empty_list] at hv
    | cons head rest =>
      simp only [no_empty_list, no_empty_list_cells, List.isEmpty_cons, Bool.not_false,
        Bool.true_and, Bool.and_eq_true] at hv
      have hother : (match ev1 head s with
            | .error e => (Except.error e : Except Err (Value × State))
            | .ok (op, s1) => eval_dispatch ev1 op rest s1)
          = (match ev head s with
            | .error e => (Except.error e : Except Err (Value × State))
            | .ok (op, s1) => eval_dispatch ev op rest s1) ∧
          ∀ r s1, (match ev head s with
            | .error e => (Except.error e : Except Err (Value × State))
            | .ok (op, s1) => eval_dispatch ev op rest s1) = Except.ok (r, s1) →
            no_empty_list r = true ∧ state_no_empty_list s1 := by
        obtain ⟨heq, hpres⟩ := hA head s hv.1 hs
        rw [heq]
        cases hh : ev head s with
        | error e => exact ⟨rfl, fun r s1 h => by simp at h⟩
        | ok r2 =>
          obtain ⟨op, s2⟩ := r2
          obtain ⟨g1, g2⟩ := hpres op s2 hh
          exact eval_dispatch_agree ev ev1 hA op rest s2 g1 hv.2 g2
      cases head
      case SYMB symb =>
        simp only [eval_body]
        cases hl : lookup fuel s symb with
        | error e => exact ⟨rfl, fun r s1 h => by simp at h⟩
        | ok o =>
          cases o with
          | none => exact ⟨rfl, fun r s1 h => by simp at h⟩
          | some op =>
            exact eval_dispatch_agree ev ev1 hA op rest s
              (lookup_from_no_empty_list fuel s hs symb _ op hl) hv.2 hs
      all_goals exact hother
  | SYMB symb =>
    simp only [eval_body]
    cases hl : lookup fuel s symb with
    | error e => exact ⟨rfl, fun r s1 h => by simp at h⟩
    | ok o =>
      cases o with
      | none => exact ⟨rfl, fun r s1 h => by simp at h⟩
      | some ret =>
        exact hA ret s (lookup_from_no_empty_list fuel s hs symb _ ret hl) hs
  | EMPTY => exact ⟨rfl, hid⟩
  | INT n => exact ⟨rfl, hid⟩
  | BOOL b => exact ⟨rfl, hid⟩
  | FUNC p q => exact ⟨rfl, hid⟩
  | PRIM p => exact ⟨rfl, hid⟩

/-- On values and states without empty cell chain, `eval` never calls itself
on a value that has one (what `other` does on such values does not matter),
and it returns a value and a state without empty cell chain. -/
theorem eval_agree (other : Evaluator) (fuel : Nat) :
    agree_no_empty_list (eval fuel) (eval_checked other fuel) := by
  induction fuel with
  | zero => intro v s _ _; exact ⟨rfl, fun r s1 h => by simp [eval] at h⟩
  | succ n ih =>
    have hA : agree_no_empty_list (eval n) (checked other (eval_checked other n)) := by
      intro v s hv hs
      obtain ⟨heq, hpres⟩ := ih v s hv hs
      refine ⟨?_, hpres⟩
      simp only [checked, hv, if_true, heq]
    exact eval_body_agree n (eval n) _ hA

/-- C20: every `List` value that `read` returns has a non-empty cell chain at
every nesting depth (`no_empty_list`; `()` and a group holding only blanks or
a comment read as `Empty`), and on a value produced by `read`, in a state
whose bindings have no empty cell chain either, `eval` never reaches the
head access of an empty chain: the value itself has a head, no recursive
call of `eval` is made on a value with an empty chain (replacing `eval` on
such values by any `other` evaluator changes nothing, at any fuel), and the
value and state it returns again have no empty cell chain, so the next round
of the loop starts from the same precondition. -/
theorem C20_read_lists_have_a_head (fuel : Nat) (p p1 : List Nat) (v : Value) (s : State)
    (hr : read fuel p = .ok (some v, p1)) (hs : state_no_empty_list s) :
    no_empty_list v = true ∧
    (∀ l, v = .LIST l → ∃ head rest, l = head :: rest) ∧
    (∀ other n, eval_checked other n v s = eval n v s) ∧
    (∀ n r s1, eval n v s = .ok (r, s1) →
      no_empty_list r = true ∧ state_no_empty_list s1) ∧
    read 9 (STRING "()") = .ok (some .EMPTY, []) ∧
    read 9 (STRING "(  \n )") = .ok (some .EMPTY, []) ∧
    read 9 (STRING "( ;c\n)") = .ok (some .EMPTY, []) ∧
    read 9 (STRING "(a ())")
      = .ok (some (.LIST [.SYMB (STRING "a"), .EMPTY]), []) := by
  have hv : no_empty_list v = true := (read_no_empty_list fuel).1 p v p1 hr
  refine ⟨hv, ?_, fun other n => (eval_agree other n v s hv hs).1,
    fun n r s1 h => (eval_agree (fun _ _ => .error .out_of_fuel) n v s hv hs).2 r s1 h,
    by decide, by decide, by decide, by decide⟩
  intro l hl
  subst hl
  cases l with
  | nil => simp [no_empty_list] at hv
  | cons head rest => exact ⟨head, rest, rfl⟩

/-- C20 at `(+ 1 (* 2 3))` read from the text and evaluated in the start
state; the evaluator that answers `Int 0` on values with an empty cell chain
differs from `eval` on `(())`, which `read` never returns. -/
theorem C20_read_lists_have_a_head_witness :
    read 20 (STRING "(+ 1 (* 2 3))")
      = .ok (some (.LIST [.SYMB (STRING "+"), .INT 1,
          .LIST [.SYMB (STRING "*"), .INT 2, .INT 3]]), []) ∧
    (∀ other n,
      eval_checked other n (.LIST [.SYMB (STRING "+"), .INT 1,
          .LIST [.SYMB (STRING "*"), .INT 2, .INT 3]]) init_state
        = eval n (.LIST [.SYMB (STRING "+"), .INT 1,
          .LIST [.SYMB (STRING "*"), .INT 2, .INT 3]]) init_state) ∧
    (eval 30 (.LIST [.SYMB (STRING "+"), .INT 1,
          .LIST [.SYMB (STRING "*"), .INT 2, .INT 3]]) init_state).map Prod.fst
      = .ok (.INT 7) ∧
    (eval 3 (.LIST [.LIST []]) init_state).map Prod.fst = .error .undefined_behaviour ∧
    (eval_checked (fun _ s => .ok (.INT 0, s)) 3 (.LIST [.LIST []]) init_state).map Prod.fst
      = .ok (.INT 0) :=
  ⟨by decide!,
   (C20_read_lists_have_a_head 20 (STRING "(+ 1 (* 2 3))") [] _ init_state
      (by decide!) init_state_no_empty_list).2.2.1,
   by decide!, by decide!, by decide!⟩

end Kawaii
